import Mathlib

/-!
# nbmolviz2d: reconciliation utilities and the 2D view controller

A shallow embedding of `src/utils/molecule_utils.js` and of the message
handling part of `src/views/nbmolviz2d_view.js`.

## Data model

JavaScript values are finite trees (the data of this program arrives as JSON):
primitives at the leaves, objects and arrays at the inner nodes.  Every object
carries the address it lives at, so that object identity (the `===` of two
object references) can be stated: two object values are the same JavaScript
object exactly when their addresses agree.  Numbers are integers (no `NaN`,
no signed zero).  A property list is kept in the order `Object.keys` reports:
integer keys ascending, then the other keys in insertion order.

A mutating routine is embedded as the function from the contents of its
arguments on entry to the contents of the mutated argument on return.  The
structures handed to a routine are trees that share no object on entry, the
shape `JSON.parse` produces.

JavaScript gives some keys a meaning of their own: a write to the `length` of
an array sets its length, a write to `__proto__` goes to a setter, and a read
of a name an object inherits (`toString`, `constructor`, ...) finds the
inherited member.  The merge `updateObjectInPlace` is embedded twice: as
`updateObjectInPlace`, which treats every key alike (a write stores a
property, a read of a key the object does not own yields `undefined`), and as
`updateObjectInPlaceFull`, which follows JavaScript on these keys.  The two
agree on data that has none of these keys (`updateObjectInPlaceFull_eq`).
-/

/-- A property key: a canonical array index or any other string. -/
inductive Key where
  | idx (n : Nat)
  | name (s : String)
  deriving DecidableEq, Repr

/-- A JavaScript value.  `obj addr isArray props` is the object (an array when
`isArray`) living at `addr` with own enumerable properties `props`; an array
whose `length` was written keeps it as the entry `length` (`writeProp`). -/
inductive JSValue where
  | undefined
  | null
  | bool (b : Bool)
  | num (n : Int)
  | str (s : String)
  | obj (addr : Nat) (isArray : Bool) (props : List (Key × JSValue))

/-- Own enumerable properties, in `Object.keys` order. -/
abbrev Props := List (Key × JSValue)

mutual
/-- Decidable equality of values (contents and addresses). -/
def JSValue.decEq : (a b : JSValue) → Decidable (a = b)
  | .undefined, .undefined => isTrue rfl
  | .null, .null => isTrue rfl
  | .bool a, .bool b =>
    if h : a = b then isTrue (by rw [h]) else isFalse (by intro e; cases e; exact h rfl)
  | .num a, .num b =>
    if h : a = b then isTrue (by rw [h]) else isFalse (by intro e; cases e; exact h rfl)
  | .str a, .str b =>
    if h : a = b then isTrue (by rw [h]) else isFalse (by intro e; cases e; exact h rfl)
  | .obj a f p, .obj b g q =>
    if h1 : a = b then
      if h2 : f = g then
        match JSValue.decEqProps p q with
        | isTrue h3 => isTrue (by rw [h1, h2, h3])
        | isFalse h3 => isFalse (by intro e; cases e; exact h3 rfl)
      else isFalse (by intro e; cases e; exact h2 rfl)
    else isFalse (by intro e; cases e; exact h1 rfl)
  | .undefined, .null => isFalse (by intro e; cases e)
  | .undefined, .bool _ => isFalse (by intro e; cases e)
  | .undefined, .num _ => isFalse (by intro e; cases e)
  | .undefined, .str _ => isFalse (by intro e; cases e)
  | .undefined, .obj _ _ _ => isFalse (by intro e; cases e)
  | .null, .undefined => isFalse (by intro e; cases e)
  | .null, .bool _ => isFalse (by intro e; cases e)
  | .null, .num _ => isFalse (by intro e; cases e)
  | .null, .str _ => isFalse (by intro e; cases e)
  | .null, .obj _ _ _ => isFalse (by intro e; cases e)
  | .bool _, .undefined => isFalse (by intro e; cases e)
  | .bool _, .null => isFalse (by intro e; cases e)
  | .bool _, .num _ => isFalse (by intro e; cases e)
  | .bool _, .str _ => isFalse (by intro e; cases e)
  | .bool _, .obj _ _ _ => isFalse (by intro e; cases e)
  | .num _, .undefined => isFalse (by intro e; cases e)
  | .num _, .null => isFalse (by intro e; cases e)
  | .num _, .bool _ => isFalse (by intro e; cases e)
  | .num _, .str _ => isFalse (by intro e; cases e)
  | .num _, .obj _ _ _ => isFalse (by intro e; cases e)
  | .str _, .undefined => isFalse (by intro e; cases e)
  | .str _, .null => isFalse (by intro e; cases e)
  | .str _, .bool _ => isFalse (by intro e; cases e)
  | .str _, .num _ => isFalse (by intro e; cases e)
  | .str _, .obj _ _ _ => isFalse (by intro e; cases e)
  | .obj _ _ _, .undefined => isFalse (by intro e; cases e)
  | .obj _ _ _, .null => isFalse (by intro e; cases e)
  | .obj _ _ _, .bool _ => isFalse (by intro e; cases e)
  | .obj _ _ _, .num _ => isFalse (by intro e; cases e)
  | .obj _ _ _, .str _ => isFalse (by intro e; cases e)
/-- Decidable equality of property lists. -/
def JSValue.decEqProps : (a b : List (Key × JSValue)) → Decidable (a = b)
  | [], [] => isTrue rfl
  | [], _ :: _ => isFalse (by intro e; cases e)
  | _ :: _, [] => isFalse (by intro e; cases e)
  | (k, v) :: p, (l, w) :: q =>
    if h1 : k = l then
      match JSValue.decEq v w with
      | isTrue h2 =>
        match JSValue.decEqProps p q with
        | isTrue h3 => isTrue (by rw [h1, h2, h3])
        | isFalse h3 => isFalse (by intro e; cases e; exact h3 rfl)
      | isFalse h2 => isFalse (by intro e; cases e; exact h2 rfl)
    else isFalse (by intro e; cases e; exact h1 rfl)
end

instance : DecidableEq JSValue := JSValue.decEq

/-- An object or array on its own: address, array flag and properties. -/
structure JSObject where
  addr : Nat
  isArray : Bool
  props : Props
  deriving DecidableEq

/-- A JavaScript array of records, as `updateModels` receives it. -/
structure JSArray where
  addr : Nat
  elems : List JSObject
  deriving DecidableEq

namespace JSValue

/-- The test `v instanceof Object`: true of objects and arrays, false of
every primitive, `null` and `undefined` included. -/
def isObject : JSValue → Bool
  | .obj _ _ _ => true
  | _ => false

/-- The comparison `a === b`: primitives by value, objects by identity. -/
def strictEq : JSValue → JSValue → Bool
  | .undefined, .undefined => true
  | .null, .null => true
  | .bool a, .bool b => a == b
  | .num a, .num b => a == b
  | .str a, .str b => a == b
  | .obj a _ _, .obj b _ _ => a == b
  | _, _ => false

end JSValue

/-- The read `o[key]`: the value of the first entry for `key`, `undefined`
when the object has no such property. -/
def getProp : Props → Key → JSValue
  | [], _ => .undefined
  | (k, v) :: rest, key => if k = key then v else getProp rest key

/-- Whether `key` is an own property. -/
def hasKey (ps : Props) (key : Key) : Bool :=
  ps.any (fun p => p.1 == key)

/-- The list `Object.keys(o)`. -/
def objectKeys (ps : Props) : List Key :=
  ps.map Prod.fst

/-- Overwrite the value of an existing property, keeping its position. -/
def replaceProp : Props → Key → JSValue → Props
  | [], _, _ => []
  | (k, w) :: rest, key, v =>
    if k = key then (k, v) :: rest else (k, w) :: replaceProp rest key v

/-- Whether a new key is listed before an existing one: an integer key goes
before every larger integer key and before every string key; a string key
goes last. -/
def Key.before : Key → Key → Bool
  | .idx n, .idx m => n < m
  | .idx _, .name _ => true
  | .name _, _ => false

/-- Create a property that does not exist yet, at its `Object.keys` position. -/
def insertProp : Props → Key → JSValue → Props
  | [], key, v => [(key, v)]
  | (k, w) :: rest, key, v =>
    if key.before k then (key, v) :: (k, w) :: rest else (k, w) :: insertProp rest key v

/-- The write `o[key] = v` of a key with no meaning of its own (`writeProp`
has the others): the property is overwritten or created. -/
def setProp (ps : Props) (key : Key) (v : JSValue) : Props :=
  if hasKey ps key then replaceProp ps key v else insertProp ps key v

/-- The `length` of an array with these properties: one more than its
largest index, zero when it has none. -/
def arrayLength : Props → Nat
  | [] => 0
  | (.idx n, _) :: rest => max (n + 1) (arrayLength rest)
  | (.name _, _) :: rest => arrayLength rest

/-- The key as the string JavaScript uses for it. -/
def Key.toString : Key → String
  | .idx n => ToString.toString n
  | .name s => s

/-- The key a string names: an index when the string is the decimal numeral
of a number, without sign or leading zero. -/
def Key.ofString (s : String) : Key :=
  if !s.data.isEmpty && s.data.all Char.isDigit
      && (s.data.head? != some '0' || s.data == ['0']) then
    .idx (s.data.foldl (fun n c => 10 * n + (c.toNat - 48)) 0)
  else .name s

/-- The names every object finds on `Object.prototype`. -/
def objectPrototypeNames : List String :=
  ["constructor", "__defineGetter__", "__defineSetter__", "hasOwnProperty",
   "__lookupGetter__", "__lookupSetter__", "isPrototypeOf", "propertyIsEnumerable",
   "toString", "valueOf", "__proto__", "toLocaleString"]

/-- The names an array finds on `Array.prototype` (ECMAScript 2023). -/
def arrayPrototypeNames : List String :=
  ["at", "concat", "copyWithin", "entries", "every", "fill", "filter", "find", "findIndex",
   "findLast", "findLastIndex", "flat", "flatMap", "forEach", "includes", "indexOf", "join",
   "keys", "lastIndexOf", "map", "pop", "push", "reduce", "reduceRight", "reverse", "shift",
   "slice", "some", "sort", "splice", "toReversed", "toSorted", "toSpliced", "unshift",
   "values", "with"]

/-- The names a string finds on `String.prototype` (ECMAScript 2023 with
the additions for web browsers). -/
def stringPrototypeNames : List String :=
  ["at", "charAt", "charCodeAt", "codePointAt", "concat", "endsWith", "includes", "indexOf",
   "isWellFormed", "lastIndexOf", "localeCompare", "match", "matchAll", "normalize", "padEnd",
   "padStart", "repeat", "replace", "replaceAll", "search", "slice", "split", "startsWith",
   "substring", "toLocaleLowerCase", "toLocaleUpperCase", "toLowerCase", "toUpperCase",
   "toWellFormed", "trim", "trimEnd", "trimStart", "substr", "anchor", "big", "blink", "bold",
   "fixed", "fontcolor", "fontsize", "italics", "link", "small", "strike", "sub", "sup",
   "trimLeft", "trimRight"]

/-- The names a number finds on `Number.prototype`. -/
def numberPrototypeNames : List String :=
  ["toExponential", "toFixed", "toPrecision"]

/-- The names an object (an array when `isArray`) inherits. -/
def inheritedNames (isArray : Bool) : List String :=
  if isArray then arrayPrototypeNames ++ objectPrototypeNames else objectPrototypeNames

/-- The number a write to the `length` of an array sets, `none` when the
write raises: the value must convert to an integer from 0 to 2^32 - 1.  The
conversion of a string or of an object is the parameter `lengthOf`. -/
def toArrayLength (lengthOf : JSValue → Option Nat) : JSValue → Option Nat
  | .undefined => none
  | .null => some 0
  | .bool b => some (if b then 1 else 0)
  | .num n => if 0 ≤ n ∧ n ≤ 4294967295 then some n.toNat else none
  | v => lengthOf v

/-- The elements a write of `len` to the `length` of an array leaves: those
at an array index below `len` (an array index is at most 2^32 - 2). -/
def truncateProps (len : Nat) (ps : Props) : Props :=
  ps.filter (fun p =>
    match p.1 with
    | .idx n => !(decide (len ≤ n) && decide (n ≤ 4294967294))
    | .name _ => true)

/-- The `length` of an array after a write at index `i`: a recorded length
that does not exceed `i` becomes `i + 1`. -/
def growLength (ps : Props) (i : Nat) : Props :=
  match getProp ps (.name "length") with
  | .num n =>
    if n ≤ (i : Int) ∧ i ≤ 4294967294 then replaceProp ps (.name "length") (.num ((i : Int) + 1))
    else ps
  | _ => ps

/-- The write `o[key] = v` on an object or an array, `none` when it raises.
On an array the key `length` sets the length, which deletes the elements at
or beyond it and is recorded as the entry `length`, and a write at an index
moves a recorded length that does not exceed it.  The key `__proto__`, when
the object does not own it, goes to the setter of `Object.prototype` and
leaves the own properties alone. -/
def writeProp (lengthOf : JSValue → Option Nat) (isArray : Bool) (ps : Props) (key : Key)
    (v : JSValue) : Option Props :=
  if key = .name "__proto__" ∧ hasKey ps key = false then some ps
  else if isArray = true ∧ key = .name "length" then
    (toArrayLength lengthOf v).map
      (fun n => setProp (truncateProps n ps) (.name "length") (.num (n : Int)))
  else if isArray = true then
    match key with
    | .idx i => some (growLength (setProp ps key v) i)
    | .name _ => some (setProp ps key v)
  else some (setProp ps key v)

/-- The list `Object.keys(o)` of an object or an array: the `length` of an
array is not enumerable. -/
def enumerableKeys (isArray : Bool) (ps : Props) : List Key :=
  (objectKeys ps).filter (fun k => !(isArray && decide (k = .name "length")))

namespace JSObject

/-- The object as a value. -/
def toValue (o : JSObject) : JSValue :=
  .obj o.addr o.isArray o.props

/-- The read `o[key]`. -/
def get (o : JSObject) (key : Key) : JSValue :=
  getProp o.props key

/-- The read `model.id`. -/
def id (model : JSObject) : JSValue :=
  getProp model.props (.name "id")

end JSObject

/-! ## `molecule_utils.js` -/

namespace ISet

/-- The value equality `Immutable.is` of the `immutable` library, which
decides membership in its `Set`: on the values of this model it agrees with
`===`. -/
def is (a b : JSValue) : Bool :=
  JSValue.strictEq a b

/-- The membership test `set.has(v)`. -/
def has (s : List JSValue) (v : JSValue) : Bool :=
  s.any (fun x => is x v)

/-- The insertion `set.add(v)`: a value already present is not added again. -/
def add (s : List JSValue) (v : JSValue) : List JSValue :=
  if has s v then s else s ++ [v]

/-- The constructor `new ISet(values)`: the distinct values, in order of first
occurrence. -/
def ofList (values : List JSValue) : List JSValue :=
  values.foldl add []

/-- The comparison `setA.equals(setB)`: equal sizes and every member of
`setB` is in `setA`. -/
def equals (setA setB : List JSValue) : Bool :=
  setA.length == setB.length && setB.all (fun v => has setA v)

end ISet

namespace MoleculeUtils

/-- The function `compareIds(idsA, idsB)`. -/
def compareIds (idsA idsB : List JSValue) : Bool :=
  if (idsA.length == 0 && idsB.length != 0) || (idsA.length != 0 && idsB.length == 0) then
    false
  else
    ISet.equals (ISet.ofList idsA) (ISet.ofList idsB)

mutual
/-- The value the callback of `updateObjectInPlace` stores in
`oldObject[key]`, given `oldObject[key]` and `newObject[key]`: the old object
merged in place when both are objects, the new value otherwise. -/
def updateField : JSValue → JSValue → JSValue
  | .obj a f po, .obj _ _ pn => .obj a f (updateKeys po pn)
  | _, v => v
/-- The loop `Object.keys(newObject).forEach(...)` of `updateObjectInPlace`,
run over the properties of `newObject` on the properties of `oldObject`. -/
def updateKeys : Props → Props → Props
  | po, [] => po
  | po, (k, v) :: rest => updateKeys (setProp po k (updateField (getProp po k) v)) rest
end

/-- The function `updateObjectInPlace(oldObject, newObject)`: the returned
object, which is `oldObject` with its contents on return. -/
def updateObjectInPlace (oldObject newObject : JSObject) : JSObject :=
  { oldObject with props := updateKeys oldObject.props newObject.props }

/-- Why a run of the merge over JavaScript's special writes stops short of
returning: a write raised, or the run reached an object that is not data of
the two arguments (a built-in member an object inherits, or a change of an
object's prototype). -/
inductive MergeStop where
  | raises
  | outside
  deriving DecidableEq, Repr

mutual
/-- The value the callback of `updateObjectInPlace` stores in
`oldObject[key]`, with the special writes of `writeProp`. -/
def updateFieldFull (lengthOf : JSValue → Option Nat) : JSValue → JSValue → Except MergeStop JSValue
  | .obj a f po, .obj _ g pn =>
    match updateKeysFull lengthOf f g po pn with
    | .error e => .error e
    | .ok ps => .ok (.obj a f ps)
  | _, v => .ok v
/-- The loop `Object.keys(newObject).forEach(...)` of `updateObjectInPlace`
on the properties of `oldObject`, with the special writes of `writeProp`.
The `length` of an array `newObject` is not among its keys.  For a key
`oldObject` does not own but inherits, the run leaves the data when the
inherited member would be merged into or the prototype replaced. -/
def updateKeysFull (lengthOf : JSValue → Option Nat) (oldIsArray newIsArray : Bool) :
    Props → Props → Except MergeStop Props
  | po, [] => .ok po
  | po, (k, v) :: rest =>
    if newIsArray = true ∧ k = .name "length" then
      updateKeysFull lengthOf oldIsArray newIsArray po rest
    else if hasKey po k = false ∧ k = .name "__proto__" then
      if v.isObject = true ∨ v = .null then .error .outside
      else updateKeysFull lengthOf oldIsArray newIsArray po rest
    else if hasKey po k = false ∧ k.toString ∈ inheritedNames oldIsArray ∧ v.isObject = true then
      .error .outside
    else
      match updateFieldFull lengthOf (getProp po k) v with
      | .error e => .error e
      | .ok x =>
        match writeProp lengthOf oldIsArray po k x with
        | none => .error .raises
        | some po1 => updateKeysFull lengthOf oldIsArray newIsArray po1 rest
end

/-- The function `updateObjectInPlace(oldObject, newObject)` with the special
writes of `writeProp`: the returned object, which is `oldObject` with its
contents on return, or why the call did not return it. -/
def updateObjectInPlaceFull (lengthOf : JSValue → Option Nat) (oldObject newObject : JSObject) :
    Except MergeStop JSObject :=
  match updateKeysFull lengthOf oldObject.isArray newObject.isArray oldObject.props
      newObject.props with
  | .error e => .error e
  | .ok ps => .ok { oldObject with props := ps }

/-- The inner `for` loop of `updateModels`: merge `newModel` into the first
record of the array with the same id; `none` when the loop ends with
`found` still false. -/
def updateFirstMatch (newModel : JSObject) : List JSObject → Option (List JSObject)
  | [] => none
  | oldModel :: rest =>
    if JSValue.strictEq oldModel.id newModel.id then
      some (updateObjectInPlace oldModel newModel :: rest)
    else
      (updateFirstMatch newModel rest).map (fun r => oldModel :: r)

/-- One round of the `newArray.forEach` of `updateModels`: update the first
match, or push the new record when there is none. -/
def addOrUpdate (oldElems : List JSObject) (newModel : JSObject) : List JSObject :=
  match updateFirstMatch newModel oldElems with
  | some updated => updated
  | none => oldElems ++ [newModel]

/-- The removal loop of `updateModels`, from the current index on: a record
for which `newArray.find` comes back empty is spliced out and the index
stepped back, so the next record is examined at the same index. -/
def removeStale (newElems : List JSObject) : List JSObject → List JSObject
  | [] => []
  | oldModel :: rest =>
    match newElems.find? (fun newModelI => JSValue.strictEq newModelI.id oldModel.id) with
    | some _ => oldModel :: removeStale newElems rest
    | none => removeStale newElems rest

/-- What a call of `updateModels` leaves behind: the array it returns and the
contents of its first argument on return. -/
structure ModelsOutcome where
  returned : JSArray
  oldArray : JSArray
  deriving DecidableEq

/-- The function `updateModels(oldArray, newArray)`. -/
def updateModels (oldArray newArray : JSArray) : ModelsOutcome :=
  let sameIds := compareIds (oldArray.elems.map JSObject.id) (newArray.elems.map JSObject.id)
  if !sameIds then
    { returned := newArray, oldArray := oldArray }
  else
    let updated := newArray.elems.foldl addOrUpdate oldArray.elems
    let kept := removeStale newArray.elems updated
    { returned := { oldArray with elems := kept }, oldArray := { oldArray with elems := kept } }

end MoleculeUtils

/-! ## `nbmolviz2d_view.js`

The view is embedded as explicit state passing.  An operation takes the view
and its arguments and yields the view it leaves behind together with its
completion: the value returned or the error thrown.  What a call did before it
threw stays done.  The scene graph is the list of children of the `svg`
element; an element is referred to by its position in that list.  The
rendering collaborators (d3, the node and link sub-views, the Backbone model)
and the members the controller object gets from outside this file are
parameters of the model, gathered in `Host`.  The two maps of the Visual
Index are plain objects: a lookup finds the element filed under the key or,
failing that, the member of `Object.prototype` of that name.
-/

/-- A nested sub-element `elem.children[i]`: its attributes, its style map
and its text content, the latter two as last assigned. -/
structure SubElement where
  attrs : List (String × String)
  style : List (String × JSValue)
  innerHTML : JSValue
  deriving DecidableEq

/-- A child of the `svg` element. -/
structure SvgElement where
  attrs : List (String × String)
  children : List SubElement
  deriving DecidableEq

/-- An error thrown by the code: a `TypeError` raised by the engine, the
`Error` that `applyStyleSpec` throws with its message, or the error a write
of an invalid length to an array raises. -/
inductive JSError where
  | typeError
  | error (message : String)
  | rangeError
  deriving DecidableEq, Repr

/-- A message passed to `this.send`. -/
inductive Outbound where
  | ready
  | functionDone (call_id result function_name : JSValue)
  deriving DecidableEq

/-- The state of the view: the Pending Message Log, the highlighted atoms,
the scene, the two maps of the Visual Index (key to element), whether
`this.send` is a function, and the messages sent so far. -/
structure View where
  messages : List JSValue
  highlightedAtoms : List JSValue
  scene : List SvgElement
  svgNodes : List (String × Nat)
  svgLinks : List (String × Nat)
  hasSend : Bool
  sent : List Outbound
  deriving DecidableEq

deriving instance DecidableEq for Except

/-- The view an operation leaves behind and how the operation completed. -/
structure Outcome where
  view : View
  result : Except JSError JSValue
  deriving DecidableEq

/-- What the model takes from outside this file: the scene `renderViewer`
builds for a view (the collaborators are taken not to throw), the members of
the controller object this file does not define, which are those it inherits
from `Backbone.View` and from `Object.prototype` and those the widget
framework adds, `send` among them (by name, `none` when `this[name]` is not a
function), the conversion of the
`length` of an array-like object to a number, and the conversion of a string
or an object written to the `length` of an array (`none` when the write
raises). -/
structure Host where
  renderViewer : View → List SvgElement
  member : String → Option (View → List JSValue → Outcome)
  toLength : JSValue → Nat
  lengthOf : JSValue → Option Nat

/-- The decimal number with the fewest significant digits that reads back as
the double `n`, the nearest to `n` among those and the even one at a tie, for
an integer `n` of at least 2^53 that is a double.  The doubles next to `n` lie
`ulp` above and, unless `n` is a power of two, `ulp` below; a number halfway
to a neighbour reads back as `n` when the mantissa `m` of `n` is even. -/
def shortestDecimal (n : Nat) : Nat :=
  let ulp := 2 ^ (((List.range 1024).find? (fun e => n / 2 ^ e < 9007199254740992)).getD 0)
  let m := n / ulp
  let hi4 := 4 * n + 2 * ulp
  let lo4 := 4 * n - (if m = 4503599627370496 then ulp else 2 * ulp)
  let inside : Nat → Bool := fun c =>
    if m % 2 = 0 then decide (lo4 ≤ 4 * c) && decide (4 * c ≤ hi4)
    else decide (lo4 < 4 * c) && decide (4 * c < hi4)
  let digits := (Nat.toDigits 10 n).length
  let candidate : Nat → Option Nat := fun k =>
    let p := 10 ^ (digits - k)
    let lo := (n / p) * p
    let hi := (n / p + 1) * p
    if (inside lo && decide (0 < lo)) && inside hi then
      if n - lo < hi - n then some lo
      else if hi - n < n - lo then some hi
      else if (n / p) % 2 = 0 then some lo else some hi
    else if inside lo && decide (0 < lo) then some lo
    else if inside hi then some hi
    else none
  (((List.range 17).map (fun k => k + 1)).findSome? candidate).getD n

/-- The conversion of a natural number to a string: its decimal numeral
below 2^53, above that the shortest decimal that reads back as the number,
written out up to 21 digits and with an exponent beyond. -/
def natToStringJS (n : Nat) : String :=
  if n < 9007199254740992 then ToString.toString n
  else
    let s := ToString.toString (shortestDecimal n)
    if s.length ≤ 21 then s
    else
      match (s.data.reverse.dropWhile (fun c => c == '0')).reverse with
      | [] => s
      | [d] => String.mk [d] ++ "e+" ++ ToString.toString (s.length - 1)
      | d :: ds => String.mk (d :: '.' :: ds) ++ "e+" ++ ToString.toString (s.length - 1)

/-- The conversion of a number to a string. -/
def numberToStringJS (n : Int) : String :=
  if n < 0 then "-" ++ natToStringJS n.natAbs else natToStringJS n.natAbs

mutual
/-- The conversion of a value to a string, as property access and template
literals do it: an array is its elements joined by commas (an array that owns
a property `join`, which is then no function, prints as an object does).
Where the conversion raises (`toStringThrows`) the string is of no use. -/
def JSValue.toStringJS : JSValue → String
  | .undefined => "undefined"
  | .null => "null"
  | .bool true => "true"
  | .bool false => "false"
  | .num n => numberToStringJS n
  | .str s => s
  | .obj _ true ps =>
    if hasKey ps (.name "join") then "[object Array]"
    else String.intercalate "," (JSValue.joinParts 0 ps)
  | .obj _ false _ => "[object Object]"
/-- The pieces `join` puts between the commas, from index `next` on: a hole,
`undefined` and `null` give the empty string. -/
def JSValue.joinParts : Nat → List (Key × JSValue) → List String
  | _, [] => []
  | next, (.idx n, v) :: rest =>
    if next ≤ n then
      List.replicate (n - next) "" ++ JSValue.joinPart v :: JSValue.joinParts (n + 1) rest
    else JSValue.joinParts next rest
  | next, (.name _, _) :: rest => JSValue.joinParts next rest
/-- One element as `join` prints it. -/
def JSValue.joinPart : JSValue → String
  | .undefined => ""
  | .null => ""
  | .bool true => "true"
  | .bool false => "false"
  | .num n => numberToStringJS n
  | .str s => s
  | .obj _ true ps =>
    if hasKey ps (.name "join") then "[object Array]"
    else String.intercalate "," (JSValue.joinParts 0 ps)
  | .obj _ false _ => "[object Object]"
end

mutual
/-- Whether the conversion of a value to a string raises a `TypeError`: an
object that owns a property `toString`, which is then no function, converts to
no primitive, and an array joins the conversions of its elements. -/
def JSValue.toStringThrows : JSValue → Bool
  | .obj _ true ps =>
    hasKey ps (.name "toString") || (!hasKey ps (.name "join") && JSValue.joinThrows ps)
  | .obj _ false ps => hasKey ps (.name "toString")
  | _ => false
/-- Whether the conversion of some element of an array raises. -/
def JSValue.joinThrows : List (Key × JSValue) → Bool
  | [] => false
  | (.idx _, v) :: rest => v.toStringThrows || JSValue.joinThrows rest
  | (.name _, _) :: rest => JSValue.joinThrows rest
end

/-- The elements of an array from index `next` on, a hole read as
`undefined`. -/
def elemsFrom : Nat → Props → List JSValue
  | _, [] => []
  | next, (.idx n, v) :: rest =>
    if next ≤ n then List.replicate (n - next) JSValue.undefined ++ v :: elemsFrom (n + 1) rest
    else elemsFrom next rest
  | next, (.name _, _) :: rest => elemsFrom next rest

/-- The elements `forEach` visits: the indices the array owns, ascending. -/
def forEachElems : Props → List JSValue
  | [] => []
  | (.idx _, v) :: rest => v :: forEachElems rest
  | (.name _, _) :: rest => forEachElems rest

/-- The read `v.name` on a value other than `undefined` and `null`, for a
name no primitive owns: the property of an object, `undefined` on a
primitive. -/
def JSValue.read (v : JSValue) (name : String) : JSValue :=
  match v with
  | .obj _ _ ps => getProp ps (.name name)
  | _ => .undefined

/-- The read `v.name` in general: a `TypeError` on `undefined` and `null`. -/
def JSValue.member (v : JSValue) (name : String) : Except JSError JSValue :=
  match v with
  | .undefined => .error .typeError
  | .null => .error .typeError
  | _ => .ok (v.read name)

/-- The argument list `apply` builds from its second argument: empty for
`undefined` and `null`, the elements of an array, the indexed members of an
array-like object, a `TypeError` for any other primitive. -/
def argumentList (host : Host) : JSValue → Except JSError (List JSValue)
  | .undefined => .ok []
  | .null => .ok []
  | .obj _ true ps => .ok (elemsFrom 0 ps)
  | .obj _ false ps =>
    .ok ((List.range (host.toLength (getProp ps (.name "length")))).map
      (fun i => getProp ps (.idx i)))
  | _ => .error .typeError

/-- The argument list of a call message, `event.arguments` as `apply` reads
it. -/
def argumentsOf (host : Host) (event : JSValue) : Except JSError (List JSValue) :=
  match event.member "arguments" with
  | .error e => .error e
  | .ok a => argumentList host a

/-- The pairs `(st, spec[st])` the loop `Object.keys(spec).forEach` runs
over: a `TypeError` for `undefined` and `null`, nothing for a boolean or a
number, the characters of a string, the properties of an object. -/
def specEntries : JSValue → Except JSError (List (String × JSValue))
  | .undefined => .error .typeError
  | .null => .error .typeError
  | .bool _ => .ok []
  | .num _ => .ok []
  | .str s => .ok (s.data.enum.map (fun p => (ToString.toString p.1, JSValue.str (String.singleton p.2))))
  | .obj _ _ ps => .ok (ps.map (fun p => (p.1.toString, p.2)))

/-- The element filed under `key` in a map of the Visual Index, an own
property of the map; `indexFind` is the read `lookup[key]`. -/
def indexGet : List (String × Nat) → String → Option Nat
  | [], _ => none
  | (k, e) :: rest, key => if k = key then some e else indexGet rest key

/-- What the read `lookup[key]` finds on a map of the Visual Index, which is
a plain object: nothing (`undefined`), the element filed under the key, or the
member of `Object.prototype` of that name. -/
inductive Found where
  | nothing
  | element (pos : Nat)
  | inherited
  deriving DecidableEq, Repr

/-- The read `lookup[key]` on a map of the Visual Index, with the members the
map inherits.  A map in which an element was filed under `__proto__` got that
element as its prototype; what such a map inherits from the element is
outside the model. -/
def indexFind (lookup : List (String × Nat)) (key : String) : Found :=
  match indexGet lookup key with
  | some pos => .element pos
  | none => if key ∈ objectPrototypeNames then .inherited else .nothing

/-- The loop `Object.keys(spec).forEach(...)` that styles a child of a value
without children, such as an inherited member: a `TypeError` at the first
entry, nothing without entries. -/
def styleNothing (spec : JSValue) : Option JSError :=
  match specEntries spec with
  | .error e => some e
  | .ok [] => none
  | .ok (_ :: _) => some .typeError

/-- The write `lookup[key] = elem` on a map of the Visual Index. -/
def indexSet : List (String × Nat) → String → Nat → List (String × Nat)
  | [], key, e => [(key, e)]
  | (k, x) :: rest, key, e =>
    if k = key then (k, e) :: rest else (k, x) :: indexSet rest key e

/-- The write `style[st] = value` on a style map. -/
def styleSet : List (String × JSValue) → String → JSValue → List (String × JSValue)
  | [], st, value => [(st, value)]
  | (k, x) :: rest, st, value =>
    if k = st then (k, value) :: rest else (k, x) :: styleSet rest st value

/-- The call `elem.getAttribute(name)`: `none` is the `null` of a missing
attribute. -/
def getAttribute (attrs : List (String × String)) (name : String) : Option String :=
  (attrs.find? (fun p => p.1 == name)).map Prod.snd

/-- Apply `f` to `elem.children[child]` of the element at position `pos`;
`none` when there is no such element or no such child, which is where the
code reads a property of `undefined`. -/
def updateChild (scene : List SvgElement) (pos child : Nat) (f : SubElement → SubElement) :
    Option (List SvgElement) :=
  match scene[pos]? with
  | none => none
  | some elem =>
    match elem.children[child]? with
    | none => none
    | some sub => some (scene.set pos { elem with children := elem.children.set child (f sub) })

/-- What a read `base[key]` finds on a value a message carries: nothing
(`undefined`), the value of an own property, or something else that is
defined and has no property `children` (a built-in member, the `length` of an
array or a string, a character of a string). -/
inductive Lookup where
  | nothing
  | value (x : JSValue)
  | other
  deriving DecidableEq

/-- The `length` of a string: its number of UTF-16 code units. -/
def utf16Length (s : String) : Nat :=
  s.data.foldl (fun n c => n + (if c.val < 65536 then 1 else 2)) 0

/-- The read `base[key]` on a value other than `undefined` and `null`. -/
def JSValue.lookup (base : JSValue) (key : String) : Lookup :=
  match base with
  | .obj _ isArray ps =>
    if hasKey ps (Key.ofString key) = true then
      if getProp ps (Key.ofString key) = .undefined then .nothing
      else .value (getProp ps (Key.ofString key))
    else if (isArray = true ∧ key = "length") ∨ key ∈ inheritedNames isArray then .other
    else .nothing
  | .str s =>
    if key = "length" ∨ key ∈ stringPrototypeNames ++ objectPrototypeNames then .other
    else
      match Key.ofString key with
      | .idx i => if i < utf16Length s then .other else .nothing
      | .name _ => .nothing
  | .num _ => if key ∈ numberPrototypeNames ++ objectPrototypeNames then .other else .nothing
  | .bool _ => if key ∈ objectPrototypeNames then .other else .nothing
  | _ => .nothing

/-- What `obj.children[0].style` evaluates to on a value a message carries,
as the target of a write: the evaluation or the write raises a `TypeError`
(some step reads a property of `undefined` or `null`), or the target is a
primitive, or it is an object. -/
inductive Target where
  | fails
  | primitive
  | object (addr : Nat) (isArray : Bool) (props : Props)
  deriving DecidableEq

/-- The target `obj.children[0].style` of the writes of `applyStyleSpec`. -/
def styleTarget (obj : JSValue) : Target :=
  match obj.read "children" with
  | .obj _ _ children =>
    match getProp children (.idx 0) with
    | .obj _ _ child =>
      match getProp child (.name "style") with
      | .undefined => .fails
      | .null => .fails
      | .obj a f ps => .object a f ps
      | _ => .primitive
    | _ => .fails
  | _ => .fails

mutual
/-- The value after the object at address `a` got the properties `ps`. -/
def JSValue.patch (a : Nat) (ps : Props) : JSValue → JSValue
  | .obj b f qs => if b = a then .obj b f ps else .obj b f (JSValue.patchProps a ps qs)
  | x => x
/-- The properties after the object at address `a` got the properties `ps`. -/
def JSValue.patchProps (a : Nat) (ps : Props) : List (Key × JSValue) → List (Key × JSValue)
  | [] => []
  | (k, x) :: rest => (k, JSValue.patch a ps x) :: JSValue.patchProps a ps rest
end

namespace Nbmolviz2dView

/-- The writes `target[st] = spec[st]` on an object of a message, over the
entries still to do: the properties the object ends with and the error that
stopped the loop. -/
def writeEntries (host : Host) (isArray : Bool) : Props → List (String × JSValue) →
    Props × Option JSError
  | ps, [] => (ps, none)
  | ps, (st, value) :: rest =>
    match writeProp host.lengthOf isArray ps (Key.ofString st) value with
    | none => (ps, some .rangeError)
    | some ps1 => writeEntries host isArray ps1 rest

/-- The writes `target[st] = spec[st]` on a primitive, in strict code: a
`TypeError`, except for `__proto__`, whose setter ignores a primitive. -/
def writePrimitive : List (String × JSValue) → Option JSError
  | [] => none
  | (st, _) :: rest => if st = "__proto__" then writePrimitive rest else some .typeError

/-- The callback of `objs.forEach` in `applyStyleSpec` when the method is
called by name, so that `objLookup` is a value of the message: over the
elements of `objs` still to do.  A write changes an object of the message,
which the message log holds too. -/
def applyStyleValues (host : Host) (spec : JSValue) :
    View → JSValue → List JSValue → View × Option JSError
  | v, _, [] => (v, none)
  | v, objLookup, o :: rest =>
    if objLookup = .undefined ∨ objLookup = .null ∨ o.toStringThrows = true then
      (v, some .typeError)
    else
      match objLookup.lookup o.toStringJS with
      | .nothing => (v, some (.error ("no object " ++ o.toStringJS)))
      | .other =>
        match styleNothing spec with
        | some e => (v, some e)
        | none => applyStyleValues host spec v objLookup rest
      | .value obj =>
        match specEntries spec with
        | .error e => (v, some e)
        | .ok [] => applyStyleValues host spec v objLookup rest
        | .ok (entry :: entries) =>
          match styleTarget obj with
          | .fails => (v, some .typeError)
          | .primitive =>
            match writePrimitive (entry :: entries) with
            | some e => (v, some e)
            | none => applyStyleValues host spec v objLookup rest
          | .object a f ps =>
            match writeEntries host f ps (entry :: entries) with
            | (ps1, some e) =>
              ({ v with messages := v.messages.map (JSValue.patch a ps1) }, some e)
            | (ps1, none) =>
              applyStyleValues host spec
                { v with messages := v.messages.map (JSValue.patch a ps1) }
                (objLookup.patch a ps1) rest

/-- The method `applyStyleSpec(objs, objLookup, spec)` called by name, on the
arguments of a message. -/
def applyStyleSpecByName (host : Host) (v : View) (objs objLookup spec : JSValue) : Outcome :=
  match objs with
  | .obj _ true ps =>
    if hasKey ps (.name "forEach") = true then ⟨v, .error .typeError⟩
    else
      match applyStyleValues host spec v objLookup (forEachElems ps) with
      | (v1, some e) => ⟨v1, .error e⟩
      | (v1, none) => ⟨v1, .ok .undefined⟩
  | _ => ⟨v, .error .typeError⟩

end Nbmolviz2dView

namespace Nbmolviz2dView

/-- The loop `Object.keys(spec).forEach((st) => elem.children[child].style[st] = spec[st])`
over the entries still to do. -/
def applyEntries (v : View) (pos child : Nat) : List (String × JSValue) → View × Option JSError
  | [] => (v, none)
  | (st, value) :: rest =>
    match updateChild v.scene pos child (fun sub => { sub with style := styleSet sub.style st value }) with
    | none => (v, some .typeError)
    | some scene => applyEntries { v with scene := scene } pos child rest

/-- The callback of `objs.forEach` in `applyStyleSpec`, over the elements of
`objs` still to do. -/
def applyStyleLoop (objLookup : List (String × Nat)) (spec : JSValue) :
    View → List JSValue → View × Option JSError
  | v, [] => (v, none)
  | v, o :: rest =>
    if o.toStringThrows = true then (v, some .typeError)
    else
      match indexFind objLookup o.toStringJS with
      | .nothing => (v, some (.error ("no object " ++ o.toStringJS)))
      | .inherited =>
        match styleNothing spec with
        | some e => (v, some e)
        | none => applyStyleLoop objLookup spec v rest
      | .element pos =>
        match specEntries spec with
        | .error e => (v, some e)
        | .ok entries =>
          match applyEntries v pos 0 entries with
          | (v1, some e) => (v1, some e)
          | (v1, none) => applyStyleLoop objLookup spec v1 rest

/-- The method `applyStyleSpec(objs, objLookup, spec)`, called on a map of
the Visual Index. -/
def applyStyleSpec (v : View) (objs : JSValue) (objLookup : List (String × Nat))
    (spec : JSValue) : Outcome :=
  match objs with
  | .obj _ true ps =>
    if hasKey ps (.name "forEach") = true then ⟨v, .error .typeError⟩
    else
      match applyStyleLoop objLookup spec v (forEachElems ps) with
      | (v1, some e) => ⟨v1, .error e⟩
      | (v1, none) => ⟨v1, .ok .undefined⟩
  | _ => ⟨v, .error .typeError⟩

/-- The method `setAtomStyle(atoms, atomSpec)`. -/
def setAtomStyle (v : View) (atoms atomSpec : JSValue) : Outcome :=
  ⟨(applyStyleSpec v atoms v.svgNodes atomSpec).view,
    (applyStyleSpec v atoms v.svgNodes atomSpec).result.map (fun _ => JSValue.undefined)⟩

/-- The method `setBondStyle(bonds, bondSpec)`. -/
def setBondStyle (v : View) (bonds bondSpec : JSValue) : Outcome :=
  ⟨(applyStyleSpec v bonds v.svgLinks bondSpec).view,
    (applyStyleSpec v bonds v.svgLinks bondSpec).result.map (fun _ => JSValue.undefined)⟩

/-- The part of the two label setters after the element is found: set the
text of `elem.children[1]` unless `text` is `undefined`, then its styles. -/
def setLabel (v : View) (pos : Nat) (text spec : JSValue) : Outcome :=
  let afterText : Option View :=
    if text = .undefined then some v
    else (updateChild v.scene pos 1 (fun sub => { sub with innerHTML := text })).map
      (fun scene => { v with scene := scene })
  match afterText with
  | none => ⟨v, .error .typeError⟩
  | some v1 =>
    match specEntries spec with
    | .error e => ⟨v1, .error e⟩
    | .ok entries =>
      match applyEntries v1 pos 1 entries with
      | (v2, some e) => ⟨v2, .error e⟩
      | (v2, none) => ⟨v2, .ok .undefined⟩

/-- The method `setAtomLabel(atom, text, spec)`. -/
def setAtomLabel (v : View) (atom text spec : JSValue) : Outcome :=
  if atom.toStringThrows = true then ⟨v, .error .typeError⟩
  else
    match indexFind v.svgNodes atom.toStringJS with
    | .nothing => ⟨v, .error .typeError⟩
    | .inherited => ⟨v, .error .typeError⟩
    | .element pos => setLabel v pos text spec

/-- The method `setBondLabel(bond, text, spec)`. -/
def setBondLabel (v : View) (bond text spec : JSValue) : Outcome :=
  if bond.toStringThrows = true then ⟨v, .error .typeError⟩
  else
    match indexFind v.svgLinks bond.toStringJS with
    | .nothing => ⟨v, .ok .undefined⟩
    | .inherited =>
      if text = .undefined then
        match styleNothing spec with
        | some e => ⟨v, .error e⟩
        | none => ⟨v, .ok .undefined⟩
      else ⟨v, .error .typeError⟩
    | .element pos => setLabel v pos text spec

/-- The key of `this.svgLinks[[a, b]]`: the two attribute values joined by a
comma, a missing attribute printed as the empty string. -/
def linkKey (a b : Option String) : String :=
  a.getD "" ++ "," ++ b.getD ""

/-- The body of the `for` loop of `indexSvgElements`, from position `i` on. -/
def indexLoop : View → Nat → List SvgElement → View × Option JSError
  | v, _, [] => (v, none)
  | v, i, elem :: rest =>
    let v1 : View :=
      if getAttribute elem.attrs "class" = some "node" then
        { v with svgNodes := indexSet v.svgNodes ((getAttribute elem.attrs "index").getD "null") i }
      else v
    if getAttribute elem.attrs "class" = some "link" then
      match elem.children[0]? with
      | none => (v1, some .typeError)
      | some child =>
        let source := getAttribute child.attrs "source"
        let target := getAttribute child.attrs "target"
        indexLoop
          { v1 with svgLinks := indexSet (indexSet v1.svgLinks (linkKey source target) i)
                                  (linkKey target source) i }
          (i + 1) rest
    else indexLoop v1 (i + 1) rest

/-- The method `indexSvgElements()`. -/
def indexSvgElements (v : View) : Outcome :=
  match indexLoop { v with svgNodes := [], svgLinks := [] } 0 v.scene with
  | (v1, some e) => ⟨v1, .error e⟩
  | (v1, none) => ⟨v1, .ok .undefined⟩

/-- The method `renderViewer()`: the scene becomes the one the collaborators
build. -/
def renderViewer (host : Host) (v : View) : Outcome :=
  ⟨{ v with scene := host.renderViewer v }, .ok .undefined⟩

/-- The method `render()`: build the scene, index it, empty the message log
and the highlight list, and send `ready` when `this.send` is a function. -/
def render (host : Host) (v : View) : Outcome :=
  match (indexSvgElements (renderViewer host v).view).result with
  | .error e => ⟨(indexSvgElements (renderViewer host v).view).view, .error e⟩
  | .ok _ =>
    let v1 : View :=
      { (indexSvgElements (renderViewer host v).view).view with
        messages := [], highlightedAtoms := [] }
    ⟨if v1.hasSend then { v1 with sent := v1.sent ++ [Outbound.ready] } else v1, .ok .undefined⟩

/-- The methods of the controller that do not call the dispatcher again. -/
inductive Method where
  | initializeView
  | render
  | setAtomStyle
  | setBondStyle
  | setAtomLabel
  | setBondLabel
  | indexSvgElements
  | renderViewer
  | applyStyleSpec
  | external (f : View → List JSValue → Outcome)

/-- What `this[name]` resolves to, when it is a function. -/
inductive Resolved where
  | handleMessage
  | handleFunctionCall
  | method (m : Method)

/-- The lookup `this[event.function_name]`, `none` when what it finds is
not a function: the methods of this file first, nothing for the data members
this file sets, then the members of the host. -/
def resolve (host : Host) (name : String) : Option Resolved :=
  if name = "handleMessage" then some .handleMessage
  else if name = "handleFunctionCall" then some .handleFunctionCall
  else if name = "initialize" then some (.method .initializeView)
  else if name = "render" then some (.method .render)
  else if name = "setAtomStyle" then some (.method .setAtomStyle)
  else if name = "setBondStyle" then some (.method .setBondStyle)
  else if name = "setAtomLabel" then some (.method .setAtomLabel)
  else if name = "setBondLabel" then some (.method .setBondLabel)
  else if name = "indexSvgElements" then some (.method .indexSvgElements)
  else if name = "renderViewer" then some (.method .renderViewer)
  else if name = "applyStyleSpec" then some (.method .applyStyleSpec)
  else if name ∈ ["tagName", "graph", "messages", "highlightedAtoms", "svgNodes", "svgLinks",
      "svg"] then none
  else (host.member name).map (fun f => .method (.external f))

/-- The positional argument `args[i]`, `undefined` when the list is
shorter. -/
def arg (args : List JSValue) (i : Nat) : JSValue :=
  args[i]?.getD .undefined

/-- The call `myFunction.apply(this, args)` for a method that does not
dispatch again. -/
def callMethod (host : Host) (v : View) (args : List JSValue) : Method → Outcome
  | .initializeView => ⟨v, .ok .undefined⟩
  | .render => render host v
  | .setAtomStyle => setAtomStyle v (arg args 0) (arg args 1)
  | .setBondStyle => setBondStyle v (arg args 0) (arg args 1)
  | .setAtomLabel => setAtomLabel v (arg args 0) (arg args 1) (arg args 2)
  | .setBondLabel => setBondLabel v (arg args 0) (arg args 1) (arg args 2)
  | .indexSvgElements => indexSvgElements v
  | .renderViewer => renderViewer host v
  | .applyStyleSpec => applyStyleSpecByName host v (arg args 0) (arg args 1) (arg args 2)
  | .external f => f v args

/-- The statement `this.send({ call_id, result, function_name, event: 'function_done' })`
that ends `handleFunctionCall`. -/
def sendDone (v : View) (event result : JSValue) : Outcome :=
  if v.hasSend then
    ⟨{ v with sent := v.sent ++ [Outbound.functionDone
        (event.read "call_id") result (event.read "function_name")] }, .ok .undefined⟩
  else ⟨v, .error .typeError⟩

/-- Sizes for the termination of the dispatcher: a property read is no larger
than the property list. -/
theorem sizeOf_getProp_le (ps : Props) (k : Key) : sizeOf (getProp ps k) ≤ sizeOf ps := by
  induction ps with
  | nil => simp [getProp]
  | cons p rest ih =>
    obtain ⟨k1, v1⟩ := p
    simp only [getProp]
    split
    · simp; omega
    · simp; omega

/-- Sizes for the termination of the dispatcher: an element of an array is no
larger than the property list of the array. -/
theorem sizeOf_elemsFrom_le (ps : Props) : ∀ (next : Nat) (a : JSValue),
    a ∈ elemsFrom next ps → sizeOf a ≤ sizeOf ps := by
  induction ps with
  | nil => intro next a h; simp [elemsFrom] at h
  | cons p rest ih =>
    intro next a h
    obtain ⟨k1, v1⟩ := p
    cases k1 with
    | idx n =>
      simp only [elemsFrom] at h
      split at h
      · simp only [List.mem_append, List.mem_replicate, List.mem_cons] at h
        rcases h with ⟨_, h⟩ | h | h
        · subst h; simp; omega
        · subst h; simp; omega
        · have := ih _ _ h; simp; omega
      · have := ih _ _ h; simp; omega
    | name s =>
      simp only [elemsFrom] at h
      have := ih _ _ h; simp; omega

/-- Sizes for the termination of the dispatcher: the first argument of a call
message is smaller than the message. -/
theorem sizeOf_arg_lt (host : Host) (event : JSValue) (args : List JSValue)
    (h : argumentsOf host event = .ok args) : sizeOf (arg args 0) < sizeOf event := by
  have hargs : ∀ (a : JSValue) (w : JSValue), argumentList host w = .ok args → a ∈ args →
      sizeOf a < sizeOf w ∨ a = .undefined := by
    intro a w hw ha
    cases w with
    | obj ad f ps =>
      cases f with
      | true =>
        simp only [argumentList, Except.ok.injEq] at hw
        subst hw
        have := sizeOf_elemsFrom_le ps 0 a ha
        left; simp; omega
      | false =>
        simp only [argumentList, Except.ok.injEq] at hw
        subst hw
        simp only [List.mem_map, List.mem_range] at ha
        obtain ⟨i, _, rfl⟩ := ha
        have := sizeOf_getProp_le ps (.idx i)
        left; simp; omega
    | undefined => simp [argumentList] at hw; subst hw; simp at ha
    | null => simp [argumentList] at hw; subst hw; simp at ha
    | bool b => simp [argumentList] at hw
    | num n => simp [argumentList] at hw
    | str s => simp [argumentList] at hw
  have hcase : arg args 0 = .undefined ∨ arg args 0 ∈ args := by
    cases args with
    | nil => left; rfl
    | cons a rest => right; simp [arg]
  cases event with
  | obj ad f ps =>
    simp only [argumentsOf, JSValue.member, JSValue.read] at h
    have h1 := sizeOf_getProp_le ps (.name "arguments")
    rcases hcase with hu | hm
    · rw [hu]; simp; omega
    · rcases hargs _ _ h hm with hlt | hu
      · simp; omega
      · rw [hu]; simp; omega
  | undefined => simp [argumentsOf, JSValue.member] at h
  | null => simp [argumentsOf, JSValue.member] at h
  | bool b =>
    simp [argumentsOf, JSValue.member, JSValue.read, argumentList] at h
    subst h; simp [arg]
  | num n =>
    simp [argumentsOf, JSValue.member, JSValue.read, argumentList] at h
    subst h
    have hn : 0 < sizeOf n := by
      cases n with
      | ofNat a => rw [Int.ofNat.sizeOf_spec]; omega
      | negSucc a => rw [Int.negSucc.sizeOf_spec]; omega
    simp [arg]; exact hn
  | str s =>
    simp [argumentsOf, JSValue.member, JSValue.read, argumentList] at h
    subst h; cases s; simp [arg]

mutual
/-- The method `handleMessage(message)`. -/
def handleMessage (host : Host) (v : View) (message : JSValue) : Outcome :=
  match message.member "event" with
  | .error e => ⟨{ v with messages := v.messages ++ [message] }, .error e⟩
  | .ok ev =>
    if JSValue.strictEq ev (.str "function_call") then
      handleFunctionCall host { v with messages := v.messages ++ [message] } message
    else ⟨{ v with messages := v.messages ++ [message] }, .ok .undefined⟩
termination_by (sizeOf message, 1)
/-- The method `handleFunctionCall(event)`. -/
def handleFunctionCall (host : Host) (v : View) (event : JSValue) : Outcome :=
  match event.member "function_name" with
  | .error e => ⟨v, .error e⟩
  | .ok fn =>
    if JSValue.strictEq fn (.str "updateHighlightAtoms") then ⟨v, .ok .undefined⟩
    else
      match resolve host fn.toStringJS with
      | none => ⟨{ v with messages := v.messages ++ [event] }, .error .typeError⟩
      | some r =>
        match h : argumentsOf host event with
        | .error e => ⟨{ v with messages := v.messages ++ [event] }, .error e⟩
        | .ok args =>
          let done : Outcome :=
            match r with
            | .handleMessage =>
              handleMessage host { v with messages := v.messages ++ [event] } (arg args 0)
            | .handleFunctionCall =>
              handleFunctionCall host { v with messages := v.messages ++ [event] } (arg args 0)
            | .method m => callMethod host { v with messages := v.messages ++ [event] } args m
          match done.result with
          | .error e => ⟨done.view, .error e⟩
          | .ok result => sendDone done.view event result
termination_by (sizeOf event, 0)
decreasing_by
  · exact Prod.Lex.left _ _ (sizeOf_arg_lt host event args h)
  · exact Prod.Lex.left _ _ (sizeOf_arg_lt host event args h)
end

end Nbmolviz2dView


/-! ## Notions the statements use -/

/-- Whether `x` is one of the values of `ids`, values compared as `===` and the
`Set` of `immutable` compare them. -/
def occursIn (ids : List JSValue) (x : JSValue) : Bool :=
  ids.any (fun y => JSValue.strictEq y x)

/-- A representative of a value among the values `===` to it: an object is
represented by its address alone. -/
def JSValue.canon : JSValue → JSValue
  | .obj a _ _ => .obj a false []
  | v => v

/-- The records of a collection have pairwise different ids (as `===`
compares them). -/
def uniqueIds (records : List JSObject) : Prop :=
  (records.map JSObject.id).Pairwise (fun a b => JSValue.strictEq a b = false)

instance (records : List JSObject) : Decidable (uniqueIds records) := by
  unfold uniqueIds; infer_instance

/-- The record lists each of its keys once, as `Object.keys` does. -/
def JSObject.wellFormed (o : JSObject) : Prop :=
  (objectKeys o.props).Nodup

instance (o : JSObject) : Decidable o.wellFormed := by
  unfold JSObject.wellFormed; infer_instance

/-- The record `oldModel` after the new record with its id, if there is one,
has been merged into it. -/
def mergeMatching (newElems : List JSObject) (oldModel : JSObject) : JSObject :=
  match newElems.find? (fun newModel => JSValue.strictEq newModel.id oldModel.id) with
  | some newModel => MoleculeUtils.updateObjectInPlace oldModel newModel
  | none => oldModel

/-- The record `{ id: i, v: s }` living at `addr`. -/
def exampleRecord (addr : Nat) (i : Int) (s : String) : JSObject :=
  ⟨addr, false, [(.name "id", .num i), (.name "v", .str s)]⟩

/-- The record `{ id: i }` living at `addr`. -/
def idRecord (addr : Nat) (i : Int) : JSObject :=
  ⟨addr, false, [(.name "id", .num i)]⟩

/-- The style and label mutators among the methods. -/
def Nbmolviz2dView.Method.isMutator : Nbmolviz2dView.Method → Bool
  | .setAtomStyle => true
  | .setBondStyle => true
  | .setAtomLabel => true
  | .setBondLabel => true
  | _ => false

/-- A host for the examples: it builds an empty scene, converts nothing to a
length, and answers for no member of the controller beyond the methods of
this file. -/
def bareHost : Host :=
  ⟨fun _ => [], fun _ => none, fun _ => 0, fun _ => none⟩

/-- A rendered view with one node, tagged `index = "0"`, and a working
`send`. -/
def oneNodeView : View :=
  { messages := [], highlightedAtoms := [],
    scene := [⟨[("class", "node"), ("index", "0")],
      [⟨[], [], .undefined⟩, ⟨[], [], .undefined⟩]⟩],
    svgNodes := [("0", 0)], svgLinks := [], hasSend := true, sent := [] }

/-- The call message of the specification: `setAtomStyle([0], { color: 'red' })`
with `call_id` `id`. -/
def styleCall (id : String) : JSValue :=
  .obj 1 false [(.name "event", .str "function_call"),
    (.name "function_name", .str "setAtomStyle"), (.name "call_id", .str id),
    (.name "arguments", .obj 2 true [(.idx 0, .obj 3 true [(.idx 0, .num 0)]),
      (.idx 1, .obj 4 false [(.name "color", .str "red")])])]

/-- A call message that names `handleMessage` and carries `styleCall "y"` as
its argument. -/
def nestedCall : JSValue :=
  .obj 5 false [(.name "event", .str "function_call"),
    (.name "function_name", .str "handleMessage"), (.name "call_id", .str "x"),
    (.name "arguments", .obj 6 true [(.idx 0, styleCall "y")])]

/-- The call `myFunction.apply(this, args)` for whatever `this[name]` resolved
to. -/
def Nbmolviz2dView.invoke (host : Host) (v : View) (args : List JSValue) :
    Nbmolviz2dView.Resolved → Outcome
  | .handleMessage => Nbmolviz2dView.handleMessage host v (Nbmolviz2dView.arg args 0)
  | .handleFunctionCall => Nbmolviz2dView.handleFunctionCall host v (Nbmolviz2dView.arg args 0)
  | .method m => Nbmolviz2dView.callMethod host v args m

/-- The `'function_call'` message that names `name` and carries no argument. -/
def bareCall (name : String) : JSValue :=
  .obj 7 false [(.name "event", .str "function_call"), (.name "function_name", .str name)]

/-- Whether `handleMessage` passes the message on to an operation: its event
is `'function_call'` and its function name is not `'updateHighlightAtoms'`. -/
def isDispatched (message : JSValue) : Bool :=
  JSValue.strictEq (message.read "event") (.str "function_call") &&
    !JSValue.strictEq (message.read "function_name") (.str "updateHighlightAtoms")

/-- What one inbound message adds to the message log: itself, a second time
when it is dispatched. -/
def logEntries (message : JSValue) : List JSValue :=
  if isDispatched message then [message, message] else [message]

/-- The view after `handleMessage` has been applied to the messages in
turn. -/
def handleAll (host : Host) : View → List JSValue → View
  | v, [] => v
  | v, message :: rest => handleAll host (Nbmolviz2dView.handleMessage host v message).view rest

/-- The operation a message is dispatched to, if any, leaves the message log
as it finds it. -/
def leavesLog (host : Host) (v : View) (message : JSValue) : Prop :=
  isDispatched message = true → ∀ args r,
    Nbmolviz2dView.resolve host (message.read "function_name").toStringJS = some r →
    argumentsOf host message = .ok args →
    (Nbmolviz2dView.invoke host { v with messages := v.messages ++ [message] ++ [message] }
      args r).view.messages = v.messages ++ [message] ++ [message]

/-- Every message of the sequence is ignored or dispatched to an operation
that leaves the message log as it finds it. -/
def allLeaveLog (host : Host) : View → List JSValue → Prop
  | _, [] => True
  | v, message :: rest =>
    leavesLog host v message ∧
      allLeaveLog host (Nbmolviz2dView.handleMessage host v message).view rest

/-- The message `{ event: 'other' }`. -/
def otherMessage : JSValue :=
  .obj 9 false [(.name "event", .str "other")]

/-- The key under which `indexSvgElements` files an element of class `node`:
its `index` attribute, `null` when it has none. -/
def nodeKey (elem : SvgElement) : Option String :=
  if getAttribute elem.attrs "class" = some "node" then
    some ((getAttribute elem.attrs "index").getD "null")
  else none

/-- The two keys `p,q` and `q,p` under which `indexSvgElements` files an
element of class `link` whose first child has source `p` and target `q`. -/
def linkKeys (elem : SvgElement) : Option (String × String) :=
  if getAttribute elem.attrs "class" = some "link" then
    match elem.children[0]? with
    | some child =>
      some (Nbmolviz2dView.linkKey (getAttribute child.attrs "source")
              (getAttribute child.attrs "target"),
            Nbmolviz2dView.linkKey (getAttribute child.attrs "target")
              (getAttribute child.attrs "source"))
    | none => none
  else none

/-- Whether `key` is one of the two keys of the link element. -/
def hasLinkKey (elem : SvgElement) (key : String) : Bool :=
  match linkKeys elem with
  | some (a, b) => key == a || key == b
  | none => false

/-- Every element of class `link` has a first child. -/
def linksHaveChild (scene : List SvgElement) : Prop :=
  ∀ elem ∈ scene, getAttribute elem.attrs "class" = some "link" → elem.children[0]?.isSome = true

instance (scene : List SvgElement) : Decidable (linksHaveChild scene) := by
  unfold linksHaveChild; infer_instance

/-- Two elements are not nodes filed under the same key. -/
def distinctNodes (e1 e2 : SvgElement) : Bool :=
  match nodeKey e1, nodeKey e2 with
  | some k1, some k2 => k1 != k2
  | _, _ => true

/-- Two elements are not links that share a key. -/
def distinctLinks (e1 e2 : SvgElement) : Bool :=
  match linkKeys e1, linkKeys e2 with
  | some (a, b), some (c, d) => a != c && a != d && b != c && b != d
  | _, _ => true

/-- One round of the loop of `indexSvgElements` on an element whose first
child, if it is a link, exists. -/
def indexStep (v : View) (i : Nat) (elem : SvgElement) : View :=
  let v1 : View :=
    match nodeKey elem with
    | some k => { v with svgNodes := indexSet v.svgNodes k i }
    | none => v
  match linkKeys elem with
  | some (a, b) => { v1 with svgLinks := indexSet (indexSet v1.svgLinks a i) b i }
  | none => v1

/-- The rounds of the loop of `indexSvgElements` from position `i` on. -/
def indexSteps : View → Nat → List SvgElement → View
  | v, _, [] => v
  | v, i, elem :: rest => indexSteps (indexStep v i elem) (i + 1) rest

/-- A link element whose first child has the given source and target. -/
def linkElement (source target : String) : SvgElement :=
  ⟨[("class", "link")], [⟨[("source", source), ("target", target)], [], .undefined⟩,
    ⟨[], [], .undefined⟩]⟩

/-- A node element with the given index. -/
def nodeElement (index : String) : SvgElement :=
  ⟨[("class", "node"), ("index", index)], [⟨[], [], .undefined⟩, ⟨[], [], .undefined⟩]⟩

/-- A view with the given scene and nothing else. -/
def sceneView (scene : List SvgElement) : View :=
  { messages := [], highlightedAtoms := [], scene := scene, svgNodes := [], svgLinks := [],
    hasSend := true, sent := [] }

/-- The record `oldModel` after every new record with its id has been merged
into it, in the order of the new collection. -/
def mergeAll (newElems : List JSObject) (oldModel : JSObject) : JSObject :=
  (newElems.filter (fun newModel => JSValue.strictEq oldModel.id newModel.id)).foldl
    MoleculeUtils.updateObjectInPlace oldModel

/-- The old collection after the new records have been merged, each into the
first old record with its id: the head takes every new record with its id,
the rest shares out the others. -/
def mergeIntoFirsts : List JSObject → List JSObject → List JSObject
  | _, [] => []
  | newElems, oldModel :: rest =>
    mergeAll newElems oldModel ::
      mergeIntoFirsts (newElems.filter (fun newModel => !JSValue.strictEq oldModel.id newModel.id))
        rest

mutual
/-- The nesting depth of a value: a primitive has depth 0, an object or array
one more than the deepest of its values. -/
def JSValue.depth : JSValue → Nat
  | .obj _ _ ps => JSValue.depthProps ps + 1
  | _ => 0
/-- The depth of the deepest value of a property list. -/
def JSValue.depthProps : List (Key × JSValue) → Nat
  | [] => 0
  | (_, v) :: rest => max (JSValue.depth v) (JSValue.depthProps rest)
end

mutual
/-- The callback of `updateObjectInPlace` with a bound on the calls of
`updateObjectInPlace` nested inside one another: `none` when a call would
exceed the bound. -/
def MoleculeUtils.updateFieldBounded : Nat → JSValue → JSValue → Option JSValue
  | calls, .obj a f po, .obj _ _ pn =>
    match calls with
    | 0 => none
    | n + 1 => (MoleculeUtils.updateKeysBounded n po pn).map (fun ps => JSValue.obj a f ps)
  | _, .undefined, v => some v
  | _, .null, v => some v
  | _, .bool _, v => some v
  | _, .num _, v => some v
  | _, .str _, v => some v
  | _, .obj _ _ _, .undefined => some .undefined
  | _, .obj _ _ _, .null => some .null
  | _, .obj _ _ _, .bool b => some (.bool b)
  | _, .obj _ _ _, .num n => some (.num n)
  | _, .obj _ _ _, .str s => some (.str s)
/-- The loop over the keys of `newObject` under the same bound. -/
def MoleculeUtils.updateKeysBounded : Nat → List (Key × JSValue) → List (Key × JSValue) →
    Option (List (Key × JSValue))
  | _, po, [] => some po
  | calls, po, (k, v) :: rest =>
    match MoleculeUtils.updateFieldBounded calls (getProp po k) v with
    | none => none
    | some w => MoleculeUtils.updateKeysBounded calls (setProp po k w) rest
end

/-- The call `updateObjectInPlace(oldObject, newObject)` with at most `calls`
calls nested inside one another, the outermost included. -/
def MoleculeUtils.updateObjectInPlaceBounded (calls : Nat) (oldObject newObject : JSObject) :
    Option JSValue :=
  MoleculeUtils.updateFieldBounded calls oldObject.toValue newObject.toValue

mutual
/-- The value is an object that lists each of its keys once, as every object
does, and so are the objects nested in it. -/
def JSValue.keysOnce : JSValue → Bool
  | .obj _ _ ps => decide (ps.map Prod.fst).Nodup && JSValue.propsKeysOnce ps
  | _ => true
/-- The values of a property list list each of their keys once. -/
def JSValue.propsKeysOnce : List (Key × JSValue) → Bool
  | [] => true
  | (_, v) :: rest => JSValue.keysOnce v && JSValue.propsKeysOnce rest
end

/-- The names on which a write or a read of an object does more than store or
fetch a property: `length`, and the names an object or an array inherits. -/
def specialNames : List String :=
  "length" :: (arrayPrototypeNames ++ objectPrototypeNames)

mutual
/-- Whether no object inside a value, the value included, owns a key among
`names`. -/
def JSValue.keysAvoid (names : List String) : JSValue → Bool
  | .obj _ _ ps => JSValue.propsAvoid names ps
  | _ => true
/-- Whether no key of a property list or of an object inside it is among
`names`. -/
def JSValue.propsAvoid (names : List String) : List (Key × JSValue) → Bool
  | [] => true
  | (k, v) :: rest =>
    !names.contains k.toString && (JSValue.keysAvoid names v && JSValue.propsAvoid names rest)
end
/-! ## Properties of property lists -/

theorem hasKey_cons (p : Key × JSValue) (ps : Props) (k : Key) :
    hasKey (p :: ps) k = (decide (p.1 = k) || hasKey ps k) := by
  simp only [hasKey, List.any_cons]
  congr 1

theorem getProp_of_hasKey_false (ps : Props) (k : Key) (h : hasKey ps k = false) :
    getProp ps k = .undefined := by
  induction ps with
  | nil => rfl
  | cons p rest ih =>
    obtain ⟨k1, v1⟩ := p
    simp only [hasKey_cons, Bool.or_eq_false_iff, decide_eq_false_iff_not] at h
    simp [getProp, h.1, ih h.2]

theorem getProp_replaceProp (ps : Props) (k k2 : Key) (v : JSValue) (h : hasKey ps k = true) :
    getProp (replaceProp ps k v) k2 = if k = k2 then v else getProp ps k2 := by
  induction ps with
  | nil => simp [hasKey] at h
  | cons p rest ih =>
    obtain ⟨k1, v1⟩ := p
    simp only [hasKey_cons, Bool.or_eq_true, decide_eq_true_eq] at h
    by_cases h1 : k1 = k
    · subst h1
      simp only [replaceProp, if_true, getProp]
      split <;> rfl
    · simp only [replaceProp, if_neg h1, getProp]
      rcases h with h | h
      · exact absurd h h1
      · rw [ih h]
        by_cases h2 : k1 = k2
        · subst h2; simp [Ne.symm h1]
        · simp [h2]

theorem getProp_insertProp (ps : Props) (k k2 : Key) (v : JSValue) (h : hasKey ps k = false) :
    getProp (insertProp ps k v) k2 = if k = k2 then v else getProp ps k2 := by
  induction ps with
  | nil => simp [insertProp, getProp]
  | cons p rest ih =>
    obtain ⟨k1, v1⟩ := p
    simp only [hasKey_cons, Bool.or_eq_false_iff, decide_eq_false_iff_not] at h
    simp only [insertProp]
    split
    · simp [getProp]
    · simp only [getProp]
      rw [ih h.2]
      by_cases h2 : k1 = k2
      · subst h2; simp [Ne.symm h.1]
      · simp [h2]

theorem getProp_setProp (ps : Props) (k k2 : Key) (v : JSValue) :
    getProp (setProp ps k v) k2 = if k = k2 then v else getProp ps k2 := by
  unfold setProp
  by_cases h : hasKey ps k = true
  · rw [if_pos h]; exact getProp_replaceProp ps k k2 v h
  · rw [if_neg h]; exact getProp_insertProp ps k k2 v (by simpa using h)

theorem hasKey_replaceProp (ps : Props) (k k2 : Key) (v : JSValue) :
    hasKey (replaceProp ps k v) k2 = hasKey ps k2 := by
  induction ps with
  | nil => rfl
  | cons p rest ih =>
    obtain ⟨k1, v1⟩ := p
    simp only [replaceProp]
    split
    · simp [hasKey_cons]
    · simp [hasKey_cons, ih]

theorem hasKey_insertProp (ps : Props) (k k2 : Key) (v : JSValue) :
    hasKey (insertProp ps k v) k2 = (decide (k = k2) || hasKey ps k2) := by
  induction ps with
  | nil =>
    simp only [insertProp, hasKey_cons]
  | cons p rest ih =>
    obtain ⟨k1, v1⟩ := p
    simp only [insertProp]
    split
    · simp [hasKey_cons]
    · simp only [hasKey_cons, ih]
      cases decide (k1 = k2) <;> cases decide (k = k2) <;> simp

theorem hasKey_setProp (ps : Props) (k k2 : Key) (v : JSValue) :
    hasKey (setProp ps k v) k2 = (decide (k = k2) || hasKey ps k2) := by
  unfold setProp
  by_cases h : hasKey ps k = true
  · rw [if_pos h, hasKey_replaceProp]
    by_cases h2 : k = k2
    · subst h2; simp [h]
    · simp [h2]
  · rw [if_neg h, hasKey_insertProp]

theorem hasKey_of_getProp_ne (ps : Props) (k : Key) (h : getProp ps k ≠ .undefined) :
    hasKey ps k = true := by
  by_contra hc
  exact h (getProp_of_hasKey_false ps k (by simpa using hc))

theorem getProp_growLength (ps : Props) (i : Nat) (k : Key) (hk : k ≠ .name "length") :
    getProp (growLength ps i) k = getProp ps k := by
  unfold growLength
  split
  · rename_i n hn
    split
    · rw [getProp_replaceProp ps _ _ _ (hasKey_of_getProp_ne ps _ (by rw [hn]; simp)),
        if_neg (Ne.symm hk)]
    · rfl
  · rfl

theorem hasKey_growLength (ps : Props) (i : Nat) (k : Key) :
    hasKey (growLength ps i) k = hasKey ps k := by
  unfold growLength
  split
  · split
    · rw [hasKey_replaceProp]
    · rfl
  · rfl

theorem mem_enumerableKeys (isArray : Bool) (ps : Props) (k : Key) :
    k ∈ enumerableKeys isArray ps ↔
      hasKey ps k = true ∧ ¬ (isArray = true ∧ k = .name "length") := by
  simp only [enumerableKeys, objectKeys, List.mem_filter, List.mem_map, hasKey, List.any_eq_true,
    beq_iff_eq, Bool.not_eq_true', Bool.and_eq_false_imp, decide_eq_false_iff_not,
    Bool.not_eq_eq_eq_not, Bool.not_true, Bool.and_eq_true, decide_eq_true_eq]
  constructor
  · rintro ⟨⟨p, hp, rfl⟩, h⟩
    exact ⟨⟨p, hp, rfl⟩, fun hc => h hc.1 hc.2⟩
  · rintro ⟨⟨p, hp, rfl⟩, h⟩
    exact ⟨⟨p, hp, rfl⟩, fun h1 h2 => h ⟨h1, h2⟩⟩

theorem getProp_writeProp (lengthOf : JSValue → Option Nat) (isArray : Bool) (ps ps1 : Props)
    (key k : Key) (v : JSValue) (hw : writeProp lengthOf isArray ps key v = some ps1)
    (hlen : ¬ (isArray = true ∧ key = .name "length")) (hk : k ≠ key)
    (hkl : isArray = true → k ≠ .name "length") :
    getProp ps1 k = getProp ps k := by
  unfold writeProp at hw
  split at hw
  · cases hw; rfl
  · split at hw
    · rename_i ha
      cases key with
      | idx i =>
        simp only [Option.some.injEq] at hw
        subst hw
        rw [getProp_growLength _ _ _ (hkl ha), getProp_setProp, if_neg (Ne.symm hk)]
      | name s =>
        simp only [Option.some.injEq] at hw
        subst hw
        rw [getProp_setProp, if_neg (Ne.symm hk)]
    · simp only [Option.some.injEq] at hw
      subst hw
      rw [getProp_setProp, if_neg (Ne.symm hk)]

theorem hasKey_writeProp (lengthOf : JSValue → Option Nat) (isArray : Bool) (ps ps1 : Props)
    (key k : Key) (v : JSValue) (hw : writeProp lengthOf isArray ps key v = some ps1)
    (hlen : ¬ (isArray = true ∧ key = .name "length")) (hk : hasKey ps k = true) :
    hasKey ps1 k = true := by
  unfold writeProp at hw
  split at hw
  · cases hw; exact hk
  · split at hw
    · cases key with
      | idx i =>
        simp only [Option.some.injEq] at hw
        subst hw
        rw [hasKey_growLength, hasKey_setProp, hk, Bool.or_true]
      | name s =>
        simp only [Option.some.injEq] at hw
        subst hw
        rw [hasKey_setProp, hk, Bool.or_true]
    · simp only [Option.some.injEq] at hw
      subst hw
      rw [hasKey_setProp, hk, Bool.or_true]

/-! ## Properties of `updateObjectInPlace` -/

namespace MoleculeUtils

theorem updateField_toValue (oo nn : JSObject) :
    updateField oo.toValue nn.toValue = (updateObjectInPlace oo nn).toValue := by
  simp [JSObject.toValue, updateField, updateObjectInPlace]

theorem updateField_of_not_both (a b : JSValue) (h : (a.isObject && b.isObject) = false) :
    updateField a b = b := by
  cases a <;> cases b <;> simp_all [updateField, JSValue.isObject]

theorem getProp_updateKeys_of_not_mem (pn : Props) : ∀ (po : Props) (k : Key),
    hasKey pn k = false → getProp (updateKeys po pn) k = getProp po k := by
  induction pn with
  | nil => intro po k _; simp [updateKeys]
  | cons p rest ih =>
    intro po k h
    obtain ⟨k1, v1⟩ := p
    simp only [hasKey_cons, Bool.or_eq_false_iff, decide_eq_false_iff_not] at h
    simp only [updateKeys]
    rw [ih _ _ h.2, getProp_setProp, if_neg h.1]

theorem hasKey_updateKeys (pn : Props) : ∀ (po : Props) (k : Key),
    hasKey (updateKeys po pn) k = (hasKey po k || hasKey pn k) := by
  induction pn with
  | nil => intro po k; simp [updateKeys, hasKey]
  | cons p rest ih =>
    intro po k
    obtain ⟨k1, v1⟩ := p
    simp only [updateKeys]
    rw [ih, hasKey_setProp, hasKey_cons]
    cases decide (k1 = k) <;> cases hasKey po k <;> simp

theorem updateKeysFull_frame (lengthOf : JSValue → Option Nat) (oa na : Bool) (pn : Props) :
    ∀ (po r : Props), updateKeysFull lengthOf oa na po pn = .ok r →
    (oa = false ∨ Key.name "length" ∉ enumerableKeys na pn) →
    (∀ k, k ∉ enumerableKeys na pn → (oa = true → k ≠ .name "length") →
      getProp r k = getProp po k) ∧
    (∀ k, hasKey po k = true → hasKey r k = true) := by
  induction pn with
  | nil =>
    intro po r h _
    simp only [updateKeysFull, Except.ok.injEq] at h
    subst h
    exact ⟨fun _ _ _ => rfl, fun _ hk => hk⟩
  | cons p rest ih =>
    intro po r h hlen
    obtain ⟨k1, v⟩ := p
    have hsub : ∀ k, k ∉ enumerableKeys na ((k1, v) :: rest) → k ∉ enumerableKeys na rest := by
      intro k hk hc
      apply hk
      rw [mem_enumerableKeys] at hc ⊢
      exact ⟨by rw [hasKey_cons, hc.1, Bool.or_true], hc.2⟩
    have hlen2 : oa = false ∨ Key.name "length" ∉ enumerableKeys na rest :=
      hlen.imp id (hsub _)
    rw [updateKeysFull] at h
    split at h
    · exact ⟨fun k hk hkl => (ih po r h hlen2).1 k (hsub k hk) hkl, (ih po r h hlen2).2⟩
    · rename_i hskip
      have hmem : k1 ∈ enumerableKeys na ((k1, v) :: rest) := by
        rw [mem_enumerableKeys]
        exact ⟨by simp [hasKey_cons], hskip⟩
      split at h
      · split at h
        · cases h
        · exact ⟨fun k hk hkl => (ih po r h hlen2).1 k (hsub k hk) hkl, (ih po r h hlen2).2⟩
      · split at h
        · cases h
        · cases hf : updateFieldFull lengthOf (getProp po k1) v with
          | error e => rw [hf] at h; cases h
          | ok x =>
            rw [hf] at h
            simp only at h
            cases hw : writeProp lengthOf oa po k1 x with
            | none => rw [hw] at h; cases h
            | some po1 =>
              rw [hw] at h
              simp only at h
              have hnl : ¬ (oa = true ∧ k1 = .name "length") := by
                rintro ⟨ha, hk⟩
                rcases hlen with hl | hl
                · rw [hl] at ha; cases ha
                · exact hl (hk ▸ hmem)
              refine ⟨fun k hk hkl => ?_, fun k hk => ?_⟩
              · rw [(ih po1 r h hlen2).1 k (hsub k hk) hkl]
                exact getProp_writeProp lengthOf oa po po1 k1 k x hw hnl
                  (fun hc => hk (hc ▸ hmem)) hkl
              · exact (ih po1 r h hlen2).2 k (hasKey_writeProp lengthOf oa po po1 k1 k x hw hnl hk)

theorem getProp_updateKeys_of_mem (pn : Props) : ∀ (po : Props) (k : Key),
    (objectKeys pn).Nodup → hasKey pn k = true →
    getProp (updateKeys po pn) k = updateField (getProp po k) (getProp pn k) := by
  induction pn with
  | nil => intro po k _ h; simp [hasKey] at h
  | cons p rest ih =>
    intro po k hnd h
    obtain ⟨k1, v1⟩ := p
    simp only [objectKeys, List.map_cons, List.nodup_cons, List.mem_map, not_exists, not_and] at hnd
    simp only [updateKeys, getProp]
    by_cases h1 : k1 = k
    · subst h1
      have hrest : hasKey rest k1 = false := by
        simp only [hasKey, List.any_eq_false, beq_iff_eq]
        intro x hx hxk
        exact hnd.1 x hx hxk
      rw [getProp_updateKeys_of_not_mem _ _ _ hrest, getProp_setProp]
      simp
    · simp only [hasKey_cons, Bool.or_eq_true, decide_eq_true_eq] at h
      rcases h with h | h
      · exact absurd h h1
      · rw [ih _ _ (by simpa [objectKeys] using hnd.2) h, getProp_setProp, if_neg h1, if_neg h1]

end MoleculeUtils

theorem strictEq_iff_canon (a b : JSValue) : JSValue.strictEq a b = true ↔ a.canon = b.canon := by
  cases a <;> cases b <;> simp [JSValue.strictEq, JSValue.canon]

theorem strictEq_refl (a : JSValue) : JSValue.strictEq a a = true :=
  (strictEq_iff_canon a a).2 rfl

theorem strictEq_comm (a b : JSValue) : JSValue.strictEq a b = JSValue.strictEq b a := by
  rw [Bool.eq_iff_iff, strictEq_iff_canon, strictEq_iff_canon]
  exact eq_comm

theorem strictEq_of_not_isObject (a b : JSValue) (h : a.isObject = false) :
    JSValue.strictEq a b = true ↔ a = b := by
  cases a <;> cases b <;> simp_all [JSValue.strictEq, JSValue.isObject]

theorem occursIn_iff (ids : List JSValue) (x : JSValue) :
    occursIn ids x = true ↔ x.canon ∈ ids.map JSValue.canon := by
  simp only [occursIn, List.any_eq_true, List.mem_map, strictEq_iff_canon]

namespace ISet

theorem has_eq_occursIn (s : List JSValue) (x : JSValue) : has s x = occursIn s x := rfl

theorem occursIn_add (s : List JSValue) (v x : JSValue) :
    occursIn (add s v) x = (occursIn s x || JSValue.strictEq v x) := by
  unfold add
  split
  · rename_i h
    rw [has_eq_occursIn] at h
    by_cases hv : JSValue.strictEq v x = true
    · have : occursIn s x = true := by
        rw [occursIn_iff] at h ⊢
        rwa [← (strictEq_iff_canon v x).1 hv]
      simp [this]
    · simp [hv]
  · simp [occursIn, is]

theorem occursIn_foldl_add (l : List JSValue) : ∀ (s : List JSValue) (x : JSValue),
    occursIn (l.foldl add s) x = (occursIn s x || occursIn l x) := by
  induction l with
  | nil => intro s x; simp [occursIn]
  | cons a rest ih =>
    intro s x
    simp only [List.foldl_cons]
    rw [ih, occursIn_add]
    simp [occursIn, Bool.or_assoc]

theorem occursIn_ofList (l : List JSValue) (x : JSValue) :
    occursIn (ofList l) x = occursIn l x := by
  unfold ofList
  rw [occursIn_foldl_add]
  simp [occursIn]

theorem nodup_add (s : List JSValue) (v : JSValue) (h : (s.map JSValue.canon).Nodup) :
    ((add s v).map JSValue.canon).Nodup := by
  unfold add
  split
  · exact h
  · rename_i hv
    rw [has_eq_occursIn, occursIn_iff] at hv
    rw [List.map_append, List.nodup_append]
    refine ⟨h, by simp, ?_⟩
    intro a ha hb
    simp only [List.map_cons, List.map_nil, List.mem_singleton] at hb
    subst hb
    exact hv ha

theorem nodup_foldl_add (l : List JSValue) : ∀ (s : List JSValue),
    (s.map JSValue.canon).Nodup → ((l.foldl add s).map JSValue.canon).Nodup := by
  induction l with
  | nil => intro s h; exact h
  | cons a rest ih => intro s h; exact ih _ (nodup_add s a h)

theorem nodup_ofList (l : List JSValue) : ((ofList l).map JSValue.canon).Nodup :=
  nodup_foldl_add l [] (by simp)

theorem equals_iff (a b : List JSValue) (ha : (a.map JSValue.canon).Nodup)
    (hb : (b.map JSValue.canon).Nodup) :
    equals a b = true ↔ ∀ x, occursIn a x = occursIn b x := by
  unfold equals
  simp only [Bool.and_eq_true, beq_iff_eq, List.all_eq_true, has_eq_occursIn]
  constructor
  · rintro ⟨hlen, hsub⟩ x
    have hsub2 : b.map JSValue.canon ⊆ a.map JSValue.canon := by
      intro c hc
      obtain ⟨y, hy, rfl⟩ := List.mem_map.1 hc
      exact (occursIn_iff a y).1 (hsub y hy)
    have hperm : (b.map JSValue.canon).Perm (a.map JSValue.canon) :=
      (List.subperm_of_subset hb hsub2).perm_of_length_le (by simp [hlen])
    rw [Bool.eq_iff_iff, occursIn_iff, occursIn_iff]
    exact (hperm.mem_iff).symm
  · intro h
    have hmem : ∀ c, c ∈ a.map JSValue.canon ↔ c ∈ b.map JSValue.canon := by
      intro c
      constructor
      · intro hc
        obtain ⟨y, hy, rfl⟩ := List.mem_map.1 hc
        rw [← occursIn_iff, ← h, occursIn_iff]
        exact List.mem_map_of_mem _ hy
      · intro hc
        obtain ⟨y, hy, rfl⟩ := List.mem_map.1 hc
        rw [← occursIn_iff, h, occursIn_iff]
        exact List.mem_map_of_mem _ hy
    have hperm := (List.perm_ext_iff_of_nodup ha hb).2 hmem
    refine ⟨by simpa using hperm.length_eq, ?_⟩
    intro x hx
    rw [h, occursIn_iff]
    exact List.mem_map_of_mem _ hx

end ISet

namespace MoleculeUtils

theorem compareIds_iff (idsA idsB : List JSValue) :
    compareIds idsA idsB = true ↔ ∀ x, occursIn idsA x = occursIn idsB x := by
  unfold compareIds
  split
  · rename_i h
    simp only [false_iff, Bool.false_eq_true]
    intro hall
    cases idsA with
    | nil =>
      cases idsB with
      | nil => simp at h
      | cons b rest =>
        have := hall b
        simp [occursIn, strictEq_refl] at this
    | cons a rest =>
      cases idsB with
      | nil =>
        have := hall a
        simp [occursIn, strictEq_refl] at this
      | cons b rest2 => simp at h
  · rw [ISet.equals_iff _ _ (ISet.nodup_ofList _) (ISet.nodup_ofList _)]
    simp only [ISet.occursIn_ofList]

end MoleculeUtils

/-! ## Properties of `updateModels` -/

theorem uniqueIds_iff (l : List JSObject) :
    uniqueIds l ↔ (l.map (fun o => o.id.canon)).Nodup := by
  unfold uniqueIds List.Nodup
  rw [List.pairwise_map, List.pairwise_map]
  apply List.Pairwise.iff
  intro a b
  rw [← Bool.not_eq_true, strictEq_iff_canon]

namespace MoleculeUtils

theorem canon_updateField (a b : JSValue) (h : a.canon = b.canon) :
    (updateField a b).canon = a.canon := by
  cases a <;> cases b <;> simp_all [updateField, JSValue.canon]

theorem canon_id_updateObjectInPlace (o m : JSObject) (hw : m.wellFormed)
    (h : JSValue.strictEq o.id m.id = true) :
    (updateObjectInPlace o m).id.canon = o.id.canon := by
  rw [strictEq_iff_canon] at h
  unfold JSObject.id updateObjectInPlace at *
  simp only
  by_cases hk : hasKey m.props (.name "id") = true
  · rw [getProp_updateKeys_of_mem _ _ _ hw hk]
    exact canon_updateField _ _ h
  · rw [getProp_updateKeys_of_not_mem _ _ _ (by simpa using hk)]

theorem updateFirstMatch_eq_none (m : JSObject) (l : List JSObject)
    (h : ∀ o ∈ l, JSValue.strictEq o.id m.id = false) : updateFirstMatch m l = none := by
  induction l with
  | nil => rfl
  | cons o rest ih =>
    simp only [updateFirstMatch, h o (List.mem_cons_self _ _), Bool.false_eq_true, if_false]
    rw [ih (fun x hx => h x (List.mem_cons_of_mem _ hx))]
    rfl

theorem updateFirstMatch_unique (m : JSObject) (l : List JSObject) (hu : uniqueIds l)
    (hex : ∃ o ∈ l, JSValue.strictEq o.id m.id = true) :
    updateFirstMatch m l =
      some (l.map (fun o => if JSValue.strictEq o.id m.id then updateObjectInPlace o m else o)) := by
  induction l with
  | nil => obtain ⟨o, ho, _⟩ := hex; cases ho
  | cons o rest ih =>
    have hu2 : uniqueIds rest := by
      unfold uniqueIds at hu ⊢
      exact (List.pairwise_cons.1 hu).2
    by_cases h : JSValue.strictEq o.id m.id = true
    · simp only [updateFirstMatch, h, if_true, List.map_cons, Option.some.injEq, List.cons.injEq,
        true_and]
      have hrest : ∀ x ∈ rest, JSValue.strictEq x.id m.id = false := by
        intro x hx
        unfold uniqueIds at hu
        have h1 := (List.pairwise_cons.1 hu).1 x.id (List.mem_map_of_mem _ hx)
        rw [← Bool.not_eq_true, strictEq_iff_canon] at h1 ⊢
        rw [strictEq_iff_canon] at h
        rw [← h]
        exact fun e => h1 e.symm
      symm
      calc rest.map (fun o => if JSValue.strictEq o.id m.id then updateObjectInPlace o m else o)
          = rest.map (fun o => o) := by
            apply List.map_congr_left
            intro x hx
            simp [hrest x hx]
        _ = rest := by simp
    · simp only [updateFirstMatch, h, if_false, List.map_cons, Bool.false_eq_true]
      obtain ⟨x, hx, hxm⟩ := hex
      have hx2 : x ∈ rest := by
        rcases List.mem_cons.1 hx with e | e
        · subst e; exact absurd hxm h
        · exact e
      rw [ih hu2 ⟨x, hx2, hxm⟩]
      rfl

theorem removeStale_eq_self (newElems l : List JSObject)
    (h : ∀ o ∈ l, ∃ m ∈ newElems, JSValue.strictEq m.id o.id = true) :
    removeStale newElems l = l := by
  induction l with
  | nil => rfl
  | cons o rest ih =>
    obtain ⟨m, hm, hmo⟩ := h o (List.mem_cons_self _ _)
    simp only [removeStale]
    cases hf : newElems.find? (fun newModelI => JSValue.strictEq newModelI.id o.id) with
    | none =>
      rw [List.find?_eq_none] at hf
      exact absurd hmo (hf m hm)
    | some y =>
      simp only
      rw [ih (fun x hx => h x (List.mem_cons_of_mem _ hx))]

end MoleculeUtils

namespace MoleculeUtils

theorem mergeMatching_cons_of_match (m : JSObject) (rest : List JSObject) (o : JSObject)
    (h : JSValue.strictEq m.id o.id = true) :
    mergeMatching (m :: rest) o = updateObjectInPlace o m := by
  simp [mergeMatching, List.find?, h]

theorem mergeMatching_cons_of_ne (m : JSObject) (rest : List JSObject) (o : JSObject)
    (h : JSValue.strictEq m.id o.id = false) :
    mergeMatching (m :: rest) o = mergeMatching rest o := by
  simp [mergeMatching, List.find?, h]

theorem mergeMatching_of_no_match (news : List JSObject) (o : JSObject)
    (h : ∀ m ∈ news, JSValue.strictEq m.id o.id = false) : mergeMatching news o = o := by
  have : news.find? (fun newModel => JSValue.strictEq newModel.id o.id) = none := by
    rw [List.find?_eq_none]
    intro m hm
    simp [h m hm]
  simp [mergeMatching, this]

theorem canon_id_mergeStep (m o : JSObject) (hw : m.wellFormed) :
    (if JSValue.strictEq o.id m.id then updateObjectInPlace o m else o).id.canon = o.id.canon := by
  split
  · rename_i h; exact canon_id_updateObjectInPlace o m hw h
  · rfl

theorem foldl_addOrUpdate (news : List JSObject) : ∀ (l : List JSObject),
    uniqueIds l → uniqueIds news → (∀ m ∈ news, m.wellFormed) →
    (∀ m ∈ news, ∃ o ∈ l, JSValue.strictEq o.id m.id = true) →
    news.foldl addOrUpdate l = l.map (mergeMatching news) := by
  induction news with
  | nil =>
    intro l _ _ _ _
    have : mergeMatching [] = fun o => o := by
      funext o; simp [mergeMatching]
    simp [this]
  | cons m rest ih =>
    intro l hl hn hw hex
    have hwm := hw m (List.mem_cons_self _ _)
    simp only [List.foldl_cons]
    have hstep : addOrUpdate l m =
        l.map (fun o => if JSValue.strictEq o.id m.id then updateObjectInPlace o m else o) := by
      unfold addOrUpdate
      rw [updateFirstMatch_unique m l hl (hex m (List.mem_cons_self _ _))]
    have hids : (addOrUpdate l m).map (fun o => o.id.canon) = l.map (fun o => o.id.canon) := by
      rw [hstep, List.map_map]
      apply List.map_congr_left
      intro o _
      exact canon_id_mergeStep m o hwm
    have hl1 : uniqueIds (addOrUpdate l m) := by
      rw [uniqueIds_iff, hids, ← uniqueIds_iff]; exact hl
    have hn1 : uniqueIds rest := by
      unfold uniqueIds at hn ⊢
      exact (List.pairwise_cons.1 hn).2
    have hex1 : ∀ m2 ∈ rest, ∃ o ∈ addOrUpdate l m, JSValue.strictEq o.id m2.id = true := by
      intro m2 hm2
      obtain ⟨o, ho, hom⟩ := hex m2 (List.mem_cons_of_mem _ hm2)
      have hc : o.id.canon ∈ (addOrUpdate l m).map (fun o => o.id.canon) := by
        rw [hids]; exact List.mem_map_of_mem (fun o => o.id.canon) ho
      obtain ⟨o2, ho2, he⟩ := List.mem_map.1 hc
      refine ⟨o2, ho2, ?_⟩
      rw [strictEq_iff_canon] at hom ⊢
      rw [he, hom]
    rw [ih _ hl1 hn1 (fun x hx => hw x (List.mem_cons_of_mem _ hx)) hex1, hstep, List.map_map]
    apply List.map_congr_left
    intro o _
    simp only [Function.comp]
    by_cases h : JSValue.strictEq o.id m.id = true
    · rw [if_pos h, mergeMatching_cons_of_match m rest o (by rw [strictEq_comm]; exact h)]
      apply mergeMatching_of_no_match
      intro m2 hm2
      unfold uniqueIds at hn
      have h1 := (List.pairwise_cons.1 hn).1 m2.id (List.mem_map_of_mem _ hm2)
      rw [← Bool.not_eq_true, strictEq_iff_canon] at h1 ⊢
      rw [canon_id_updateObjectInPlace o m hwm h]
      rw [strictEq_iff_canon] at h
      rw [h]
      exact fun e => h1 e.symm
    · rw [if_neg h, mergeMatching_cons_of_ne m rest o
        (by rw [strictEq_comm]; simpa using h)]

theorem canon_id_mergeMatching (news : List JSObject) (hw : ∀ m ∈ news, m.wellFormed)
    (o : JSObject) : (mergeMatching news o).id.canon = o.id.canon := by
  unfold mergeMatching
  cases hf : news.find? (fun newModel => JSValue.strictEq newModel.id o.id) with
  | none => rfl
  | some m =>
    have hm := List.mem_of_find?_eq_some hf
    have hp := List.find?_some hf
    simp only at hp ⊢
    exact canon_id_updateObjectInPlace o m (hw m hm) (by rw [strictEq_comm]; exact hp)

/-- The in-place path of `updateModels` under unique ids and equal id sets:
the old array with every record merged with the new record of its id. -/
theorem updateModels_sameIds (oldArray newArray : JSArray)
    (hold : uniqueIds oldArray.elems) (hnew : uniqueIds newArray.elems)
    (hw : ∀ m ∈ newArray.elems, m.wellFormed)
    (hsame : ∀ x, occursIn (oldArray.elems.map JSObject.id) x
      = occursIn (newArray.elems.map JSObject.id) x) :
    updateModels oldArray newArray =
      { returned := { oldArray with elems := oldArray.elems.map (mergeMatching newArray.elems) },
        oldArray := { oldArray with elems := oldArray.elems.map (mergeMatching newArray.elems) } } := by
  have hc : compareIds (oldArray.elems.map JSObject.id) (newArray.elems.map JSObject.id) = true :=
    (compareIds_iff _ _).2 hsame
  have hex : ∀ m ∈ newArray.elems, ∃ o ∈ oldArray.elems, JSValue.strictEq o.id m.id = true := by
    intro m hm
    have h1 : occursIn (newArray.elems.map JSObject.id) m.id = true := by
      simp only [occursIn, List.any_eq_true, List.mem_map]
      exact ⟨m.id, ⟨m, hm, rfl⟩, strictEq_refl _⟩
    rw [← hsame] at h1
    simp only [occursIn, List.any_eq_true, List.mem_map] at h1
    obtain ⟨y, ⟨o, ho, rfl⟩, hy⟩ := h1
    exact ⟨o, ho, hy⟩
  have hfold := foldl_addOrUpdate newArray.elems oldArray.elems hold hnew hw hex
  have hkeep : removeStale newArray.elems (oldArray.elems.map (mergeMatching newArray.elems))
      = oldArray.elems.map (mergeMatching newArray.elems) := by
    apply removeStale_eq_self
    intro r hr
    obtain ⟨o, ho, rfl⟩ := List.mem_map.1 hr
    have h1 : occursIn (oldArray.elems.map JSObject.id) o.id = true := by
      simp only [occursIn, List.any_eq_true, List.mem_map]
      exact ⟨o.id, ⟨o, ho, rfl⟩, strictEq_refl _⟩
    rw [hsame] at h1
    simp only [occursIn, List.any_eq_true, List.mem_map] at h1
    obtain ⟨y, ⟨m, hm, rfl⟩, hy⟩ := h1
    refine ⟨m, hm, ?_⟩
    rw [strictEq_iff_canon] at hy ⊢
    rw [hy, canon_id_mergeMatching newArray.elems hw o]
  unfold updateModels
  simp only [hc, Bool.not_true, Bool.false_eq_true, if_false, hfold, hkeep]

end MoleculeUtils

namespace MoleculeUtils

theorem filter_id_length_eq_one (l : List JSObject) (hu : uniqueIds l) (x : JSValue)
    (hx : occursIn (l.map JSObject.id) x = true) :
    (l.filter (fun o => JSValue.strictEq o.id x)).length = 1 := by
  have hp : (fun o : JSObject => JSValue.strictEq o.id x)
      = ((fun c => c == x.canon) ∘ (fun o : JSObject => o.id.canon)) := by
    funext o
    simp only [Function.comp]
    rw [Bool.eq_iff_iff, strictEq_iff_canon]
    simp
  rw [← List.countP_eq_length_filter, hp, ← List.countP_map]
  rw [uniqueIds_iff] at hu
  rw [occursIn_iff, List.map_map] at hx
  have := List.count_eq_one_of_mem hu hx
  simpa [List.count] using this

/-- The early return of `updateModels`: nothing is written. -/
theorem updateModels_of_compareIds_false (oldArray newArray : JSArray)
    (h : compareIds (oldArray.elems.map JSObject.id) (newArray.elems.map JSObject.id) = false) :
    updateModels oldArray newArray = { returned := newArray, oldArray := oldArray } := by
  unfold updateModels
  simp [h]

/-- C1: when the id sets of the two collections differ (`compareIds` on their id
lists is false), `updateModels` returns `newArray` itself, with its records
in its order and unmodified, and leaves `oldArray` and its records as they
were. -/
theorem updateModels_divergent (oldArray newArray : JSArray)
    (h : compareIds (oldArray.elems.map JSObject.id) (newArray.elems.map JSObject.id) = false) :
    (updateModels oldArray newArray).returned = newArray ∧
    (updateModels oldArray newArray).oldArray = oldArray := by
  rw [updateModels_of_compareIds_false oldArray newArray h]
  exact ⟨rfl, rfl⟩

/-- C2: for collections with unique ids and the same id set, `updateModels`
returns `oldArray` (same address, its contents on return) with the same
length, and the record at every position is the record that was there (same
address, same id) merged by `updateObjectInPlace` with the new record having
that id.  The new records list each key once. -/
theorem updateModels_inPlace (oldArray newArray : JSArray)
    (hold : uniqueIds oldArray.elems) (hnew : uniqueIds newArray.elems)
    (hw : ∀ m ∈ newArray.elems, m.wellFormed)
    (hsame : ∀ x, occursIn (oldArray.elems.map JSObject.id) x
      = occursIn (newArray.elems.map JSObject.id) x) :
    (updateModels oldArray newArray).returned.addr = oldArray.addr ∧
    (updateModels oldArray newArray).oldArray = (updateModels oldArray newArray).returned ∧
    (updateModels oldArray newArray).returned.elems.length = oldArray.elems.length ∧
    ∀ (i : Nat) (o : JSObject), oldArray.elems[i]? = some o →
      ∃ m ∈ newArray.elems, JSValue.strictEq m.id o.id = true ∧
        (updateModels oldArray newArray).returned.elems[i]?
          = some (updateObjectInPlace o m) ∧
        (updateObjectInPlace o m).addr = o.addr ∧
        JSValue.strictEq (updateObjectInPlace o m).id o.id = true := by
  rw [updateModels_sameIds oldArray newArray hold hnew hw hsame]
  refine ⟨rfl, rfl, by simp, ?_⟩
  intro i o hio
  have ho : o ∈ oldArray.elems := List.getElem?_mem hio
  have h1 : occursIn (oldArray.elems.map JSObject.id) o.id = true := by
    simp only [occursIn, List.any_eq_true, List.mem_map]
    exact ⟨o.id, ⟨o, ho, rfl⟩, strictEq_refl _⟩
  rw [hsame] at h1
  simp only [occursIn, List.any_eq_true, List.mem_map] at h1
  obtain ⟨y, ⟨m0, hm0, rfl⟩, hy⟩ := h1
  cases hf : newArray.elems.find? (fun newModel => JSValue.strictEq newModel.id o.id) with
  | none =>
    rw [List.find?_eq_none] at hf
    exact absurd hy (hf m0 hm0)
  | some m =>
    have hm := List.mem_of_find?_eq_some hf
    have hp := List.find?_some hf
    simp only at hp
    refine ⟨m, hm, hp, ?_, rfl, ?_⟩
    · simp [hio, mergeMatching, hf]
    · rw [strictEq_iff_canon]
      exact canon_id_updateObjectInPlace o m (hw m hm) (by rw [strictEq_comm]; exact hp)

/-- The example of the specification for C2: same ids in another order. -/
theorem updateModels_inPlace_witness :
    (updateModels ⟨100, [exampleRecord 1 1 "a", exampleRecord 2 2 "b"]⟩
        ⟨200, [exampleRecord 3 2 "B", exampleRecord 4 1 "A"]⟩).returned
      = ⟨100, [exampleRecord 1 1 "A", exampleRecord 2 2 "B"]⟩ ∧
    (updateModels ⟨100, [exampleRecord 1 1 "a", exampleRecord 2 2 "b"]⟩
        ⟨200, [exampleRecord 3 2 "B", exampleRecord 4 1 "A"]⟩).returned.elems.length = 2 :=
  ⟨by decide,
   (updateModels_inPlace ⟨100, [exampleRecord 1 1 "a", exampleRecord 2 2 "b"]⟩
      ⟨200, [exampleRecord 3 2 "B", exampleRecord 4 1 "A"]⟩
      (by decide) (by decide) (by decide)
      ((compareIds_iff _ _).1 (by decide))).2.2.1⟩

/-- The example of the specification for C1: ids `{1, 2}` against `{1, 3}`. -/
theorem updateModels_divergent_witness :
    (updateModels ⟨100, [exampleRecord 1 1 "a", exampleRecord 2 2 "b"]⟩
        ⟨200, [exampleRecord 3 1 "A", exampleRecord 4 3 "c"]⟩).returned
      = ⟨200, [exampleRecord 3 1 "A", exampleRecord 4 3 "c"]⟩ ∧
    (updateModels ⟨100, [exampleRecord 1 1 "a", exampleRecord 2 2 "b"]⟩
        ⟨200, [exampleRecord 3 1 "A", exampleRecord 4 3 "c"]⟩).oldArray
      = ⟨100, [exampleRecord 1 1 "a", exampleRecord 2 2 "b"]⟩ :=
  updateModels_divergent ⟨100, [exampleRecord 1 1 "a", exampleRecord 2 2 "b"]⟩
    ⟨200, [exampleRecord 3 1 "A", exampleRecord 4 3 "c"]⟩ (by decide)

end MoleculeUtils

namespace MoleculeUtils

/-- C3, as stated, fails: with old ids `1, 2, 3` and new ids `3, 1` (id `2`
removed) the id sets differ, `updateModels` returns `newArray`, and the
surviving ids come in the order `3, 1` of `newArray`, not in the order
`1, 3` they had in `oldArray`. -/
theorem updateModels_removed_counterexample :
    uniqueIds [idRecord 1 1, idRecord 2 2, idRecord 3 3] ∧
    uniqueIds [idRecord 4 3, idRecord 5 1] ∧
    (∀ m ∈ [idRecord 4 3, idRecord 5 1],
      occursIn ([idRecord 1 1, idRecord 2 2, idRecord 3 3].map JSObject.id) m.id = true) ∧
    (updateModels ⟨100, [idRecord 1 1, idRecord 2 2, idRecord 3 3]⟩
        ⟨200, [idRecord 4 3, idRecord 5 1]⟩).returned.elems.map JSObject.id
      = [.num 3, .num 1] ∧
    ¬ ((updateModels ⟨100, [idRecord 1 1, idRecord 2 2, idRecord 3 3]⟩
        ⟨200, [idRecord 4 3, idRecord 5 1]⟩).returned.elems.map JSObject.id).Sublist
      ([idRecord 1 1, idRecord 2 2, idRecord 3 3].map JSObject.id) := by
  decide

/-- C3, amended: for collections with unique ids where every new id occurs in
old, the collection `updateModels` returns holds exactly one record for each
id of `newArray` and no record whose id is absent from `newArray`; when an
id was removed (the id sets differ) it is `newArray` itself, so the ids come
in the order of `newArray`; when none was removed the ids come in the order
of `oldArray`.  The new records list each key once. -/
theorem updateModels_removed (oldArray newArray : JSArray)
    (hold : uniqueIds oldArray.elems) (hnew : uniqueIds newArray.elems)
    (hw : ∀ m ∈ newArray.elems, m.wellFormed)
    (hsub : ∀ m ∈ newArray.elems, occursIn (oldArray.elems.map JSObject.id) m.id = true) :
    (∀ m ∈ newArray.elems,
      ((updateModels oldArray newArray).returned.elems.filter
        (fun r => JSValue.strictEq r.id m.id)).length = 1) ∧
    (∀ r ∈ (updateModels oldArray newArray).returned.elems,
      occursIn (newArray.elems.map JSObject.id) r.id = true) ∧
    (compareIds (oldArray.elems.map JSObject.id) (newArray.elems.map JSObject.id) = false →
      (updateModels oldArray newArray).returned = newArray) ∧
    (compareIds (oldArray.elems.map JSObject.id) (newArray.elems.map JSObject.id) = true →
      List.Forall₂ (fun r o => r.addr = o.addr ∧ JSValue.strictEq r.id o.id = true)
        (updateModels oldArray newArray).returned.elems oldArray.elems) := by
  have hself : ∀ (l : List JSObject) (x : JSObject), x ∈ l →
      occursIn (l.map JSObject.id) x.id = true := by
    intro l x hx
    simp only [occursIn, List.any_eq_true, List.mem_map]
    exact ⟨x.id, ⟨x, hx, rfl⟩, strictEq_refl _⟩
  cases hc : compareIds (oldArray.elems.map JSObject.id) (newArray.elems.map JSObject.id) with
  | false =>
    rw [updateModels_of_compareIds_false oldArray newArray hc]
    refine ⟨?_, ?_, fun _ => rfl, fun h => by cases h⟩
    · intro m hm
      exact filter_id_length_eq_one _ hnew _ (hself _ m hm)
    · intro r hr2
      exact hself _ r hr2
  | true =>
    have hsame := (compareIds_iff _ _).1 hc
    rw [updateModels_sameIds oldArray newArray hold hnew hw hsame]
    simp only
    have hids : (oldArray.elems.map (mergeMatching newArray.elems)).map (fun o => o.id.canon)
        = oldArray.elems.map (fun o => o.id.canon) := by
      rw [List.map_map]
      apply List.map_congr_left
      intro o _
      exact canon_id_mergeMatching newArray.elems hw o
    refine ⟨?_, ?_, (fun h => by cases h), fun _ => ?_⟩
    · intro m hm
      apply filter_id_length_eq_one
      · rw [uniqueIds_iff, hids, ← uniqueIds_iff]; exact hold
      · rw [occursIn_iff, List.map_map]
        have := hsub m hm
        rw [occursIn_iff, List.map_map] at this
        have hids2 : List.map (JSValue.canon ∘ JSObject.id)
            (oldArray.elems.map (mergeMatching newArray.elems))
            = List.map (JSValue.canon ∘ JSObject.id) oldArray.elems := hids
        rw [hids2]; exact this
    · intro r hr
      obtain ⟨o, ho, rfl⟩ := List.mem_map.1 hr
      have h1 := hself _ o ho
      rw [hsame, occursIn_iff] at h1
      rw [occursIn_iff, canon_id_mergeMatching newArray.elems hw o]
      exact h1
    · rw [List.forall₂_map_left_iff]
      apply List.forall₂_same.2
      intro o _
      refine ⟨?_, ?_⟩
      · unfold mergeMatching
        split <;> rfl
      · rw [strictEq_iff_canon]
        exact canon_id_mergeMatching newArray.elems hw o

/-- The example of the specification for C3: ids `1, 2, 3` against `1, 3`. -/
theorem updateModels_removed_witness :
    (updateModels ⟨100, [idRecord 1 1, idRecord 2 2, idRecord 3 3]⟩
        ⟨200, [idRecord 4 1, idRecord 5 3]⟩).returned = ⟨200, [idRecord 4 1, idRecord 5 3]⟩ :=
  (updateModels_removed ⟨100, [idRecord 1 1, idRecord 2 2, idRecord 3 3]⟩
    ⟨200, [idRecord 4 1, idRecord 5 3]⟩ (by decide) (by decide) (by decide) (by decide)).2.2.1
    (by decide)

end MoleculeUtils

namespace MoleculeUtils

/-- C4, as stated, fails on an array.  Merging `{ length: 1 }` into the
array `[1, 2, 3]` sets the length of the array: the call returns the array
with the elements at the indices 1 and 2 deleted, though neither index is a
key of `newObject`.  Merging `{ length: -1 }` into it raises instead of
returning. -/
theorem updateObjectInPlace_frame_counterexample :
    (hasKey [(Key.name "length", JSValue.num 1)] (.idx 1) = false ∧
      getProp [(Key.idx 0, JSValue.num 1), (.idx 1, .num 2), (.idx 2, .num 3)] (.idx 1) = .num 2 ∧
      updateObjectInPlaceFull (fun _ => none)
          ⟨1, true, [(.idx 0, .num 1), (.idx 1, .num 2), (.idx 2, .num 3)]⟩
          ⟨2, false, [(.name "length", .num 1)]⟩
        = .ok ⟨1, true, [(.idx 0, .num 1), (.name "length", .num 1)]⟩ ∧
      hasKey [(Key.idx 0, JSValue.num 1), (.name "length", .num 1)] (.idx 1) = false) ∧
    updateObjectInPlaceFull (fun _ => none)
        ⟨1, true, [(.idx 0, .num 1), (.idx 1, .num 2), (.idx 2, .num 3)]⟩
        ⟨2, false, [(.name "length", .num (-1))]⟩
      = .error .raises := by
  decide

/-- C4, amended: when `oldObject` is not an array or `length` is not a key of
`newObject`, a call of `updateObjectInPlace` that returns returns `oldObject`
itself (same address, same kind), every field whose key is not a key of
`newObject`, the `length` of an array apart, has the value it had before the
call, and every key `oldObject` had it still has. -/
theorem updateObjectInPlace_frame (lengthOf : JSValue → Option Nat)
    (oldObject newObject result : JSObject)
    (hret : updateObjectInPlaceFull lengthOf oldObject newObject = .ok result)
    (hlen : oldObject.isArray = false ∨
      Key.name "length" ∉ enumerableKeys newObject.isArray newObject.props) :
    result.addr = oldObject.addr ∧
    result.isArray = oldObject.isArray ∧
    (∀ k, k ∉ enumerableKeys newObject.isArray newObject.props →
      (oldObject.isArray = true → k ≠ .name "length") →
      result.get k = oldObject.get k) ∧
    (∀ k, hasKey oldObject.props k = true → hasKey result.props k = true) := by
  unfold updateObjectInPlaceFull at hret
  cases hk : updateKeysFull lengthOf oldObject.isArray newObject.isArray oldObject.props
      newObject.props with
  | error e => rw [hk] at hret; cases hret
  | ok ps =>
    rw [hk] at hret
    simp only [Except.ok.injEq] at hret
    subst hret
    have h := updateKeysFull_frame lengthOf oldObject.isArray newObject.isArray newObject.props
      oldObject.props ps hk hlen
    exact ⟨rfl, rfl, h.1, h.2⟩

/-- Two instances of C4 as amended: merging `{ v: "A" }` into
`{ id: 1, v: "a" }` keeps `id`, and merging the array `[9]` into the array
`[1, 2, 3]` keeps the elements at the indices 1 and 2. -/
theorem updateObjectInPlace_frame_witness :
    (updateObjectInPlaceFull (fun _ => none) (exampleRecord 1 1 "a")
        ⟨2, false, [(.name "v", .str "A")]⟩
        = .ok ⟨1, false, [(.name "id", .num 1), (.name "v", .str "A")]⟩ ∧
      JSObject.get ⟨1, false, [(.name "id", .num 1), (.name "v", .str "A")]⟩ (.name "id")
        = (exampleRecord 1 1 "a").get (.name "id")) ∧
    (updateObjectInPlaceFull (fun _ => none)
        ⟨1, true, [(.idx 0, .num 1), (.idx 1, .num 2), (.idx 2, .num 3)]⟩
        ⟨2, true, [(.idx 0, .num 9)]⟩
        = .ok ⟨1, true, [(.idx 0, .num 9), (.idx 1, .num 2), (.idx 2, .num 3)]⟩ ∧
      JSObject.get ⟨1, true, [(.idx 0, .num 9), (.idx 1, .num 2), (.idx 2, .num 3)]⟩ (.idx 1)
        = JSObject.get ⟨1, true, [(.idx 0, .num 1), (.idx 1, .num 2), (.idx 2, .num 3)]⟩
            (.idx 1)) :=
  ⟨⟨by decide,
     (updateObjectInPlace_frame (fun _ => none) (exampleRecord 1 1 "a")
        ⟨2, false, [(.name "v", .str "A")]⟩ _ (by decide) (by decide)).2.2.1
       (.name "id") (by decide) (by decide)⟩,
   ⟨by decide,
     (updateObjectInPlace_frame (fun _ => none)
        ⟨1, true, [(.idx 0, .num 1), (.idx 1, .num 2), (.idx 2, .num 3)]⟩
        ⟨2, true, [(.idx 0, .num 9)]⟩ _ (by decide) (by decide)).2.2.1
       (.idx 1) (by decide) (by decide)⟩⟩

/-- C5: for every key `k` of `newObject`, after `updateObjectInPlace`: when
the values of `k` in `oldObject` and `newObject` were both objects, field `k`
is the old nested object merged with `newObject[k]` by `updateObjectInPlace`;
otherwise field `k` equals `newObject[k]`.  The object `newObject` lists each
key once. -/
theorem updateObjectInPlace_field (oldObject newObject : JSObject)
    (hw : newObject.wellFormed) (k : Key) (hk : hasKey newObject.props k = true) :
    (∀ oo nn : JSObject, oldObject.get k = oo.toValue → newObject.get k = nn.toValue →
      (updateObjectInPlace oldObject newObject).get k = (updateObjectInPlace oo nn).toValue) ∧
    (((oldObject.get k).isObject && (newObject.get k).isObject) = false →
      (updateObjectInPlace oldObject newObject).get k = newObject.get k) := by
  have h := getProp_updateKeys_of_mem newObject.props oldObject.props k hw hk
  refine ⟨?_, ?_⟩
  · intro oo nn ho hn
    simp only [JSObject.get] at ho hn ⊢
    simp only [updateObjectInPlace]
    rw [h, ho, hn, updateField_toValue]
    rfl
  · intro hb
    simp only [JSObject.get] at hb ⊢
    simp only [updateObjectInPlace]
    rw [h, updateField_of_not_both _ _ hb]

/-- An instance of C5: a nested object is merged and keeps its address, a
scalar is overwritten. -/
theorem updateObjectInPlace_field_witness :
    (updateObjectInPlace
        ⟨1, false, [(.name "p", .obj 2 false [(.name "x", .num 1), (.name "y", .num 2)])]⟩
        ⟨3, false, [(.name "p", .obj 4 false [(.name "x", .num 7)])]⟩).get (.name "p")
      = .obj 2 false [(.name "x", .num 7), (.name "y", .num 2)] ∧
    (updateObjectInPlace (exampleRecord 1 1 "a") (exampleRecord 2 1 "A")).get (.name "v")
      = .str "A" :=
  ⟨(updateObjectInPlace_field
      ⟨1, false, [(.name "p", .obj 2 false [(.name "x", .num 1), (.name "y", .num 2)])]⟩
      ⟨3, false, [(.name "p", .obj 4 false [(.name "x", .num 7)])]⟩ (by decide) (.name "p")
      (by decide)).1 ⟨2, false, [(.name "x", .num 1), (.name "y", .num 2)]⟩
      ⟨4, false, [(.name "x", .num 7)]⟩ (by decide) (by decide),
   (updateObjectInPlace_field (exampleRecord 1 1 "a") (exampleRecord 2 1 "A") (by decide)
      (.name "v") (by decide)).2 (by decide)⟩

/-- C6, as stated, fails: merging `{ a: [9] }` into `{ a: [1, 2, 3] }` leaves
field `a` as the old array with contents `[9, 2, 3]`, of length 3, which is
not the new array `[9]` of length 1. -/
theorem updateObjectInPlace_array_counterexample :
    (updateObjectInPlace
        ⟨1, false, [(.name "a", .obj 2 true [(.idx 0, .num 1), (.idx 1, .num 2), (.idx 2, .num 3)])]⟩
        ⟨5, false, [(.name "a", .obj 6 true [(.idx 0, .num 9)])]⟩).get (.name "a")
      = .obj 2 true [(.idx 0, .num 9), (.idx 1, .num 2), (.idx 2, .num 3)] ∧
    (updateObjectInPlace
        ⟨1, false, [(.name "a", .obj 2 true [(.idx 0, .num 1), (.idx 1, .num 2), (.idx 2, .num 3)])]⟩
        ⟨5, false, [(.name "a", .obj 6 true [(.idx 0, .num 9)])]⟩).get (.name "a")
      ≠ (JSObject.mk 5 false [(.name "a", .obj 6 true [(.idx 0, .num 9)])]).get (.name "a") ∧
    arrayLength [(.idx 0, .num 9), (.idx 1, .num 2), (.idx 2, .num 3)] = 3 ∧
    arrayLength [(.idx 0, .num 9)] = 1 := by
  decide

/-- C6, amended: when field `k` of `newObject` is an array, then after
`updateObjectInPlace`: if `oldObject[k]` was not an object, field `k` equals
`newObject[k]` as a whole; if `oldObject[k]` was an object or an array, field
`k` is that old object, at its address, merged with the array index by index
by `updateObjectInPlace`, and every key the new array does not own keeps its
old value.  The object `newObject` lists each key once. -/
theorem updateObjectInPlace_array (oldObject newObject : JSObject)
    (hw : newObject.wellFormed) (k : Key) (hk : hasKey newObject.props k = true)
    (nn : JSObject) (_harr : nn.isArray = true) (hn : newObject.get k = nn.toValue) :
    ((oldObject.get k).isObject = false →
      (updateObjectInPlace oldObject newObject).get k = nn.toValue) ∧
    (∀ oo : JSObject, oldObject.get k = oo.toValue →
      (updateObjectInPlace oldObject newObject).get k = (updateObjectInPlace oo nn).toValue ∧
      (updateObjectInPlace oo nn).addr = oo.addr ∧
      (updateObjectInPlace oo nn).isArray = oo.isArray ∧
      ∀ j, hasKey nn.props j = false → (updateObjectInPlace oo nn).get j = oo.get j) := by
  have h := getProp_updateKeys_of_mem newObject.props oldObject.props k hw hk
  refine ⟨?_, ?_⟩
  · intro hb
    simp only [JSObject.get] at hb hn ⊢
    simp only [updateObjectInPlace]
    rw [h, updateField_of_not_both _ _ (by simp [hb]), hn]
  · intro oo ho
    simp only [JSObject.get] at ho hn
    refine ⟨?_, rfl, rfl, ?_⟩
    · simp only [JSObject.get, updateObjectInPlace]
      rw [h, ho, hn, updateField_toValue]
      rfl
    · intro j hj
      exact getProp_updateKeys_of_not_mem _ _ _ hj

/-- Two instances of C6 as amended: an array over a number is taken whole, an
array over an array is merged into the old one, whose third element stays. -/
theorem updateObjectInPlace_array_witness :
    (updateObjectInPlace ⟨1, false, [(.name "a", .num 0)]⟩
        ⟨5, false, [(.name "a", .obj 6 true [(.idx 0, .num 9)])]⟩).get (.name "a")
      = .obj 6 true [(.idx 0, .num 9)] ∧
    (updateObjectInPlace ⟨2, true, [(.idx 0, .num 1), (.idx 1, .num 2), (.idx 2, .num 3)]⟩
        ⟨6, true, [(.idx 0, .num 9)]⟩).get (.idx 2) = .num 3 :=
  ⟨(updateObjectInPlace_array ⟨1, false, [(.name "a", .num 0)]⟩
      ⟨5, false, [(.name "a", .obj 6 true [(.idx 0, .num 9)])]⟩ (by decide) (.name "a")
      (by decide) ⟨6, true, [(.idx 0, .num 9)]⟩ rfl (by decide)).1 (by decide),
   ((updateObjectInPlace_array
      ⟨1, false, [(.name "a", .obj 2 true [(.idx 0, .num 1), (.idx 1, .num 2), (.idx 2, .num 3)])]⟩
      ⟨5, false, [(.name "a", .obj 6 true [(.idx 0, .num 9)])]⟩ (by decide) (.name "a")
      (by decide) ⟨6, true, [(.idx 0, .num 9)]⟩ rfl (by decide)).2
      ⟨2, true, [(.idx 0, .num 1), (.idx 1, .num 2), (.idx 2, .num 3)]⟩ (by decide)).2.2.2
      (.idx 2) (by decide)⟩

/-- C7: `compareIds` is true exactly when the same values occur in the two
id lists, whatever the order and the repetitions; for ids that are not
objects this is equality of the sets of members.  It is false when exactly
one list is empty, true when both are, and true of a list and itself. -/
theorem compareIds_sameSet (idsA idsB : List JSValue) :
    (compareIds idsA idsB = true ↔ ∀ x, occursIn idsA x = occursIn idsB x) ∧
    ((∀ x ∈ idsA ++ idsB, x.isObject = false) →
      (compareIds idsA idsB = true ↔ ∀ x, x ∈ idsA ↔ x ∈ idsB)) ∧
    (idsA = [] → idsB ≠ [] → compareIds idsA idsB = false) ∧
    (idsA ≠ [] → idsB = [] → compareIds idsA idsB = false) ∧
    compareIds [] [] = true ∧
    compareIds idsA idsA = true := by
  have hmem : ∀ (l : List JSValue), (∀ x ∈ l, x.isObject = false) →
      ∀ x, occursIn l x = true ↔ x ∈ l := by
    intro l hl x
    simp only [occursIn, List.any_eq_true]
    constructor
    · rintro ⟨y, hy, h⟩
      rw [strictEq_of_not_isObject y x (hl y hy)] at h
      exact h ▸ hy
    · intro hx
      exact ⟨x, hx, strictEq_refl x⟩
  refine ⟨compareIds_iff idsA idsB, ?_, ?_, ?_, by decide, (compareIds_iff idsA idsA).2 (fun _ => rfl)⟩
  · intro hprim
    rw [compareIds_iff]
    have hA := hmem idsA (fun x hx => hprim x (List.mem_append_left _ hx))
    have hB := hmem idsB (fun x hx => hprim x (List.mem_append_right _ hx))
    constructor
    · intro h x
      rw [← hA, ← hB, h]
    · intro h x
      rw [Bool.eq_iff_iff, hA, hB]
      exact h x
  · intro hA hB
    subst hA
    cases idsB with
    | nil => exact absurd rfl hB
    | cons b rest => simp [compareIds]
  · intro hA hB
    subst hB
    cases idsA with
    | nil => exact absurd rfl hA
    | cons a rest => simp [compareIds]

/-- The examples of the specification for C7: `[1, 1, 2]` against `[2, 1]`
and `[]` against `[1]`. -/
theorem compareIds_sameSet_witness :
    compareIds [.num 1, .num 1, .num 2] [.num 2, .num 1] = true ∧
    compareIds [] [.num 1] = false :=
  ⟨((compareIds_sameSet [.num 1, .num 1, .num 2] [.num 2, .num 1]).2.1 (by decide)).2
      (by intro x; simp; tauto),
   (compareIds_sameSet [] [.num 1]).2.2.1 rfl (by decide)⟩

/-- C8: `compareIds` is symmetric in its two arguments. -/
theorem compareIds_symm (idsA idsB : List JSValue) :
    compareIds idsA idsB = compareIds idsB idsA := by
  rw [Bool.eq_iff_iff, compareIds_iff, compareIds_iff]
  constructor
  · intro h x; exact (h x).symm
  · intro h x; exact (h x).symm

end MoleculeUtils

/-! ## Properties of the dispatcher -/

theorem member_of_read_eq_str (v : JSValue) (name s : String)
    (h : JSValue.strictEq (v.read name) (.str s) = true) : v.member name = .ok (v.read name) := by
  cases v <;> simp_all [JSValue.member, JSValue.read, JSValue.strictEq]

namespace Nbmolviz2dView

theorem applyEntries_sent (pos child : Nat) (entries : List (String × JSValue)) :
    ∀ v : View, (applyEntries v pos child entries).1.sent = v.sent ∧
      (applyEntries v pos child entries).1.hasSend = v.hasSend ∧
      (applyEntries v pos child entries).1.messages = v.messages := by
  induction entries with
  | nil => intro v; simp [applyEntries]
  | cons e rest ih =>
    intro v
    obtain ⟨st, value⟩ := e
    simp only [applyEntries]
    split
    · simp
    · rename_i scene _
      have := ih { v with scene := scene }
      simpa using this

theorem applyStyleLoop_sent (objLookup : List (String × Nat)) (spec : JSValue)
    (objs : List JSValue) :
    ∀ v : View, (applyStyleLoop objLookup spec v objs).1.sent = v.sent ∧
      (applyStyleLoop objLookup spec v objs).1.hasSend = v.hasSend ∧
      (applyStyleLoop objLookup spec v objs).1.messages = v.messages := by
  induction objs with
  | nil => intro v; simp [applyStyleLoop]
  | cons o rest ih =>
    intro v
    simp only [applyStyleLoop]
    split
    · simp
    · cases hi : indexFind objLookup o.toStringJS with
      | nothing => simp
      | inherited =>
        simp only
        cases hs : styleNothing spec with
        | some e => simp
        | none => simpa using ih v
      | element pos =>
        simp only
        cases hs : specEntries spec with
        | error e => simp
        | ok entries =>
          simp only
          have h1 := applyEntries_sent pos 0 entries v
          cases ha : applyEntries v pos 0 entries with
          | mk v1 oe =>
            rw [ha] at h1
            cases oe with
            | some e => exact h1
            | none =>
              have h2 := ih v1
              exact ⟨h2.1.trans h1.1, h2.2.1.trans h1.2.1, h2.2.2.trans h1.2.2⟩

theorem applyStyleSpec_sent (v : View) (objs : JSValue) (objLookup : List (String × Nat))
    (spec : JSValue) :
    (applyStyleSpec v objs objLookup spec).view.sent = v.sent ∧
    (applyStyleSpec v objs objLookup spec).view.hasSend = v.hasSend ∧
    (applyStyleSpec v objs objLookup spec).view.messages = v.messages := by
  unfold applyStyleSpec
  split
  · rename_i ps
    have h := applyStyleLoop_sent objLookup spec (forEachElems ps) v
    split
    · simp
    · split
      · rename_i v1 e heq; rw [heq] at h; exact h
      · rename_i v1 heq; rw [heq] at h; exact h
  · simp

theorem setLabel_sent (v : View) (pos : Nat) (text spec : JSValue) :
    (setLabel v pos text spec).view.sent = v.sent ∧
    (setLabel v pos text spec).view.hasSend = v.hasSend ∧
    (setLabel v pos text spec).view.messages = v.messages := by
  unfold setLabel
  simp only
  split
  · simp
  · rename_i v1 hv1
    have hv : v1.sent = v.sent ∧ v1.hasSend = v.hasSend ∧ v1.messages = v.messages := by
      split at hv1
      · cases hv1; simp
      · cases hu : updateChild v.scene pos 1 (fun sub => { sub with innerHTML := text }) with
        | none => rw [hu] at hv1; cases hv1
        | some sc => rw [hu] at hv1; cases hv1; simp
    split
    · exact hv
    · rename_i entries _
      have h1 := applyEntries_sent pos 1 entries v1
      split
      · rename_i v2 e heq
        rw [heq] at h1
        exact ⟨h1.1.trans hv.1, h1.2.1.trans hv.2.1, h1.2.2.trans hv.2.2⟩
      · rename_i v2 heq
        rw [heq] at h1
        exact ⟨h1.1.trans hv.1, h1.2.1.trans hv.2.1, h1.2.2.trans hv.2.2⟩

theorem mutator_sent (host : Host) (v : View) (args : List JSValue) (m : Method)
    (hm : m.isMutator = true) :
    (callMethod host v args m).view.sent = v.sent ∧
    (callMethod host v args m).view.hasSend = v.hasSend ∧
    (callMethod host v args m).view.messages = v.messages := by
  cases m <;> simp [Method.isMutator] at hm
  · exact applyStyleSpec_sent v _ _ _
  · exact applyStyleSpec_sent v _ _ _
  · simp only [callMethod, setAtomLabel]
    split
    · simp
    · split
      · simp
      · simp
      · exact setLabel_sent v _ _ _
  · simp only [callMethod, setBondLabel]
    split
    · simp
    · split
      · simp
      · split
        · split <;> simp
        · simp
      · exact setLabel_sent v _ _ _

end Nbmolviz2dView

namespace Nbmolviz2dView

/-- C10: a message whose event is not `'function_call'`, and a
`'function_call'` message whose function name is `'updateHighlightAtoms'`,
is appended to the message log and nothing else happens: no outbound
message, no operation, the scene and the Visual Index as before. -/
theorem handleMessage_ignored (host : Host) (v : View) (message ev : JSValue)
    (hev : message.member "event" = .ok ev)
    (h : JSValue.strictEq ev (.str "function_call") = false ∨
      JSValue.strictEq (message.read "function_name") (.str "updateHighlightAtoms") = true) :
    (handleMessage host v message).view = { v with messages := v.messages ++ [message] } ∧
    (handleMessage host v message).result = .ok .undefined ∧
    (handleMessage host v message).view.sent = v.sent ∧
    (handleMessage host v message).view.scene = v.scene ∧
    (handleMessage host v message).view.svgNodes = v.svgNodes ∧
    (handleMessage host v message).view.svgLinks = v.svgLinks := by
  have hout : handleMessage host v message
      = ⟨{ v with messages := v.messages ++ [message] }, .ok .undefined⟩ := by
    rw [handleMessage, hev]
    simp only
    by_cases hfc : JSValue.strictEq ev (.str "function_call") = true
    · rw [if_pos hfc]
      rcases h with h | h
      · rw [hfc] at h; cases h
      · rw [handleFunctionCall, member_of_read_eq_str _ _ _ h]
        simp only [h, if_true]
    · rw [if_neg hfc]
  rw [hout]
  exact ⟨rfl, rfl, rfl, rfl, rfl, rfl⟩

/-- The examples of the specification for C10: the message `{ event: 'other' }`
and a call of `updateHighlightAtoms`. -/
theorem handleMessage_ignored_witness :
    (handleMessage bareHost oneNodeView (.obj 9 false [(.name "event", .str "other")])).view.sent
      = [] ∧
    (handleMessage bareHost oneNodeView (.obj 9 false [(.name "event", .str "function_call"),
      (.name "function_name", .str "updateHighlightAtoms"),
      (.name "arguments", .obj 8 true [(.idx 0, .num 0)])])).view.sent = [] :=
  ⟨(handleMessage_ignored bareHost oneNodeView (.obj 9 false [(.name "event", .str "other")])
      (.str "other") (by decide) (Or.inl (by decide))).2.2.1,
   (handleMessage_ignored bareHost oneNodeView (.obj 9 false [(.name "event", .str "function_call"),
      (.name "function_name", .str "updateHighlightAtoms"),
      (.name "arguments", .obj 8 true [(.idx 0, .num 0)])])
      (.str "function_call") (by decide) (Or.inr (by decide))).2.2.1⟩

end Nbmolviz2dView

namespace Nbmolviz2dView

/-- The dispatch of a call message: log it twice, invoke what the name
resolves to, and send `function_done` when the call returns. -/
theorem handleMessage_dispatch (host : Host) (v : View) (message : JSValue)
    (args : List JSValue) (r : Resolved)
    (hev : JSValue.strictEq (message.read "event") (.str "function_call") = true)
    (hfn : JSValue.strictEq (message.read "function_name") (.str "updateHighlightAtoms") = false)
    (hres : resolve host (message.read "function_name").toStringJS = some r)
    (hargs : argumentsOf host message = .ok args) :
    handleMessage host v message =
      match (invoke host { v with messages := v.messages ++ [message] ++ [message] } args
          r).result with
      | .error e =>
        ⟨(invoke host { v with messages := v.messages ++ [message] ++ [message] } args r).view,
          .error e⟩
      | .ok result =>
        sendDone
          (invoke host { v with messages := v.messages ++ [message] ++ [message] } args r).view
          message result := by
  have hm : message.member "event" = .ok (message.read "event") :=
    member_of_read_eq_str _ _ _ hev
  have hf : message.member "function_name" = .ok (message.read "function_name") := by
    cases message <;> simp_all [JSValue.member, JSValue.read, JSValue.strictEq]
  rw [handleMessage, hm]
  simp only [hev, if_true]
  rw [handleFunctionCall, hf]
  simp only [hfn, Bool.false_eq_true, if_false, hres]
  split
  · rename_i e he
    rw [hargs] at he; cases he
  · rename_i args2 he
    rw [hargs] at he
    cases he
    cases r <;> rfl

/-- C9, as stated, fails: a call message that names `handleMessage` and
carries a `setAtomStyle` call as its argument completes without raising and
emits two outbound messages, the `function_done` of the inner call and then
its own. -/
theorem handleMessage_reentrant_counterexample :
    (resolve bareHost (nestedCall.read "function_name").toStringJS).isSome = true ∧
    (handleMessage bareHost oneNodeView nestedCall).result = .ok .undefined ∧
    (handleMessage bareHost oneNodeView nestedCall).view.sent =
      [.functionDone (.str "y") .undefined (.str "setAtomStyle"),
       .functionDone (.str "x") .undefined (.str "handleMessage")] := by
  have hinner : ∀ v : View, handleMessage bareHost v (styleCall "y") = _ :=
    fun v => handleMessage_dispatch bareHost v (styleCall "y")
      [.obj 3 true [(.idx 0, .num 0)], .obj 4 false [(.name "color", .str "red")]]
      (.method .setAtomStyle) (by decide) (by decide) (by rfl) (by decide)
  have houter := handleMessage_dispatch bareHost oneNodeView nestedCall [styleCall "y"]
    .handleMessage (by decide) (by decide) (by rfl) (by decide)
  rw [houter]
  simp only [invoke, arg, List.getElem?_cons_zero, Option.getD_some]
  rw [hinner]
  decide

end Nbmolviz2dView

namespace Nbmolviz2dView

/-- C9, amended: a `'function_call'` message whose function name is not
`'updateHighlightAtoms'` and names an operation that completes without
raising on the supplied arguments and sends nothing itself, as the style and
label mutators do, with `send` available, has that operation invoked once on
the positional arguments and emits exactly one outbound message: a
`function_done` with the `call_id` and `function_name` of the request and
the value the operation returned. -/
theorem handleMessage_responds (host : Host) (v : View) (message : JSValue)
    (args : List JSValue) (r : Resolved) (result : JSValue)
    (hev : JSValue.strictEq (message.read "event") (.str "function_call") = true)
    (hfn : JSValue.strictEq (message.read "function_name") (.str "updateHighlightAtoms") = false)
    (hres : resolve host (message.read "function_name").toStringJS = some r)
    (hargs : argumentsOf host message = .ok args)
    (hcall : (invoke host { v with messages := v.messages ++ [message] ++ [message] } args
      r).result = .ok result)
    (hquiet : (∃ m, r = .method m ∧ m.isMutator = true ∧ v.hasSend = true) ∨
      ((invoke host { v with messages := v.messages ++ [message] ++ [message] } args
          r).view.sent = v.sent ∧
        (invoke host { v with messages := v.messages ++ [message] ++ [message] } args
          r).view.hasSend = true)) :
    (handleMessage host v message).result = .ok .undefined ∧
    (handleMessage host v message).view =
      { (invoke host { v with messages := v.messages ++ [message] ++ [message] } args r).view with
        sent := v.sent ++ [.functionDone (message.read "call_id") result
          (message.read "function_name")] } := by
  have hq : (invoke host { v with messages := v.messages ++ [message] ++ [message] } args
        r).view.sent = v.sent ∧
      (invoke host { v with messages := v.messages ++ [message] ++ [message] } args
        r).view.hasSend = true := by
    rcases hquiet with ⟨m, rfl, hm, hs⟩ | h
    · have := mutator_sent host { v with messages := v.messages ++ [message] ++ [message] } args m hm
      exact ⟨this.1, this.2.1.trans hs⟩
    · exact h
  rw [handleMessage_dispatch host v message args r hev hfn hres hargs, hcall]
  simp only [sendDone, hq.2, if_true, hq.1]
  exact ⟨trivial, trivial⟩

/-- The example of the specification for C9: `setAtomStyle([0], { color: 'red' })`
with `call_id` `'x'` on a view that has node 0 gives one `function_done`
with `call_id` `'x'`, and the node is styled. -/
theorem handleMessage_responds_witness :
    (handleMessage bareHost oneNodeView (styleCall "x")).view.sent =
      [.functionDone (.str "x") .undefined (.str "setAtomStyle")] ∧
    (handleMessage bareHost oneNodeView (styleCall "x")).view.scene =
      [⟨[("class", "node"), ("index", "0")],
        [⟨[], [("color", .str "red")], .undefined⟩, ⟨[], [], .undefined⟩]⟩] := by
  have h := handleMessage_responds bareHost oneNodeView (styleCall "x")
    [.obj 3 true [(.idx 0, .num 0)], .obj 4 false [(.name "color", .str "red")]]
    (.method .setAtomStyle) .undefined (by decide) (by decide) (by rfl) (by decide) (by decide)
    (Or.inl ⟨.setAtomStyle, rfl, rfl, rfl⟩)
  rw [h.2]
  decide

end Nbmolviz2dView

namespace Nbmolviz2dView

theorem applyStyleLoop_missing (objLookup : List (String × Nat)) (spec : JSValue)
    (objs : List JSValue) : ∀ v : View,
    (∃ o ∈ objs, indexFind objLookup o.toStringJS = .nothing) →
    ∃ e, (applyStyleLoop objLookup spec v objs).2 = some e := by
  induction objs with
  | nil => intro v h; obtain ⟨o, ho, _⟩ := h; cases ho
  | cons o rest ih =>
    intro v h
    have hrest : indexFind objLookup o.toStringJS ≠ .nothing →
        ∃ x ∈ rest, indexFind objLookup x.toStringJS = .nothing := by
      intro hne
      obtain ⟨x, hx, hxn⟩ := h
      rcases List.mem_cons.1 hx with e | e
      · subst e; exact absurd hxn hne
      · exact ⟨x, e, hxn⟩
    simp only [applyStyleLoop]
    split
    · exact ⟨_, rfl⟩
    · cases hi : indexFind objLookup o.toStringJS with
      | nothing => exact ⟨_, rfl⟩
      | inherited =>
        simp only
        cases hs : styleNothing spec with
        | some e => exact ⟨_, rfl⟩
        | none => exact ih v (hrest (by rw [hi]; simp))
      | element pos =>
        simp only
        cases hs : specEntries spec with
        | error e => exact ⟨_, rfl⟩
        | ok entries =>
          simp only
          cases ha : applyEntries v pos 0 entries with
          | mk v1 oe =>
            cases oe with
            | some e => exact ⟨_, rfl⟩
            | none => exact ih v1 (hrest (by rw [hi]; simp))

theorem applyStyleSpec_missing (v : View) (a : Nat) (ps : Props)
    (objLookup : List (String × Nat)) (spec : JSValue)
    (h : ∃ o ∈ forEachElems ps, indexFind objLookup o.toStringJS = .nothing) :
    ∃ e, (applyStyleSpec v (.obj a true ps) objLookup spec).result = .error e := by
  obtain ⟨e, he⟩ := applyStyleLoop_missing objLookup spec (forEachElems ps) v h
  simp only [applyStyleSpec]
  split
  · exact ⟨_, rfl⟩
  · cases hl : applyStyleLoop objLookup spec v (forEachElems ps) with
    | mk v1 oe =>
      rw [hl] at he
      simp only at he
      subst he
      exact ⟨e, rfl⟩

theorem handleMessage_unresolved (host : Host) (v : View) (message : JSValue)
    (hev : JSValue.strictEq (message.read "event") (.str "function_call") = true)
    (hfn : JSValue.strictEq (message.read "function_name") (.str "updateHighlightAtoms") = false)
    (hres : resolve host (message.read "function_name").toStringJS = none) :
    handleMessage host v message =
      ⟨{ v with messages := v.messages ++ [message] ++ [message] }, .error .typeError⟩ := by
  have hm : message.member "event" = .ok (message.read "event") :=
    member_of_read_eq_str _ _ _ hev
  have hf : message.member "function_name" = .ok (message.read "function_name") := by
    cases message <;> simp_all [JSValue.member, JSValue.read, JSValue.strictEq]
  rw [handleMessage, hm]
  simp only [hev, if_true]
  rw [handleFunctionCall, hf]
  simp only [hfn, Bool.false_eq_true, if_false, hres]

/-- C11, as stated, fails, in both of its cases.  A `'function_call'` message
that names `updateHighlightAtoms`, an operation the controller does not have,
is ignored and `handleMessage` returns normally.  And the call
`setAtomStyle(['toString'], {})` on a view that has no node `toString`
returns normally and is answered with a `function_done`: the node Visual
Index is a plain object, which finds the `toString` it inherits. -/
theorem handleMessage_fails_counterexample :
    ((resolve bareHost ((bareCall "updateHighlightAtoms").read "function_name").toStringJS).isNone
        = true ∧
      (handleMessage bareHost oneNodeView (bareCall "updateHighlightAtoms")).result
        = .ok .undefined) ∧
    (indexGet oneNodeView.svgNodes (JSValue.str "toString").toStringJS = none ∧
      (handleMessage bareHost oneNodeView
        (.obj 1 false [(.name "event", .str "function_call"),
          (.name "function_name", .str "setAtomStyle"), (.name "call_id", .str "x"),
          (.name "arguments", .obj 2 true [(.idx 0, .obj 3 true [(.idx 0, .str "toString")]),
            (.idx 1, .obj 4 false [])])])).result = .ok .undefined ∧
      (handleMessage bareHost oneNodeView
        (.obj 1 false [(.name "event", .str "function_call"),
          (.name "function_name", .str "setAtomStyle"), (.name "call_id", .str "x"),
          (.name "arguments", .obj 2 true [(.idx 0, .obj 3 true [(.idx 0, .str "toString")]),
            (.idx 1, .obj 4 false [])])])).view.sent
        = [.functionDone (.str "x") .undefined (.str "setAtomStyle")]) := by
  refine ⟨⟨by rfl, ?_⟩, by decide, ?_⟩
  · rw [handleMessage, handleFunctionCall]
    decide
  · rw [handleMessage_dispatch bareHost oneNodeView _
      [.obj 3 true [(.idx 0, .str "toString")], .obj 4 false []]
      (.method .setAtomStyle) (by decide) (by decide) (by rfl) (by decide)]
    decide

/-- C11, amended: a `'function_call'` message that names `setAtomStyle` with
an atom list holding an id under which the node Visual Index finds nothing
(no node is filed under it and it is no name the index inherits from
`Object.prototype`, the index being a plain object with no entry
`__proto__`), or that names something other than `updateHighlightAtoms` that
is no function of the controller, so none of the names every object inherits
from `Object.prototype`, makes `handleMessage` fail, and no outbound message
is emitted. -/
theorem handleMessage_fails (host : Host) (v : View) (message : JSValue)
    (hev : JSValue.strictEq (message.read "event") (.str "function_call") = true)
    (h : (message.read "function_name" = .str "setAtomStyle" ∧
        indexGet v.svgNodes "__proto__" = none ∧
        ∃ args a ps o, argumentsOf host message = .ok args ∧ arg args 0 = .obj a true ps ∧
          o ∈ forEachElems ps ∧ indexFind v.svgNodes o.toStringJS = .nothing) ∨
      (JSValue.strictEq (message.read "function_name") (.str "updateHighlightAtoms") = false ∧
        (message.read "function_name").toStringJS ∉ objectPrototypeNames ∧
        resolve host (message.read "function_name").toStringJS = none)) :
    (∃ e, (handleMessage host v message).result = .error e) ∧
    (handleMessage host v message).view.sent = v.sent := by
  rcases h with ⟨hname, _, args, a, ps, o, hargs, harg, ho, hno⟩ | ⟨hfn, _, hres⟩
  · have hfn : JSValue.strictEq (message.read "function_name") (.str "updateHighlightAtoms")
        = false := by rw [hname]; decide
    have hres : resolve host (message.read "function_name").toStringJS
        = some (.method .setAtomStyle) := by rw [hname]; rfl
    rw [handleMessage_dispatch host v message args _ hev hfn hres hargs]
    simp only [invoke, callMethod, setAtomStyle, harg]
    obtain ⟨e, he⟩ := applyStyleSpec_missing
      { v with messages := v.messages ++ [message] ++ [message] } a ps v.svgNodes (arg args 1)
      ⟨o, ho, hno⟩
    have hs := (applyStyleSpec_sent
      { v with messages := v.messages ++ [message] ++ [message] } (.obj a true ps) v.svgNodes
      (arg args 1)).1
    rw [he]
    exact ⟨⟨e, rfl⟩, hs⟩
  · rw [handleMessage_unresolved host v message hev hfn hres]
    exact ⟨⟨_, rfl⟩, rfl⟩

/-- Two instances of C11 as amended: `setAtomStyle([5], {})` on a view whose
only node is 0, and a call of a name the controller does not have. -/
theorem handleMessage_fails_witness :
    (handleMessage bareHost oneNodeView
      (.obj 1 false [(.name "event", .str "function_call"),
        (.name "function_name", .str "setAtomStyle"), (.name "call_id", .str "x"),
        (.name "arguments", .obj 2 true [(.idx 0, .obj 3 true [(.idx 0, .num 5)]),
          (.idx 1, .obj 4 false [])])])).view.sent = [] ∧
    (handleMessage bareHost oneNodeView (bareCall "noSuchOperation")).view.sent = [] :=
  ⟨(handleMessage_fails bareHost oneNodeView _ (by decide)
      (Or.inl ⟨by decide, by decide, [.obj 3 true [(.idx 0, .num 5)], .obj 4 false []], 3,
        [(.idx 0, .num 5)], .num 5, by decide, by decide, by decide, by decide⟩)).2,
   (handleMessage_fails bareHost oneNodeView (bareCall "noSuchOperation") (by decide)
      (Or.inr ⟨by decide, by decide, by rfl⟩)).2⟩

/-- C12, as stated, fails: `setBondStyle([[1, 2]], {})` on a view whose link
Visual Index has no key `1,2` does not return normally, it throws the
`Error` `no object 1,2`. -/
theorem setBondStyle_missing_counterexample :
    indexGet oneNodeView.svgLinks
      (JSValue.obj 3 true [(.idx 0, .num 1), (.idx 1, .num 2)]).toStringJS = none ∧
    (setBondStyle oneNodeView
      (.obj 2 true [(.idx 0, .obj 3 true [(.idx 0, .num 1), (.idx 1, .num 2)])])
      (.obj 4 false [])).result = .error (.error "no object 1,2") := by
  decide

/-- C12, amended: a call `setBondStyle(bonds, bondSpec)` in which the link
Visual Index finds nothing under some listed bond id (no link is filed under
it and it is no name the index inherits from `Object.prototype`, the index
being a plain object with no entry `__proto__`) does not return normally, it
raises; when the first listed bond is the one not found, what is raised is
the `Error` `no object <id>` and nothing has been changed. -/
theorem setBondStyle_missing (v : View) (a : Nat) (ps : Props) (bondSpec : JSValue)
    (_hproto : indexGet v.svgLinks "__proto__" = none)
    (h : ∃ o ∈ forEachElems ps, indexFind v.svgLinks o.toStringJS = .nothing) :
    (∃ e, (setBondStyle v (.obj a true ps) bondSpec).result = .error e) ∧
    (∀ o rest, hasKey ps (.name "forEach") = false → forEachElems ps = o :: rest →
      o.toStringThrows = false → indexFind v.svgLinks o.toStringJS = .nothing →
      setBondStyle v (.obj a true ps) bondSpec
        = ⟨v, .error (.error ("no object " ++ o.toStringJS))⟩) := by
  refine ⟨?_, ?_⟩
  · obtain ⟨e, he⟩ := applyStyleSpec_missing v a ps v.svgLinks bondSpec h
    exact ⟨e, by simp [setBondStyle, he, Except.map]⟩
  · intro o rest hfe hps hconv hno
    simp [setBondStyle, applyStyleSpec, hfe, hps, applyStyleLoop, hconv, hno, Except.map]

/-- An instance of C12 as amended: the call of the counterexample raises. -/
theorem setBondStyle_missing_witness :
    setBondStyle oneNodeView
      (.obj 2 true [(.idx 0, .obj 3 true [(.idx 0, .num 1), (.idx 1, .num 2)])])
      (.obj 4 false [])
      = ⟨oneNodeView, .error (.error "no object 1,2")⟩ :=
  (setBondStyle_missing oneNodeView 2
    [(.idx 0, .obj 3 true [(.idx 0, .num 1), (.idx 1, .num 2)])] (.obj 4 false [])
    (by decide)
    ⟨.obj 3 true [(.idx 0, .num 1), (.idx 1, .num 2)], by decide, by decide⟩).2
    (.obj 3 true [(.idx 0, .num 1), (.idx 1, .num 2)]) [] (by decide) (by decide) (by decide)
    (by decide)

/-- C13, as stated, fails.  No link is filed under `constructor`, yet
`setBondLabel('constructor', 'x', {})` raises a `TypeError`: the link Visual
Index is a plain object and finds the `constructor` it inherits, which has no
children.  And a bond key that cannot be converted to a string, such as the
object `{ toString: 1 }`, raises a `TypeError` at the lookup. -/
theorem setBondLabel_missing_counterexample :
    (indexGet oneNodeView.svgLinks (JSValue.str "constructor").toStringJS = none ∧
      (setBondLabel oneNodeView (.str "constructor") (.str "x") (.obj 4 false [])).result
        = .error .typeError) ∧
    (indexGet oneNodeView.svgLinks
        (JSValue.obj 3 false [(.name "toString", .num 1)]).toStringJS = none ∧
      (setBondLabel oneNodeView (.obj 3 false [(.name "toString", .num 1)]) (.str "x")
        (.obj 4 false [])).result = .error .typeError) := by
  decide

/-- C13, amended: `setBondLabel` on a bond key that converts to a string
under which the link Visual Index finds nothing (no link is filed under it and
it is no name the index inherits from `Object.prototype`, the index being a
plain object with no entry `__proto__`) returns normally and changes nothing:
the view, with every element's text and style and the Visual Index, is as
before. -/
theorem setBondLabel_missing (v : View) (bond text spec : JSValue)
    (hconv : bond.toStringThrows = false)
    (_hproto : indexGet v.svgLinks "__proto__" = none)
    (h : indexFind v.svgLinks bond.toStringJS = .nothing) :
    setBondLabel v bond text spec = ⟨v, .ok .undefined⟩ := by
  simp [setBondLabel, hconv, h]

/-- An instance of C13 as amended: a label for the bond `1,2` on a view
without links. -/
theorem setBondLabel_missing_witness :
    setBondLabel oneNodeView (.obj 3 true [(.idx 0, .num 1), (.idx 1, .num 2)]) (.str "C-C")
      (.obj 4 false [(.name "fill", .str "red")]) = ⟨oneNodeView, .ok .undefined⟩ :=
  setBondLabel_missing oneNodeView _ _ _ (by decide) (by decide) (by decide)

end Nbmolviz2dView

namespace Nbmolviz2dView

theorem sendDone_messages (v : View) (event result : JSValue) :
    (sendDone v event result).view.messages = v.messages := by
  unfold sendDone
  split <;> rfl

/-- The message log after `handleMessage`, case by case. -/
theorem handleMessage_messages (host : Host) (v : View) (message : JSValue) :
    (isDispatched message = false →
      (handleMessage host v message).view.messages = v.messages ++ [message]) ∧
    (isDispatched message = true →
      (resolve host (message.read "function_name").toStringJS = none →
        (handleMessage host v message).view.messages = v.messages ++ [message] ++ [message]) ∧
      (∀ e, argumentsOf host message = .error e →
        (handleMessage host v message).view.messages = v.messages ++ [message] ++ [message]) ∧
      (∀ args r, resolve host (message.read "function_name").toStringJS = some r →
        argumentsOf host message = .ok args →
        (handleMessage host v message).view.messages =
          (invoke host { v with messages := v.messages ++ [message] ++ [message] } args
            r).view.messages)) := by
  refine ⟨?_, ?_⟩
  · intro hd
    rw [handleMessage]
    cases hm : message.member "event" with
    | error e => rfl
    | ok ev =>
      simp only
      by_cases hfc : JSValue.strictEq ev (.str "function_call") = true
      · rw [if_pos hfc, handleFunctionCall]
        have hr : ev = message.read "event" := by
          cases message <;> simp_all [JSValue.member]
        have hf : message.member "function_name" = .ok (message.read "function_name") := by
          cases message <;> simp_all [JSValue.member, JSValue.read, JSValue.strictEq]
        rw [hf]
        have hu : JSValue.strictEq (message.read "function_name") (.str "updateHighlightAtoms")
            = true := by
          rw [hr] at hfc
          simpa [isDispatched, hfc] using hd
        simp only [hu, if_true]
      · rw [if_neg hfc]
  · intro hd
    simp only [isDispatched, Bool.and_eq_true, Bool.not_eq_true', ] at hd
    obtain ⟨hev, hfn⟩ := hd
    refine ⟨?_, ?_, ?_⟩
    · intro hres
      rw [handleMessage_unresolved host v message hev hfn hres]
    · intro e he
      have hm : message.member "event" = .ok (message.read "event") :=
        member_of_read_eq_str _ _ _ hev
      have hf : message.member "function_name" = .ok (message.read "function_name") := by
        cases message <;> simp_all [JSValue.member, JSValue.read, JSValue.strictEq]
      rw [handleMessage, hm]
      simp only [hev, if_true]
      rw [handleFunctionCall, hf]
      simp only [hfn, Bool.false_eq_true, if_false]
      split
      · rfl
      · split
        · rfl
        · rename_i args2 he2
          rw [he] at he2; cases he2
    · intro args r hres hargs
      rw [handleMessage_dispatch host v message args r hev hfn hres hargs]
      split
      · rfl
      · exact sendDone_messages _ _ _

theorem handleMessage_log (host : Host) (v : View) (message : JSValue)
    (h : leavesLog host v message) :
    (handleMessage host v message).view.messages = v.messages ++ logEntries message := by
  have hm := handleMessage_messages host v message
  cases hd : isDispatched message with
  | false =>
    rw [hm.1 hd]
    simp [logEntries, hd]
  | true =>
    have hm2 := hm.2 hd
    have hlog : v.messages ++ logEntries message = v.messages ++ [message] ++ [message] := by
      simp [logEntries, hd]
    rw [hlog]
    cases hres : resolve host (message.read "function_name").toStringJS with
    | none => exact hm2.1 hres
    | some r =>
      cases hargs : argumentsOf host message with
      | error e => exact hm2.2.1 e hargs
      | ok args =>
        rw [hm2.2.2 args r hres hargs]
        exact h hd args r hres hargs

/-- C15, as stated, fails: starting from an empty log, after the one call
message `setAtomStyle([0], { color: 'red' })`, which is dispatched and
completes, the log holds the message twice. -/
theorem messageLog_counterexample :
    oneNodeView.messages = [] ∧
    (handleMessage bareHost oneNodeView (styleCall "x")).result = .ok .undefined ∧
    (handleAll bareHost oneNodeView [styleCall "x"]).messages
      = [styleCall "x", styleCall "x"] ∧
    (handleAll bareHost oneNodeView [styleCall "x"]).messages ≠ [styleCall "x"] := by
  have h := handleMessage_dispatch bareHost oneNodeView (styleCall "x")
    [.obj 3 true [(.idx 0, .num 0)], .obj 4 false [(.name "color", .str "red")]]
    (.method .setAtomStyle) (by decide) (by decide) (by rfl) (by decide)
  simp only [handleAll]
  rw [h]
  decide

/-- C15, amended: starting from an empty log, after `handleMessage` has been
applied to a finite sequence of inbound messages, each of which is ignored or
dispatched to an operation that leaves the log alone, the log is these
messages in arrival order, an ignored message once and a dispatched message
twice in a row; the style and label mutators leave the log alone. -/
theorem messageLog_sequence (host : Host) (messages : List JSValue) :
    (∀ v : View, allLeaveLog host v messages →
      (handleAll host v messages).messages = v.messages ++ messages.flatMap logEntries) ∧
    (∀ (v : View) (args : List JSValue) (m : Method), m.isMutator = true →
      (callMethod host v args m).view.messages = v.messages) := by
  refine ⟨?_, fun v args m hm => (mutator_sent host v args m hm).2.2⟩
  induction messages with
  | nil => intro v _; simp [handleAll]
  | cons message rest ih =>
    intro v h
    simp only [handleAll, List.flatMap_cons]
    rw [ih _ h.2, handleMessage_log host v message h.1, List.append_assoc]

end Nbmolviz2dView

namespace Nbmolviz2dView

/-- An instance of C15 as amended: `{ event: 'other' }` and then the call
`setAtomStyle([0], { color: 'red' })`. -/
theorem messageLog_sequence_witness :
    (handleAll bareHost oneNodeView [otherMessage, styleCall "x"]).messages
      = [otherMessage, styleCall "x", styleCall "x"] := by
  have hstyle : ∀ v : View, leavesLog bareHost v (styleCall "x") := by
    intro v _ args r hres _
    have h2 : resolve bareHost ((styleCall "x").read "function_name").toStringJS
        = some (.method .setAtomStyle) := rfl
    rw [h2] at hres
    cases hres
    exact (mutator_sent bareHost _ args .setAtomStyle rfl).2.2
  have h := (messageLog_sequence bareHost [otherMessage, styleCall "x"]).1 oneNodeView
    ⟨fun hd => absurd hd (by decide), hstyle _, trivial⟩
  rw [h]
  decide

theorem render_messages (host : Host) (v : View) (r : JSValue)
    (h : (render host v).result = .ok r) : (render host v).view.messages = [] := by
  unfold render at h ⊢
  cases hi : (indexSvgElements (renderViewer host v).view).result with
  | error e => rw [hi] at h; cases h
  | ok x =>
    simp only
    split <;> rfl

/-- C16, as stated, fails: a render pass on a view whose log holds one
message completes and leaves the log empty, so the log before is not a prefix
of the log after. -/
theorem messageLog_appendOnly_counterexample :
    (render bareHost { oneNodeView with messages := [otherMessage] }).result = .ok .undefined ∧
    (render bareHost { oneNodeView with messages := [otherMessage] }).view.messages = [] ∧
    ¬ ({ oneNodeView with messages := [otherMessage] } : View).messages <+:
      (render bareHost { oneNodeView with messages := [otherMessage] }).view.messages := by
  decide

/-- C16, amended: the message log is append-only under the style and label
mutators, which leave it unchanged, and under `handleMessage`, where the log
before is a prefix of the log after whenever the operation the message is
dispatched to, if any, keeps what the log holds; a render pass that
completes empties the log. -/
theorem messageLog_appendOnly (host : Host) (v : View) :
    (∀ (args : List JSValue) (m : Method), m.isMutator = true →
      v.messages <+: (callMethod host v args m).view.messages) ∧
    (∀ message : JSValue,
      (isDispatched message = true → ∀ args r,
        resolve host (message.read "function_name").toStringJS = some r →
        argumentsOf host message = .ok args →
        (v.messages ++ [message] ++ [message]) <+:
          (invoke host { v with messages := v.messages ++ [message] ++ [message] } args
            r).view.messages) →
      v.messages <+: (handleMessage host v message).view.messages) ∧
    (∀ r, (render host v).result = .ok r → (render host v).view.messages = []) := by
  refine ⟨?_, ?_, render_messages host v⟩
  · intro args m hm
    rw [(mutator_sent host v args m hm).2.2]
  · intro message h
    have hm := handleMessage_messages host v message
    cases hd : isDispatched message with
    | false =>
      rw [hm.1 hd]
      exact List.prefix_append _ _
    | true =>
      have hm2 := hm.2 hd
      have hpre : v.messages <+: v.messages ++ [message] ++ [message] := by
        rw [List.append_assoc]; exact List.prefix_append _ _
      cases hres : resolve host (message.read "function_name").toStringJS with
      | none => rw [hm2.1 hres]; exact hpre
      | some r =>
        cases hargs : argumentsOf host message with
        | error e => rw [hm2.2.1 e hargs]; exact hpre
        | ok args =>
          rw [hm2.2.2 args r hres hargs]
          exact hpre.trans (h hd args r hres hargs)

/-- Instances of C16 as amended: a mutator, an ignored message, and a render
pass. -/
theorem messageLog_appendOnly_witness :
    ({ oneNodeView with messages := [otherMessage] } : View).messages <+:
      (callMethod bareHost { oneNodeView with messages := [otherMessage] } [] .setBondLabel).view.messages ∧
    ({ oneNodeView with messages := [otherMessage] } : View).messages <+:
      (handleMessage bareHost { oneNodeView with messages := [otherMessage] }
        otherMessage).view.messages ∧
    (render bareHost { oneNodeView with messages := [otherMessage] }).view.messages = [] :=
  ⟨(messageLog_appendOnly bareHost { oneNodeView with messages := [otherMessage] }).1 [] .setBondLabel
      rfl,
   (messageLog_appendOnly bareHost { oneNodeView with messages := [otherMessage] }).2.1 otherMessage
      (fun hd => absurd hd (by decide)),
   (messageLog_appendOnly bareHost { oneNodeView with messages := [otherMessage] }).2.2 .undefined
      (by decide)⟩

end Nbmolviz2dView

/-! ## Properties of the Visual Index -/

theorem indexGet_indexSet (m : List (String × Nat)) (k k2 : String) (e : Nat) :
    indexGet (indexSet m k e) k2 = if k = k2 then some e else indexGet m k2 := by
  induction m with
  | nil => simp [indexSet, indexGet]
  | cons p rest ih =>
    obtain ⟨k1, x⟩ := p
    simp only [indexSet]
    by_cases h1 : k1 = k
    · subst h1
      simp only [if_true, indexGet]
      split <;> rfl
    · simp only [if_neg h1, indexGet, ih]
      by_cases h2 : k1 = k2
      · subst h2; simp [Ne.symm h1]
      · simp [h2]

namespace Nbmolviz2dView

theorem indexLoop_cons (v : View) (i : Nat) (elem : SvgElement) (rest : List SvgElement)
    (h : getAttribute elem.attrs "class" = some "link" → elem.children[0]?.isSome = true) :
    indexLoop v i (elem :: rest) = indexLoop (indexStep v i elem) (i + 1) rest := by
  simp only [indexLoop, indexStep, nodeKey, linkKeys]
  by_cases hl : getAttribute elem.attrs "class" = some "link"
  · have hn : ¬ getAttribute elem.attrs "class" = some "node" := by
      rw [hl]; decide
    have hc := h hl
    cases hch : elem.children[0]? with
    | none => rw [hch] at hc; cases hc
    | some child => simp [hl]
  · by_cases hn : getAttribute elem.attrs "class" = some "node"
    · simp [hn]
    · simp [hl, hn]

theorem indexLoop_eq_indexSteps (elems : List SvgElement) : ∀ (v : View) (i : Nat),
    linksHaveChild elems → indexLoop v i elems = (indexSteps v i elems, none) := by
  induction elems with
  | nil => intro v i _; rfl
  | cons e rest ih =>
    intro v i h
    rw [indexLoop_cons v i e rest (h e (List.mem_cons_self _ _))]
    rw [ih _ _ (fun x hx => h x (List.mem_cons_of_mem _ hx))]
    rfl

theorem indexStep_svgNodes (v : View) (i : Nat) (e : SvgElement) :
    (indexStep v i e).svgNodes =
      match nodeKey e with
      | some k => indexSet v.svgNodes k i
      | none => v.svgNodes := by
  unfold indexStep
  cases nodeKey e <;> cases linkKeys e <;> rfl

theorem indexStep_svgLinks (v : View) (i : Nat) (e : SvgElement) :
    (indexStep v i e).svgLinks =
      match linkKeys e with
      | some (a, b) => indexSet (indexSet v.svgLinks a i) b i
      | none => v.svgLinks := by
  unfold indexStep
  cases nodeKey e <;> cases linkKeys e <;> rfl

theorem indexStep_scene (v : View) (i : Nat) (e : SvgElement) :
    (indexStep v i e).scene = v.scene := by
  unfold indexStep
  cases nodeKey e <;> cases linkKeys e <;> rfl

theorem indexSteps_scene (elems : List SvgElement) : ∀ (v : View) (i : Nat),
    (indexSteps v i elems).scene = v.scene := by
  induction elems with
  | nil => intro v i; rfl
  | cons e rest ih => intro v i; simp only [indexSteps]; rw [ih, indexStep_scene]

theorem indexSteps_nodes_frame (elems : List SvgElement) : ∀ (v : View) (i : Nat) (k : String),
    (∀ e ∈ elems, nodeKey e ≠ some k) →
    indexGet (indexSteps v i elems).svgNodes k = indexGet v.svgNodes k := by
  induction elems with
  | nil => intro v i k _; rfl
  | cons e rest ih =>
    intro v i k h
    simp only [indexSteps]
    rw [ih _ _ _ (fun x hx => h x (List.mem_cons_of_mem _ hx)), indexStep_svgNodes]
    have he := h e (List.mem_cons_self _ _)
    cases hk : nodeKey e with
    | none => rfl
    | some k1 =>
      simp only
      rw [indexGet_indexSet, if_neg]
      intro e1; subst e1; exact he hk

theorem indexSteps_nodes_hit (elems : List SvgElement) : ∀ (v : View) (i : Nat),
    elems.Pairwise (fun e1 e2 => distinctNodes e1 e2 = true) →
    ∀ (j : Nat) (e : SvgElement) (k : String), elems[j]? = some e → nodeKey e = some k →
    indexGet (indexSteps v i elems).svgNodes k = some (i + j) := by
  induction elems with
  | nil => intro v i _ j e k h; simp at h
  | cons e0 rest ih =>
    intro v i hp j e k hj hk
    rw [List.pairwise_cons] at hp
    simp only [indexSteps]
    cases j with
    | zero =>
      simp only [List.getElem?_cons_zero, Option.some.injEq] at hj
      subst hj
      rw [indexSteps_nodes_frame, indexStep_svgNodes, hk]
      · simp [indexGet_indexSet]
      · intro x hx hxk
        have := hp.1 x hx
        simp [distinctNodes, hk, hxk] at this
    | succ j =>
      simp only [List.getElem?_cons_succ] at hj
      rw [ih _ _ hp.2 j e k hj hk]
      congr 1; omega

theorem indexSteps_nodes_origin (elems : List SvgElement) : ∀ (v : View) (i : Nat) (k : String)
    (p : Nat), indexGet (indexSteps v i elems).svgNodes k = some p →
    indexGet v.svgNodes k = some p ∨
      ∃ j e, p = i + j ∧ elems[j]? = some e ∧ nodeKey e = some k := by
  induction elems with
  | nil => intro v i k p h; exact Or.inl h
  | cons e0 rest ih =>
    intro v i k p h
    simp only [indexSteps] at h
    rcases ih _ _ _ _ h with h1 | ⟨j, e, hp, hj, hk⟩
    · rw [indexStep_svgNodes] at h1
      cases hk0 : nodeKey e0 with
      | none => rw [hk0] at h1; exact Or.inl h1
      | some k0 =>
        rw [hk0] at h1
        simp only [indexGet_indexSet] at h1
        by_cases hkk : k0 = k
        · rw [if_pos hkk] at h1
          cases h1
          exact Or.inr ⟨0, e0, rfl, by simp, by rw [hk0, hkk]⟩
        · rw [if_neg hkk] at h1
          exact Or.inl h1
    · exact Or.inr ⟨j + 1, e, by omega, by simpa using hj, hk⟩

end Nbmolviz2dView

namespace Nbmolviz2dView

theorem indexGet_step_links (m : List (String × Nat)) (i : Nat) (e : SvgElement) (k : String) :
    indexGet (match linkKeys e with
      | some (a, b) => indexSet (indexSet m a i) b i
      | none => m) k = if hasLinkKey e k = true then some i else indexGet m k := by
  unfold hasLinkKey
  cases hk : linkKeys e with
  | none => simp
  | some ab =>
    obtain ⟨a, b⟩ := ab
    simp only [indexGet_indexSet, Bool.or_eq_true, beq_iff_eq]
    by_cases hb : b = k
    · simp [hb]
    · by_cases ha : a = k
      · simp [ha]
      · simp [ha, hb, Ne.symm ha, Ne.symm hb]

theorem indexSteps_links_frame (elems : List SvgElement) : ∀ (v : View) (i : Nat) (k : String),
    (∀ e ∈ elems, hasLinkKey e k = false) →
    indexGet (indexSteps v i elems).svgLinks k = indexGet v.svgLinks k := by
  induction elems with
  | nil => intro v i k _; rfl
  | cons e rest ih =>
    intro v i k h
    simp only [indexSteps]
    rw [ih _ _ _ (fun x hx => h x (List.mem_cons_of_mem _ hx)), indexStep_svgLinks,
      indexGet_step_links, h e (List.mem_cons_self _ _)]
    simp

theorem hasLinkKey_disjoint (e1 e2 : SvgElement) (k : String)
    (hd : distinctLinks e1 e2 = true) (h1 : hasLinkKey e1 k = true) :
    hasLinkKey e2 k = false := by
  unfold hasLinkKey at h1 ⊢
  unfold distinctLinks at hd
  cases hk1 : linkKeys e1 with
  | none => rw [hk1] at h1; cases h1
  | some ab =>
    obtain ⟨a, b⟩ := ab
    cases hk2 : linkKeys e2 with
    | none => rfl
    | some cd =>
      obtain ⟨c, d⟩ := cd
      rw [hk1, hk2] at hd
      rw [hk1] at h1
      simp only [Bool.and_eq_true, bne_iff_ne, ne_eq] at hd
      simp only [Bool.or_eq_true, beq_iff_eq] at h1
      simp only [Bool.or_eq_false_iff, beq_eq_false_iff_ne, ne_eq]
      rcases h1 with h | h
      · subst h; exact ⟨hd.1.1.1, hd.1.1.2⟩
      · subst h; exact ⟨hd.1.2, hd.2⟩

theorem indexSteps_links_hit (elems : List SvgElement) : ∀ (v : View) (i : Nat),
    elems.Pairwise (fun e1 e2 => distinctLinks e1 e2 = true) →
    ∀ (j : Nat) (e : SvgElement) (k : String), elems[j]? = some e → hasLinkKey e k = true →
    indexGet (indexSteps v i elems).svgLinks k = some (i + j) := by
  induction elems with
  | nil => intro v i _ j e k h; simp at h
  | cons e0 rest ih =>
    intro v i hp j e k hj hk
    rw [List.pairwise_cons] at hp
    simp only [indexSteps]
    cases j with
    | zero =>
      simp only [List.getElem?_cons_zero, Option.some.injEq] at hj
      subst hj
      rw [indexSteps_links_frame, indexStep_svgLinks, indexGet_step_links, hk]
      · simp
      · intro x hx
        exact hasLinkKey_disjoint e0 x k (hp.1 x hx) hk
    | succ j =>
      simp only [List.getElem?_cons_succ] at hj
      rw [ih _ _ hp.2 j e k hj hk]
      congr 1; omega

theorem indexSteps_links_origin (elems : List SvgElement) : ∀ (v : View) (i : Nat) (k : String)
    (p : Nat), indexGet (indexSteps v i elems).svgLinks k = some p →
    indexGet v.svgLinks k = some p ∨
      ∃ j e, p = i + j ∧ elems[j]? = some e ∧ hasLinkKey e k = true := by
  induction elems with
  | nil => intro v i k p h; exact Or.inl h
  | cons e0 rest ih =>
    intro v i k p h
    simp only [indexSteps] at h
    rcases ih _ _ _ _ h with h1 | ⟨j, e, hp, hj, hk⟩
    · rw [indexStep_svgLinks, indexGet_step_links] at h1
      by_cases hkk : hasLinkKey e0 k = true
      · rw [if_pos hkk] at h1
        cases h1
        exact Or.inr ⟨0, e0, rfl, by simp, hkk⟩
      · rw [if_neg hkk] at h1
        exact Or.inl h1
    · exact Or.inr ⟨j + 1, e, by omega, by simpa using hj, hk⟩

theorem indexSvgElements_eq (v : View) (h : linksHaveChild v.scene) :
    indexSvgElements v =
      ⟨indexSteps { v with svgNodes := [], svgLinks := [] } 0 v.scene, .ok .undefined⟩ := by
  unfold indexSvgElements
  rw [indexLoop_eq_indexSteps v.scene _ 0 h]

/-- C14, as stated, fails: in a scene with a link from 1 to 2 followed by a
link from 2 to 1, whose endpoint pairs `(1, 2)` and `(2, 1)` differ, the key
`1,2` of the first link yields the second link after `indexSvgElements`; and
in a scene with a link element that has no child followed by node 0,
`indexSvgElements` throws and node 0 is not in the index. -/
theorem indexSvgElements_counterexample :
    (("1", "2") : String × String) ≠ ("2", "1") ∧
    (indexSvgElements (sceneView [linkElement "1" "2", linkElement "2" "1"])).result
      = .ok .undefined ∧
    linkKeys (linkElement "1" "2") = some ("1,2", "2,1") ∧
    indexGet (indexSvgElements (sceneView [linkElement "1" "2", linkElement "2" "1"])).view.svgLinks
      "1,2" = some 1 ∧
    indexGet (indexSvgElements (sceneView [linkElement "1" "2", linkElement "2" "1"])).view.svgLinks
      "1,2" ≠ some 0 ∧
    (indexSvgElements (sceneView [⟨[("class", "link")], []⟩, nodeElement "0"])).result
      = .error .typeError ∧
    indexGet (indexSvgElements (sceneView [⟨[("class", "link")], []⟩, nodeElement "0"])).view.svgNodes
      "0" = none := by
  decide

/-- C14, amended: for every scene in which every link element has a first
child, no two nodes are filed under the same key (the `index` attribute,
`null` when missing) and no two links share a key (`p,q` or `q,p`), after
`indexSvgElements`: the key of every node yields that node, both keys of
every link yield that link, and every entry of the index comes from an
element of the scene, which itself is unchanged. -/
theorem indexSvgElements_index (v : View) (hchild : linksHaveChild v.scene)
    (hnodes : v.scene.Pairwise (fun e1 e2 => distinctNodes e1 e2 = true))
    (hlinks : v.scene.Pairwise (fun e1 e2 => distinctLinks e1 e2 = true)) :
    (indexSvgElements v).result = .ok .undefined ∧
    (indexSvgElements v).view.scene = v.scene ∧
    (∀ (i : Nat) (e : SvgElement) (k : String), v.scene[i]? = some e → nodeKey e = some k →
      indexGet (indexSvgElements v).view.svgNodes k = some i) ∧
    (∀ (i : Nat) (e : SvgElement) (a b : String), v.scene[i]? = some e →
      linkKeys e = some (a, b) →
      indexGet (indexSvgElements v).view.svgLinks a = some i ∧
      indexGet (indexSvgElements v).view.svgLinks b = some i) ∧
    (∀ (k : String) (i : Nat), indexGet (indexSvgElements v).view.svgNodes k = some i →
      ∃ e, v.scene[i]? = some e ∧ nodeKey e = some k) ∧
    (∀ (k : String) (i : Nat), indexGet (indexSvgElements v).view.svgLinks k = some i →
      ∃ e, v.scene[i]? = some e ∧ hasLinkKey e k = true) := by
  rw [indexSvgElements_eq v hchild]
  refine ⟨rfl, indexSteps_scene _ _ _, ?_, ?_, ?_, ?_⟩
  · intro i e k hi hk
    have := indexSteps_nodes_hit v.scene { v with svgNodes := [], svgLinks := [] } 0 hnodes
      i e k hi hk
    simpa using this
  · intro i e a b hi hk
    have ha : hasLinkKey e a = true := by simp [hasLinkKey, hk]
    have hb : hasLinkKey e b = true := by simp [hasLinkKey, hk]
    have h1 := indexSteps_links_hit v.scene { v with svgNodes := [], svgLinks := [] } 0 hlinks
      i e a hi ha
    have h2 := indexSteps_links_hit v.scene { v with svgNodes := [], svgLinks := [] } 0 hlinks
      i e b hi hb
    exact ⟨by simpa using h1, by simpa using h2⟩
  · intro k i h
    rcases indexSteps_nodes_origin v.scene _ 0 k i h with h1 | ⟨j, e, hp, hj, hk⟩
    · simp [indexGet] at h1
    · exact ⟨e, by rw [hp]; simpa using hj, hk⟩
  · intro k i h
    rcases indexSteps_links_origin v.scene _ 0 k i h with h1 | ⟨j, e, hp, hj, hk⟩
    · simp [indexGet] at h1
    · exact ⟨e, by rw [hp]; simpa using hj, hk⟩

/-- An instance of C14 as amended: a scene with node 0, node 1 and the link
between them. -/
theorem indexSvgElements_index_witness :
    indexGet (indexSvgElements
        (sceneView [nodeElement "0", nodeElement "1", linkElement "0" "1"])).view.svgNodes "1"
      = some 1 ∧
    indexGet (indexSvgElements
        (sceneView [nodeElement "0", nodeElement "1", linkElement "0" "1"])).view.svgLinks "0,1"
      = some 2 ∧
    indexGet (indexSvgElements
        (sceneView [nodeElement "0", nodeElement "1", linkElement "0" "1"])).view.svgLinks "1,0"
      = some 2 :=
  ⟨(indexSvgElements_index (sceneView [nodeElement "0", nodeElement "1", linkElement "0" "1"])
      (by decide) (by decide) (by decide)).2.2.1 1 (nodeElement "1") "1" (by decide) (by decide),
   ((indexSvgElements_index (sceneView [nodeElement "0", nodeElement "1", linkElement "0" "1"])
      (by decide) (by decide) (by decide)).2.2.2.1 2 (linkElement "0" "1") "0,1" "1,0"
      (by decide) (by decide)).1,
   ((indexSvgElements_index (sceneView [nodeElement "0", nodeElement "1", linkElement "0" "1"])
      (by decide) (by decide) (by decide)).2.2.2.1 2 (linkElement "0" "1") "0,1" "1,0"
      (by decide) (by decide)).2⟩

end Nbmolviz2dView

/-! ## The in-place path of `updateModels` in general -/

namespace MoleculeUtils

theorem strictEq_congr_left (a b x : JSValue) (h : a.canon = b.canon) :
    JSValue.strictEq a x = JSValue.strictEq b x := by
  rw [Bool.eq_iff_iff, strictEq_iff_canon, strictEq_iff_canon, h]

theorem addOrUpdate_cons_of_match (m o : JSObject) (rest : List JSObject)
    (h : JSValue.strictEq o.id m.id = true) :
    addOrUpdate (o :: rest) m = updateObjectInPlace o m :: rest := by
  simp [addOrUpdate, updateFirstMatch, h]

theorem addOrUpdate_cons_of_ne (m o : JSObject) (rest : List JSObject)
    (h : JSValue.strictEq o.id m.id = false)
    (hex : ∃ x ∈ rest, JSValue.strictEq x.id m.id = true) :
    addOrUpdate (o :: rest) m = o :: addOrUpdate rest m := by
  have hsome : ∃ l, updateFirstMatch m rest = some l := by
    clear h
    induction rest with
    | nil => obtain ⟨x, hx, _⟩ := hex; cases hx
    | cons y ys ih =>
      by_cases hy : JSValue.strictEq y.id m.id = true
      · exact ⟨updateObjectInPlace y m :: ys, by simp [updateFirstMatch, hy]⟩
      · obtain ⟨x, hx, hxm⟩ := hex
        have hx2 : x ∈ ys := by
          rcases List.mem_cons.1 hx with e | e
          · subst e; exact absurd hxm hy
          · exact e
        obtain ⟨l, hl⟩ := ih ⟨x, hx2, hxm⟩
        exact ⟨y :: l, by simp [updateFirstMatch, hy, hl]⟩
  obtain ⟨l, hl⟩ := hsome
  simp [addOrUpdate, updateFirstMatch, h, hl]

theorem ids_addOrUpdate (m : JSObject) (hw : m.wellFormed) (l : List JSObject)
    (hex : ∃ x ∈ l, JSValue.strictEq x.id m.id = true) :
    (addOrUpdate l m).map (fun o => o.id.canon) = l.map (fun o => o.id.canon) := by
  induction l with
  | nil => obtain ⟨x, hx, _⟩ := hex; cases hx
  | cons o rest ih =>
    by_cases h : JSValue.strictEq o.id m.id = true
    · rw [addOrUpdate_cons_of_match m o rest h]
      simp only [List.map_cons]
      rw [canon_id_updateObjectInPlace o m hw h]
    · have hex2 : ∃ x ∈ rest, JSValue.strictEq x.id m.id = true := by
        obtain ⟨x, hx, hxm⟩ := hex
        rcases List.mem_cons.1 hx with e | e
        · subst e; exact absurd hxm h
        · exact ⟨x, e, hxm⟩
      rw [addOrUpdate_cons_of_ne m o rest (by simpa using h) hex2]
      simp only [List.map_cons]
      rw [ih hex2]

theorem exists_match_iff (l : List JSObject) (x : JSValue) :
    (∃ o ∈ l, JSValue.strictEq o.id x = true) ↔ x.canon ∈ l.map (fun o => o.id.canon) := by
  simp only [List.mem_map, strictEq_iff_canon]

theorem foldl_addOrUpdate_cons (news : List JSObject) : ∀ (o : JSObject) (rest : List JSObject),
    (∀ m ∈ news, m.wellFormed) →
    (∀ m ∈ news, m.id.canon ∈ (o :: rest).map (fun x => x.id.canon)) →
    news.foldl addOrUpdate (o :: rest) =
      mergeAll news o ::
        (news.filter (fun m => !JSValue.strictEq o.id m.id)).foldl addOrUpdate rest := by
  induction news with
  | nil => intro o rest _ _; simp [mergeAll]
  | cons m ms ih =>
    intro o rest hw hex
    have hwm := hw m (List.mem_cons_self _ _)
    have hw2 : ∀ x ∈ ms, x.wellFormed := fun x hx => hw x (List.mem_cons_of_mem _ hx)
    have hexm := (exists_match_iff (o :: rest) m.id).2 (hex m (List.mem_cons_self _ _))
    simp only [List.foldl_cons]
    by_cases h : JSValue.strictEq o.id m.id = true
    · rw [addOrUpdate_cons_of_match m o rest h]
      have hc := canon_id_updateObjectInPlace o m hwm h
      rw [ih (updateObjectInPlace o m) rest hw2]
      · have hf : ∀ x : JSObject, JSValue.strictEq (updateObjectInPlace o m).id x.id
            = JSValue.strictEq o.id x.id := fun x => strictEq_congr_left _ _ _ hc
        simp only [mergeAll, hf, List.filter_cons, h, if_true, List.foldl_cons, Bool.not_true,
          Bool.false_eq_true, if_false]
      · intro x hx
        have := hex x (List.mem_cons_of_mem _ hx)
        simpa [hc] using this
    · have hex2 : ∃ x ∈ rest, JSValue.strictEq x.id m.id = true := by
        obtain ⟨x, hx, hxm⟩ := hexm
        rcases List.mem_cons.1 hx with e | e
        · subst e; exact absurd hxm h
        · exact ⟨x, e, hxm⟩
      have hf : JSValue.strictEq o.id m.id = false := by simpa using h
      rw [addOrUpdate_cons_of_ne m o rest hf hex2]
      rw [ih o (addOrUpdate rest m) hw2]
      · simp only [mergeAll, List.filter_cons, hf, Bool.false_eq_true, if_false, Bool.not_false,
          if_true, List.foldl_cons]
      · intro x hx
        have := hex x (List.mem_cons_of_mem _ hx)
        simpa [ids_addOrUpdate m hwm rest hex2] using this

theorem foldl_addOrUpdate_general (l : List JSObject) : ∀ (news : List JSObject),
    (∀ m ∈ news, m.wellFormed) →
    (∀ m ∈ news, m.id.canon ∈ l.map (fun x => x.id.canon)) →
    news.foldl addOrUpdate l = mergeIntoFirsts news l := by
  induction l with
  | nil =>
    intro news _ hex
    cases news with
    | nil => rfl
    | cons m ms => have := hex m (List.mem_cons_self _ _); simp at this
  | cons o rest ih =>
    intro news hw hex
    rw [foldl_addOrUpdate_cons news o rest hw hex]
    simp only [mergeIntoFirsts]
    congr 1
    apply ih
    · intro m hm
      exact hw m (List.mem_of_mem_filter hm)
    · intro m hm
      have h1 := hex m (List.mem_of_mem_filter hm)
      have h2 := List.of_mem_filter hm
      simp only [List.map_cons, List.mem_cons] at h1
      rcases h1 with e | e
      · exfalso
        have : JSValue.strictEq o.id m.id = true := (strictEq_iff_canon _ _).2 e.symm
        simp [this] at h2
      · exact e

end MoleculeUtils

namespace MoleculeUtils

theorem ids_foldl_addOrUpdate (news : List JSObject) : ∀ (l : List JSObject),
    (∀ m ∈ news, m.wellFormed) →
    (∀ m ∈ news, m.id.canon ∈ l.map (fun x => x.id.canon)) →
    (news.foldl addOrUpdate l).map (fun x => x.id.canon) = l.map (fun x => x.id.canon) := by
  induction news with
  | nil => intro l _ _; rfl
  | cons m ms ih =>
    intro l hw hex
    have hstep := ids_addOrUpdate m (hw m (List.mem_cons_self _ _)) l
      ((exists_match_iff l m.id).2 (hex m (List.mem_cons_self _ _)))
    simp only [List.foldl_cons]
    rw [ih _ (fun x hx => hw x (List.mem_cons_of_mem _ hx)), hstep]
    intro x hx
    rw [hstep]
    exact hex x (List.mem_cons_of_mem _ hx)

theorem mem_ids_of_compareIds (oldElems newElems : List JSObject)
    (hc : compareIds (oldElems.map JSObject.id) (newElems.map JSObject.id) = true) :
    (∀ m ∈ newElems, m.id.canon ∈ oldElems.map (fun x => x.id.canon)) ∧
    (∀ o ∈ oldElems, o.id.canon ∈ newElems.map (fun x => x.id.canon)) := by
  have hsame := (compareIds_iff _ _).1 hc
  have hself : ∀ (l : List JSObject) (x : JSObject), x ∈ l →
      occursIn (l.map JSObject.id) x.id = true := by
    intro l x hx
    simp only [occursIn, List.any_eq_true, List.mem_map]
    exact ⟨x.id, ⟨x, hx, rfl⟩, strictEq_refl _⟩
  constructor
  · intro m hm
    have h := hself _ m hm
    rw [← hsame, occursIn_iff, List.map_map] at h
    exact h
  · intro o ho
    have h := hself _ o ho
    rw [hsame, occursIn_iff, List.map_map] at h
    exact h

/-- The in-place path of `updateModels` whatever the ids: nothing is pushed,
nothing is removed, and each new record goes into the first old record with
its id. -/
theorem updateModels_inPlace_general (oldArray newArray : JSArray)
    (hw : ∀ m ∈ newArray.elems, m.wellFormed)
    (hc : compareIds (oldArray.elems.map JSObject.id) (newArray.elems.map JSObject.id) = true) :
    newArray.elems.foldl addOrUpdate oldArray.elems
      = mergeIntoFirsts newArray.elems oldArray.elems ∧
    (mergeIntoFirsts newArray.elems oldArray.elems).map (fun x => x.id.canon)
      = oldArray.elems.map (fun x => x.id.canon) ∧
    removeStale newArray.elems (mergeIntoFirsts newArray.elems oldArray.elems)
      = mergeIntoFirsts newArray.elems oldArray.elems ∧
    updateModels oldArray newArray =
      { returned := { oldArray with elems := mergeIntoFirsts newArray.elems oldArray.elems },
        oldArray := { oldArray with elems := mergeIntoFirsts newArray.elems oldArray.elems } } := by
  have hmem := mem_ids_of_compareIds oldArray.elems newArray.elems hc
  have hfold := foldl_addOrUpdate_general oldArray.elems newArray.elems hw hmem.1
  have hids := ids_foldl_addOrUpdate newArray.elems oldArray.elems hw hmem.1
  rw [hfold] at hids
  have hkeep : removeStale newArray.elems (mergeIntoFirsts newArray.elems oldArray.elems)
      = mergeIntoFirsts newArray.elems oldArray.elems := by
    apply removeStale_eq_self
    intro r hr
    have h1 : r.id.canon ∈ (mergeIntoFirsts newArray.elems oldArray.elems).map
        (fun x => x.id.canon) := List.mem_map_of_mem (fun x => x.id.canon) hr
    rw [hids] at h1
    obtain ⟨o, ho, he⟩ := List.mem_map.1 h1
    have h2 := hmem.2 o ho
    obtain ⟨m, hm, hme⟩ := List.mem_map.1 h2
    refine ⟨m, hm, ?_⟩
    rw [strictEq_iff_canon]
    exact hme.trans he
  refine ⟨hfold, hids, hkeep, ?_⟩
  unfold updateModels
  simp only [hc, Bool.not_true, Bool.false_eq_true, if_false, hfold, hkeep]

theorem mergeAll_of_no_match (news : List JSObject) (o : JSObject)
    (h : ∀ m ∈ news, JSValue.strictEq o.id m.id = false) : mergeAll news o = o := by
  have : news.filter (fun newModel => JSValue.strictEq o.id newModel.id) = [] := by
    rw [List.filter_eq_nil_iff]
    intro m hm
    simp [h m hm]
  simp [mergeAll, this]

theorem getElem?_mergeIntoFirsts (l : List JSObject) : ∀ (news : List JSObject) (i : Nat)
    (o : JSObject), l[i]? = some o →
    (mergeIntoFirsts news l)[i]? =
      some (if (l.take i).any (fun x => JSValue.strictEq x.id o.id) then o
        else mergeAll news o) := by
  induction l with
  | nil => intro news i o h; simp at h
  | cons o0 rest ih =>
    intro news i o h
    cases i with
    | zero =>
      simp only [List.getElem?_cons_zero, Option.some.injEq] at h
      subst h
      simp [mergeIntoFirsts]
    | succ i =>
      simp only [List.getElem?_cons_succ] at h
      simp only [mergeIntoFirsts, List.getElem?_cons_succ, List.take_succ_cons, List.any_cons]
      rw [ih _ i o h]
      by_cases h0 : JSValue.strictEq o0.id o.id = true
      · have hno : mergeAll (news.filter (fun m => !JSValue.strictEq o0.id m.id)) o = o := by
          apply mergeAll_of_no_match
          intro m hm
          have h2 := List.of_mem_filter hm
          have hc : o.id.canon = o0.id.canon := ((strictEq_iff_canon _ _).1 h0).symm
          rw [strictEq_congr_left _ _ _ hc]
          simpa using h2
        simp only [h0, Bool.true_or, if_true, hno]
        split <;> rfl
      · have hf : JSValue.strictEq o0.id o.id = false := by simpa using h0
        have hsame : mergeAll (news.filter (fun m => !JSValue.strictEq o0.id m.id)) o
            = mergeAll news o := by
          unfold mergeAll
          rw [List.filter_filter]
          congr 1
          apply List.filter_congr
          intro m _
          by_cases hm : JSValue.strictEq o.id m.id = true
          · have hne : JSValue.strictEq o0.id m.id = false := by
              rw [← Bool.not_eq_true, strictEq_iff_canon]
              rw [← Bool.not_eq_true, strictEq_iff_canon] at hf
              rw [strictEq_iff_canon] at hm
              rw [← hm]; exact hf
            simp [hm, hne]
          · simp [hm]
        simp only [hf, Bool.false_or, hsame]

end MoleculeUtils

namespace MoleculeUtils

theorem forall₂_of_ids_eq (l1 : List JSObject) : ∀ l2 : List JSObject,
    l1.map (fun x => x.id.canon) = l2.map (fun x => x.id.canon) →
    List.Forall₂ (fun r o => JSValue.strictEq r.id o.id = true) l1 l2 := by
  induction l1 with
  | nil =>
    intro l2 h
    cases l2 with
    | nil => exact List.Forall₂.nil
    | cons b bs => simp at h
  | cons a as ih =>
    intro l2 h
    cases l2 with
    | nil => simp at h
    | cons b bs =>
      simp only [List.map_cons, List.cons.injEq] at h
      exact List.Forall₂.cons ((strictEq_iff_canon _ _).2 h.1) (ih bs h.2)

/-- C18: when the two collections have the same id set, also with an id
that occurs in several old records, `updateModels` gives a result of the
same length in which every new record has been merged into the first old
record with its id: an old record with an earlier record of the same id is
left as it was and stays at its position, the first record of an id takes
every new record of that id.  The new records list each key once. -/
theorem updateModels_duplicates (oldArray newArray : JSArray)
    (hw : ∀ m ∈ newArray.elems, m.wellFormed)
    (hc : compareIds (oldArray.elems.map JSObject.id) (newArray.elems.map JSObject.id) = true) :
    (updateModels oldArray newArray).returned.elems.length = oldArray.elems.length ∧
    ∀ (i : Nat) (o : JSObject), oldArray.elems[i]? = some o →
      ((oldArray.elems.take i).any (fun x => JSValue.strictEq x.id o.id) = true →
        (updateModels oldArray newArray).returned.elems[i]? = some o) ∧
      ((oldArray.elems.take i).any (fun x => JSValue.strictEq x.id o.id) = false →
        (updateModels oldArray newArray).returned.elems[i]?
          = some (mergeAll newArray.elems o)) := by
  have h := updateModels_inPlace_general oldArray newArray hw hc
  rw [h.2.2.2]
  refine ⟨?_, ?_⟩
  · have := congrArg List.length h.2.1
    simpa using this
  · intro i o hio
    have hg := getElem?_mergeIntoFirsts oldArray.elems newArray.elems i o hio
    constructor
    · intro hany
      simp only [hg, hany, if_true]
    · intro hany
      simp only [hg, hany, Bool.false_eq_true, if_false]

/-- An instance of C18: two old records with id 1 and one new record with
id 1; the first takes the new value, the second keeps its own. -/
theorem updateModels_duplicates_witness :
    (updateModels ⟨100, [exampleRecord 1 1 "a", exampleRecord 2 1 "b"]⟩
        ⟨200, [exampleRecord 3 1 "A"]⟩).returned.elems[0]? = some (exampleRecord 1 1 "A") ∧
    (updateModels ⟨100, [exampleRecord 1 1 "a", exampleRecord 2 1 "b"]⟩
        ⟨200, [exampleRecord 3 1 "A"]⟩).returned.elems[1]? = some (exampleRecord 2 1 "b") :=
  ⟨((updateModels_duplicates ⟨100, [exampleRecord 1 1 "a", exampleRecord 2 1 "b"]⟩
      ⟨200, [exampleRecord 3 1 "A"]⟩ (by decide) (by decide)).2 0 (exampleRecord 1 1 "a")
      (by decide)).2 (by decide),
   ((updateModels_duplicates ⟨100, [exampleRecord 1 1 "a", exampleRecord 2 1 "b"]⟩
      ⟨200, [exampleRecord 3 1 "A"]⟩ (by decide) (by decide)).2 1 (exampleRecord 2 1 "b")
      (by decide)).1 (by decide)⟩

/-- C19: on the in-place path (`compareIds` true) the update loop pushes
nothing and the removal loop removes nothing: the result is `oldArray`, of
the length it had on entry, and its ids are, position by position, the ids
`oldArray` had on entry.  The new records list each key once. -/
theorem updateModels_inPlace_shape (oldArray newArray : JSArray)
    (hw : ∀ m ∈ newArray.elems, m.wellFormed)
    (hc : compareIds (oldArray.elems.map JSObject.id) (newArray.elems.map JSObject.id) = true) :
    (newArray.elems.foldl addOrUpdate oldArray.elems).length = oldArray.elems.length ∧
    removeStale newArray.elems (newArray.elems.foldl addOrUpdate oldArray.elems)
      = newArray.elems.foldl addOrUpdate oldArray.elems ∧
    (updateModels oldArray newArray).returned.addr = oldArray.addr ∧
    (updateModels oldArray newArray).returned.elems.length = oldArray.elems.length ∧
    List.Forall₂ (fun r o => JSValue.strictEq r.id o.id = true)
      (updateModels oldArray newArray).returned.elems oldArray.elems := by
  have h := updateModels_inPlace_general oldArray newArray hw hc
  have hlen : (mergeIntoFirsts newArray.elems oldArray.elems).length = oldArray.elems.length := by
    have := congrArg List.length h.2.1
    simpa using this
  rw [h.2.2.2, h.1]
  exact ⟨hlen, h.2.2.1, rfl, hlen, forall₂_of_ids_eq _ _ h.2.1⟩

/-- An instance of C19: old ids `1, 2, 1` against new ids `2, 1, 2`; the
result has the ids `1, 2, 1` of the old collection. -/
theorem updateModels_inPlace_shape_witness :
    (updateModels ⟨100, [idRecord 1 1, idRecord 2 2, idRecord 3 1]⟩
        ⟨200, [idRecord 4 2, idRecord 5 1, idRecord 6 2]⟩).returned.elems.length = 3 ∧
    (updateModels ⟨100, [idRecord 1 1, idRecord 2 2, idRecord 3 1]⟩
        ⟨200, [idRecord 4 2, idRecord 5 1, idRecord 6 2]⟩).returned.elems.map JSObject.id
      = [.num 1, .num 2, .num 1] :=
  ⟨(updateModels_inPlace_shape ⟨100, [idRecord 1 1, idRecord 2 2, idRecord 3 1]⟩
      ⟨200, [idRecord 4 2, idRecord 5 1, idRecord 6 2]⟩ (by decide) (by decide)).2.2.2.1,
   by decide⟩

end MoleculeUtils

/-! ## Termination and idempotence of `updateObjectInPlace` -/

namespace MoleculeUtils

theorem updateBounded_eq (calls : Nat) :
    (∀ (a b : JSValue), b.depth ≤ calls → updateFieldBounded calls a b = some (updateField a b)) ∧
    (∀ (pn po : Props), JSValue.depthProps pn ≤ calls →
      updateKeysBounded calls po pn = some (updateKeys po pn)) := by
  induction calls with
  | zero =>
    have hf : ∀ (a b : JSValue), b.depth ≤ 0 →
        updateFieldBounded 0 a b = some (updateField a b) := by
      intro a b hb
      cases b with
      | obj x g pn => simp [JSValue.depth] at hb
      | undefined => cases a <;> simp [updateFieldBounded, updateField]
      | null => cases a <;> simp [updateFieldBounded, updateField]
      | bool _ => cases a <;> simp [updateFieldBounded, updateField]
      | num _ => cases a <;> simp [updateFieldBounded, updateField]
      | str _ => cases a <;> simp [updateFieldBounded, updateField]
    refine ⟨hf, ?_⟩
    intro pn
    induction pn with
    | nil => intro po _; simp [updateKeysBounded, updateKeys]
    | cons p rest ih =>
      intro po hd
      obtain ⟨k, v⟩ := p
      simp only [JSValue.depthProps] at hd
      simp only [updateKeysBounded, updateKeys]
      rw [hf _ v (by omega)]
      exact ih _ (by omega)
  | succ n ihn =>
    have hf : ∀ (a b : JSValue), b.depth ≤ n + 1 →
        updateFieldBounded (n + 1) a b = some (updateField a b) := by
      intro a b hb
      cases b with
      | obj x g pn =>
        simp only [JSValue.depth] at hb
        cases a with
        | obj y f po =>
          simp only [updateFieldBounded, updateField]
          rw [ihn.2 pn po (by omega)]
          rfl
        | undefined => simp [updateFieldBounded, updateField]
        | null => simp [updateFieldBounded, updateField]
        | bool _ => simp [updateFieldBounded, updateField]
        | num _ => simp [updateFieldBounded, updateField]
        | str _ => simp [updateFieldBounded, updateField]
      | undefined => cases a <;> simp [updateFieldBounded, updateField]
      | null => cases a <;> simp [updateFieldBounded, updateField]
      | bool _ => cases a <;> simp [updateFieldBounded, updateField]
      | num _ => cases a <;> simp [updateFieldBounded, updateField]
      | str _ => cases a <;> simp [updateFieldBounded, updateField]
    refine ⟨hf, ?_⟩
    intro pn
    induction pn with
    | nil => intro po _; simp [updateKeysBounded, updateKeys]
    | cons p rest ih =>
      intro po hd
      obtain ⟨k, v⟩ := p
      simp only [JSValue.depthProps] at hd
      simp only [updateKeysBounded, updateKeys]
      rw [hf _ v (by omega)]
      exact ih _ (by omega)

/-- C17: `updateObjectInPlace` returns for every `oldObject` and every
`newObject`, arrays among their fields included, and the calls nested inside
one another never exceed the nesting depth of `newObject`: run with that
bound or a larger one it gives the result. -/
theorem updateObjectInPlace_terminates (oldObject newObject : JSObject) (calls : Nat)
    (h : newObject.toValue.depth ≤ calls) :
    updateObjectInPlaceBounded calls oldObject newObject
      = some (updateObjectInPlace oldObject newObject).toValue := by
  unfold updateObjectInPlaceBounded
  rw [(updateBounded_eq calls).1 _ _ h, updateField_toValue]

/-- An instance of C17: a new object of depth 3 with an array in it, merged
within three nested calls. -/
theorem updateObjectInPlace_terminates_witness :
    updateObjectInPlaceBounded 3
        ⟨1, false, [(.name "a", .obj 2 true [(.idx 0, .obj 3 false [(.name "x", .num 1)])])]⟩
        ⟨4, false, [(.name "a", .obj 5 true [(.idx 0, .obj 6 false [(.name "x", .num 2)])])]⟩
      = some (.obj 1 false
          [(.name "a", .obj 2 true [(.idx 0, .obj 3 false [(.name "x", .num 2)])])]) :=
  updateObjectInPlace_terminates
    ⟨1, false, [(.name "a", .obj 2 true [(.idx 0, .obj 3 false [(.name "x", .num 1)])])]⟩
    ⟨4, false, [(.name "a", .obj 5 true [(.idx 0, .obj 6 false [(.name "x", .num 2)])])]⟩ 3
    (by decide)

end MoleculeUtils

theorem replaceProp_self (ps : Props) (k : Key) : replaceProp ps k (getProp ps k) = ps := by
  induction ps with
  | nil => rfl
  | cons p rest ih =>
    obtain ⟨k1, v1⟩ := p
    simp only [replaceProp, getProp]
    by_cases h : k1 = k
    · simp [h]
    · simp only [if_neg h, ih]

theorem setProp_self (ps : Props) (k : Key) (h : hasKey ps k = true) :
    setProp ps k (getProp ps k) = ps := by
  unfold setProp
  rw [if_pos h, replaceProp_self]

theorem getProp_of_mem (ps : Props) (k : Key) (w : JSValue) (hnd : (objectKeys ps).Nodup)
    (h : (k, w) ∈ ps) : getProp ps k = w := by
  induction ps with
  | nil => cases h
  | cons p rest ih =>
    obtain ⟨k1, v1⟩ := p
    simp only [objectKeys, List.map_cons, List.nodup_cons, List.mem_map, not_exists, not_and]
      at hnd
    simp only [getProp]
    rcases List.mem_cons.1 h with e | e
    · cases e; simp
    · have hne : k1 ≠ k := by
        intro hk
        exact hnd.1 (k, w) e hk.symm
      rw [if_neg hne]
      exact ih (by simpa [objectKeys] using hnd.2) e

theorem hasKey_of_mem (ps : Props) (k : Key) (w : JSValue) (h : (k, w) ∈ ps) :
    hasKey ps k = true := by
  simp only [hasKey, List.any_eq_true, beq_iff_eq]
  exact ⟨(k, w), h, rfl⟩

theorem depth_le_of_mem (ps : Props) (k : Key) (w : JSValue) (h : (k, w) ∈ ps) :
    w.depth ≤ JSValue.depthProps ps := by
  induction ps with
  | nil => cases h
  | cons p rest ih =>
    obtain ⟨k1, v1⟩ := p
    simp only [JSValue.depthProps]
    rcases List.mem_cons.1 h with e | e
    · cases e; omega
    · have := ih e; omega

theorem keysOnce_of_mem (ps : Props) (k : Key) (w : JSValue)
    (hk : JSValue.propsKeysOnce ps = true) (h : (k, w) ∈ ps) : w.keysOnce = true := by
  induction ps with
  | nil => cases h
  | cons p rest ih =>
    obtain ⟨k1, v1⟩ := p
    simp only [JSValue.propsKeysOnce, Bool.and_eq_true] at hk
    rcases List.mem_cons.1 h with e | e
    · cases e; exact hk.1
    · exact ih hk.2 e

namespace MoleculeUtils

theorem updateKeys_fixed (qs : Props) (c : Props)
    (h : ∀ k w, (k, w) ∈ qs → hasKey c k = true ∧ updateField (getProp c k) w = getProp c k) :
    updateKeys c qs = c := by
  induction qs with
  | nil => simp [updateKeys]
  | cons p rest ih =>
    obtain ⟨k, w⟩ := p
    simp only [updateKeys]
    have hk := h k w (List.mem_cons_self _ _)
    rw [hk.2, setProp_self c k hk.1]
    exact ih (fun k2 w2 h2 => h k2 w2 (List.mem_cons_of_mem _ h2))

theorem updateField_idem (n : Nat) : ∀ v : JSValue, v.depth ≤ n → v.keysOnce = true →
    updateField v v = v ∧ ∀ a, updateField (updateField a v) v = updateField a v := by
  induction n with
  | zero =>
    intro v hd _
    cases v with
    | obj x g ps => simp [JSValue.depth] at hd
    | undefined => exact ⟨by simp [updateField], fun a => by cases a <;> simp [updateField]⟩
    | null => exact ⟨by simp [updateField], fun a => by cases a <;> simp [updateField]⟩
    | bool _ => exact ⟨by simp [updateField], fun a => by cases a <;> simp [updateField]⟩
    | num _ => exact ⟨by simp [updateField], fun a => by cases a <;> simp [updateField]⟩
    | str _ => exact ⟨by simp [updateField], fun a => by cases a <;> simp [updateField]⟩
  | succ n ih =>
    intro v hd hk
    cases v with
    | obj x g ps =>
      simp only [JSValue.depth] at hd
      simp only [JSValue.keysOnce, Bool.and_eq_true, decide_eq_true_eq] at hk
      have hval : ∀ k w, (k, w) ∈ ps →
          updateField w w = w ∧ ∀ a, updateField (updateField a w) w = updateField a w := by
        intro k w hm
        exact ih w (by have := depth_le_of_mem ps k w hm; omega) (keysOnce_of_mem ps k w hk.2 hm)
      have hself : updateKeys ps ps = ps := by
        apply updateKeys_fixed
        intro k w hm
        refine ⟨hasKey_of_mem ps k w hm, ?_⟩
        rw [getProp_of_mem ps k w hk.1 hm]
        exact (hval k w hm).1
      have h1 : updateField (.obj x g ps) (.obj x g ps) = .obj x g ps := by
        simp only [updateField, hself]
      refine ⟨h1, ?_⟩
      intro a
      cases a with
      | obj y f po =>
        simp only [updateField]
        congr 1
        apply updateKeys_fixed
        intro k w hm
        have hhas : hasKey ps k = true := hasKey_of_mem ps k w hm
        refine ⟨by rw [hasKey_updateKeys, hhas]; simp, ?_⟩
        rw [getProp_updateKeys_of_mem ps po k hk.1 hhas, getProp_of_mem ps k w hk.1 hm]
        exact (hval k w hm).2 _
      | undefined => simpa [updateField] using h1
      | null => simpa [updateField] using h1
      | bool _ => simpa [updateField] using h1
      | num _ => simpa [updateField] using h1
      | str _ => simpa [updateField] using h1
    | undefined => exact ⟨by simp [updateField], fun a => by cases a <;> simp [updateField]⟩
    | null => exact ⟨by simp [updateField], fun a => by cases a <;> simp [updateField]⟩
    | bool _ => exact ⟨by simp [updateField], fun a => by cases a <;> simp [updateField]⟩
    | num _ => exact ⟨by simp [updateField], fun a => by cases a <;> simp [updateField]⟩
    | str _ => exact ⟨by simp [updateField], fun a => by cases a <;> simp [updateField]⟩

/-- C20: merging the same `newObject` a second time changes nothing:
`updateObjectInPlace(updateObjectInPlace(oldObject, newObject), newObject)`
has the contents, and the address, of `updateObjectInPlace(oldObject,
newObject)`.  The object `newObject` and the objects nested in it list each
key once. -/
theorem updateObjectInPlace_idempotent (oldObject newObject : JSObject)
    (h : newObject.toValue.keysOnce = true) :
    updateObjectInPlace (updateObjectInPlace oldObject newObject) newObject
      = updateObjectInPlace oldObject newObject := by
  have hi := (updateField_idem newObject.toValue.depth newObject.toValue (Nat.le_refl _) h).2
    oldObject.toValue
  rw [updateField_toValue, updateField_toValue] at hi
  simp only [JSObject.toValue, JSValue.obj.injEq] at hi
  cases h1 : updateObjectInPlace (updateObjectInPlace oldObject newObject) newObject
  cases h2 : updateObjectInPlace oldObject newObject
  rw [h1, h2] at hi
  simp only at hi
  obtain ⟨ha, hb, hc⟩ := hi
  subst ha; subst hb; subst hc
  rfl

/-- An instance of C20: a nested object and an array merged twice. -/
theorem updateObjectInPlace_idempotent_witness :
    updateObjectInPlace (updateObjectInPlace
        ⟨1, false, [(.name "p", .obj 2 false [(.name "x", .num 1), (.name "y", .num 2)])]⟩
        ⟨3, false, [(.name "p", .obj 4 false [(.name "x", .num 7)]),
                    (.name "q", .obj 5 true [(.idx 0, .num 9)])]⟩)
        ⟨3, false, [(.name "p", .obj 4 false [(.name "x", .num 7)]),
                    (.name "q", .obj 5 true [(.idx 0, .num 9)])]⟩
      = ⟨1, false, [(.name "p", .obj 2 false [(.name "x", .num 7), (.name "y", .num 2)]),
                    (.name "q", .obj 5 true [(.idx 0, .num 9)])]⟩ :=
  (updateObjectInPlace_idempotent
    ⟨1, false, [(.name "p", .obj 2 false [(.name "x", .num 1), (.name "y", .num 2)])]⟩
    ⟨3, false, [(.name "p", .obj 4 false [(.name "x", .num 7)]),
                (.name "q", .obj 5 true [(.idx 0, .num 9)])]⟩ (by decide)).trans (by decide)

end MoleculeUtils

/-! ## The merge with the special writes against `updateObjectInPlace` -/

theorem keysAvoid_getProp (names : List String) (ps : Props) (k : Key)
    (h : JSValue.propsAvoid names ps = true) : (getProp ps k).keysAvoid names = true := by
  induction ps with
  | nil => rfl
  | cons p rest ih =>
    obtain ⟨k1, v1⟩ := p
    simp only [JSValue.propsAvoid, Bool.and_eq_true] at h
    simp only [getProp]
    split
    · exact h.2.1
    · exact ih h.2.2

theorem hasKey_of_propsAvoid (names : List String) (ps : Props) (k : Key)
    (h : JSValue.propsAvoid names ps = true) (hk : names.contains k.toString = true) :
    hasKey ps k = false := by
  induction ps with
  | nil => rfl
  | cons p rest ih =>
    obtain ⟨k1, v1⟩ := p
    simp only [JSValue.propsAvoid, Bool.and_eq_true, Bool.not_eq_true'] at h
    rw [hasKey_cons, ih h.2.2, Bool.or_false, decide_eq_false_iff_not]
    intro hc
    subst hc
    rw [h.1] at hk
    cases hk

theorem propsAvoid_setProp (names : List String) (ps : Props) (k : Key) (x : JSValue)
    (h : JSValue.propsAvoid names ps = true) (hk : names.contains k.toString = false)
    (hx : x.keysAvoid names = true) : JSValue.propsAvoid names (setProp ps k x) = true := by
  unfold setProp
  split
  · clear * - h hk hx
    induction ps with
    | nil => rfl
    | cons p rest ih =>
      obtain ⟨k1, v1⟩ := p
      simp only [JSValue.propsAvoid, Bool.and_eq_true, Bool.not_eq_true'] at h
      simp only [replaceProp]
      split
      · simp only [JSValue.propsAvoid, Bool.and_eq_true, Bool.not_eq_true']
        exact ⟨h.1, hx, h.2.2⟩
      · simp only [JSValue.propsAvoid, Bool.and_eq_true, Bool.not_eq_true']
        exact ⟨h.1, h.2.1, ih h.2.2⟩
  · clear * - h hk hx
    induction ps with
    | nil => simp only [insertProp, JSValue.propsAvoid, hk, hx, Bool.not_false, Bool.and_self]
    | cons p rest ih =>
      obtain ⟨k1, v1⟩ := p
      have h0 := h
      simp only [JSValue.propsAvoid, Bool.and_eq_true, Bool.not_eq_true'] at h
      simp only [insertProp]
      split
      · simp only [JSValue.propsAvoid, Bool.and_eq_true, Bool.not_eq_true']
        exact ⟨hk, hx, h.1, h.2.1, h.2.2⟩
      · simp only [JSValue.propsAvoid, Bool.and_eq_true, Bool.not_eq_true']
        exact ⟨h.1, h.2.1, ih h.2.2⟩

namespace MoleculeUtils

theorem propsAvoid_updateKeys (names : List String) (n : Nat)
    (hF : ∀ o v : JSValue, v.depth ≤ n → o.keysAvoid names = true → v.keysAvoid names = true →
      (updateField o v).keysAvoid names = true) (pn : Props) :
    ∀ po : Props, JSValue.depthProps pn ≤ n → JSValue.propsAvoid names po = true →
      JSValue.propsAvoid names pn = true → JSValue.propsAvoid names (updateKeys po pn) = true := by
  induction pn with
  | nil => intro po _ h _; simpa [updateKeys] using h
  | cons p rest ih =>
    intro po hd hpo hpn
    obtain ⟨k, v⟩ := p
    simp only [JSValue.depthProps] at hd
    simp only [JSValue.propsAvoid, Bool.and_eq_true, Bool.not_eq_true'] at hpn
    simp only [updateKeys]
    apply ih _ (by omega) _ hpn.2.2
    exact propsAvoid_setProp names po k _ hpo hpn.1
      (hF _ v (by omega) (keysAvoid_getProp names po k hpo) hpn.2.1)

theorem keysAvoid_updateField (names : List String) (n : Nat) : ∀ o v : JSValue,
    v.depth ≤ n → o.keysAvoid names = true → v.keysAvoid names = true →
    (updateField o v).keysAvoid names = true := by
  induction n with
  | zero =>
    intro o v hd _ hv
    cases v with
    | obj a f ps => simp [JSValue.depth] at hd
    | _ => cases o <;> simpa [updateField] using hv
  | succ n ih =>
    intro o v hd ho hv
    cases v with
    | obj a f pn =>
      cases o with
      | obj b g po =>
        simp only [updateField, JSValue.keysAvoid]
        simp only [JSValue.depth, Nat.add_le_add_iff_right] at hd
        exact propsAvoid_updateKeys names n ih pn po hd ho hv
      | _ => simpa [updateField] using hv
    | _ => cases o <;> simpa [updateField] using hv

theorem updateKeysFull_eq (lengthOf : JSValue → Option Nat) (oa na : Bool) (n : Nat)
    (hF : ∀ o v : JSValue, v.depth ≤ n → o.keysAvoid specialNames = true →
      v.keysAvoid specialNames = true → updateFieldFull lengthOf o v = .ok (updateField o v))
    (pn : Props) :
    ∀ po : Props, JSValue.depthProps pn ≤ n → JSValue.propsAvoid specialNames po = true →
      JSValue.propsAvoid specialNames pn = true →
      updateKeysFull lengthOf oa na po pn = .ok (updateKeys po pn) := by
  induction pn with
  | nil => intro po _ _ _; simp [updateKeysFull, updateKeys]
  | cons p rest ih =>
    intro po hd hpo hpn
    obtain ⟨k, v⟩ := p
    simp only [JSValue.depthProps] at hd
    simp only [JSValue.propsAvoid, Bool.and_eq_true, Bool.not_eq_true'] at hpn
    have hk := hpn.1
    have hlen : k ≠ .name "length" := by
      intro hc; subst hc; revert hk; decide
    have hproto : k ≠ .name "__proto__" := by
      intro hc; subst hc; revert hk; decide
    have hinh : k.toString ∉ inheritedNames oa := by
      intro hc
      have : specialNames.contains k.toString = true := by
        rw [List.contains, List.elem_iff]
        cases oa
        · exact List.mem_cons_of_mem _ (List.mem_append_right _ hc)
        · exact List.mem_cons_of_mem _ hc
      rw [hk] at this
      cases this
    have hx := keysAvoid_updateField specialNames n (getProp po k) v (by omega)
      (keysAvoid_getProp specialNames po k hpo) hpn.2.1
    have hnolen : hasKey po (.name "length") = false :=
      hasKey_of_propsAvoid specialNames po _ hpo (by decide)
    have hw : writeProp lengthOf oa po k (updateField (getProp po k) v)
        = some (setProp po k (updateField (getProp po k) v)) := by
      unfold writeProp
      rw [if_neg (fun hc => hproto hc.1), if_neg (fun hc => hlen hc.2)]
      split
      · cases k with
        | idx i =>
          simp only [Option.some.injEq]
          unfold growLength
          rw [getProp_setProp, if_neg (by simp), getProp_of_hasKey_false po _ hnolen]
        | name s => rfl
      · rfl
    rw [updateKeysFull, if_neg (fun hc => hlen hc.2), if_neg (fun hc => hproto hc.2),
      if_neg (fun hc => hinh hc.2.1), hF _ v (by omega) (keysAvoid_getProp specialNames po k hpo)
        hpn.2.1]
    simp only [hw, updateKeys]
    exact ih _ (by omega) (propsAvoid_setProp specialNames po k _ hpo hk hx) hpn.2.2

theorem updateFieldFull_eq (lengthOf : JSValue → Option Nat) (n : Nat) : ∀ o v : JSValue,
    v.depth ≤ n → o.keysAvoid specialNames = true → v.keysAvoid specialNames = true →
    updateFieldFull lengthOf o v = .ok (updateField o v) := by
  induction n with
  | zero =>
    intro o v hd _ _
    cases v with
    | obj a f ps => simp [JSValue.depth] at hd
    | _ => cases o <;> simp [updateFieldFull, updateField]
  | succ n ih =>
    intro o v hd ho hv
    cases v with
    | obj a f pn =>
      cases o with
      | obj b g po =>
        simp only [JSValue.depth, Nat.add_le_add_iff_right] at hd
        simp only [updateFieldFull, updateField,
          updateKeysFull_eq lengthOf g f n ih pn po hd ho hv]
      | _ => simp [updateFieldFull, updateField]
    | _ => cases o <;> simp [updateFieldFull, updateField]

/-- On data none of whose keys is `length` or a name that objects inherit,
the merge with the special writes returns, and returns what
`updateObjectInPlace` gives. -/
theorem updateObjectInPlaceFull_eq (lengthOf : JSValue → Option Nat)
    (oldObject newObject : JSObject)
    (hold : oldObject.toValue.keysAvoid specialNames = true)
    (hnew : newObject.toValue.keysAvoid specialNames = true) :
    updateObjectInPlaceFull lengthOf oldObject newObject
      = .ok (updateObjectInPlace oldObject newObject) := by
  have h := updateKeysFull_eq lengthOf oldObject.isArray newObject.isArray
    (JSValue.depthProps newObject.props)
    (updateFieldFull_eq lengthOf (JSValue.depthProps newObject.props)) newObject.props
    oldObject.props (Nat.le_refl _) hold hnew
  simp only [updateObjectInPlaceFull, h, updateObjectInPlace]

end MoleculeUtils
